import Mathlib

/-! StackSnap: snapshot store and compose reconstruction.

A shallow embedding of `internal/snapshot/snapshot.go` and
`internal/docker/docker.go`, followed by theorems about them.

Conventions of the embedding.

* Go strings and the byte slices the store reads and writes are modelled as
  Lean `String`s (sequences of Unicode code points).  Every document that
  reaches `Save` is text (`ToCompose` builds it from a string builder, the
  Portainer client decodes it from JSON), and `for _, r := range name` visits
  exactly the code points of such a string.
* Go compares strings bytewise; on UTF-8 text that is the lexicographic order
  of the code points, which is the order of `List Char`.
* The filesystem is explicit state.  Operating-system calls whose error the
  source checks take a fault argument saying whether (and how) the call fails.
* `crypto/sha256` is modelled in full (FIPS 180-4); the diff library is a
  parameter.
-/

namespace StackSnap

/-! ## Go `strings` helpers -/

/-- Go `strings.HasSuffix`. -/
def HasSuffix (s suffix : String) : Bool :=
  suffix.data.reverse.isPrefixOf s.data.reverse

/-- Go `strings.TrimSuffix`: `s[:len(s)-len(suffix)]` when `s` ends in `suffix`. -/
def TrimSuffix (s suffix : String) : String :=
  if HasSuffix s suffix then ⟨s.data.take (s.data.length - suffix.data.length)⟩ else s

/-- Go `unicode.IsSpace`. -/
def isSpace (c : Char) : Bool :=
  let v := c.toNat
  (9 ≤ v && v ≤ 13) || v == 32 || v == 133 || v == 160 || v == 5760 ||
    (8192 ≤ v && v ≤ 8202) || v == 8232 || v == 8233 || v == 8239 || v == 8287 || v == 12288

/-- Go `strings.TrimSpace`. -/
def TrimSpace (s : String) : String :=
  ⟨(s.data.dropWhile isSpace).rdropWhile isSpace⟩

/-- Go `strings.Trim(s, cutset)`: drop leading and trailing code points that occur in `cutset`. -/
def Trim (s cutset : String) : String :=
  ⟨(s.data.dropWhile (fun c => cutset.data.contains c)).rdropWhile
    (fun c => cutset.data.contains c)⟩

/-- Split a text at every occurrence of the one-character separator `sep`
(Go `strings.Split` with a one-character separator); the result is never empty. -/
def splitAt (sep : Char) : List Char → List (List Char)
  | [] => [[]]
  | c :: cs =>
    if c = sep then [] :: splitAt sep cs
    else
      match splitAt sep cs with
      | [] => [[c]]
      | w :: ws => (c :: w) :: ws

/-- Go `strings.Split(s, "/")[0]` and the first result of `strings.Cut(s, sep)`:
the text before the first separator, all of `s` when there is none. -/
def beforeFirst (sep : Char) (s : String) : String :=
  ⟨(splitAt sep s.data).headD []⟩

/-- The second result of Go `strings.Cut(s, sep)`: the text after the first
separator, empty when there is none. -/
def afterFirst (sep : Char) (s : String) : String :=
  ⟨(s.data.dropWhile (fun c => c != sep)).drop 1⟩

/-- Go `sort.Strings`: ascending bytewise order. -/
def sortStrings (l : List String) : List String :=
  l.insertionSort (fun a b => a.data ≤ b.data)

/-! ## `crypto/sha256` and `encoding/hex` -/

namespace Sha256

/-- Reduce to a 32-bit word. -/
def mask32 (x : Nat) : Nat := x % 4294967296

/-- Rotate a 32-bit word right by `n` bits. -/
def rotr (x n : Nat) : Nat := mask32 ((x >>> n) ||| (x <<< (32 - n)))

/-- The 64 round constants. -/
def K : List Nat := [
  0x428a2f98, 0x71374491, 0xb5c0fbcf, 0xe9b5dba5, 0x3956c25b, 0x59f111f1, 0x923f82a4, 0xab1c5ed5,
  0xd807aa98, 0x12835b01, 0x243185be, 0x550c7dc3, 0x72be5d74, 0x80deb1fe, 0x9bdc06a7, 0xc19bf174,
  0xe49b69c1, 0xefbe4786, 0x0fc19dc6, 0x240ca1cc, 0x2de92c6f, 0x4a7484aa, 0x5cb0a9dc, 0x76f988da,
  0x983e5152, 0xa831c66d, 0xb00327c8, 0xbf597fc7, 0xc6e00bf3, 0xd5a79147, 0x06ca6351, 0x14292967,
  0x27b70a85, 0x2e1b2138, 0x4d2c6dfc, 0x53380d13, 0x650a7354, 0x766a0abb, 0x81c2c92e, 0x92722c85,
  0xa2bfe8a1, 0xa81a664b, 0xc24b8b70, 0xc76c51a3, 0xd192e819, 0xd6990624, 0xf40e3585, 0x106aa070,
  0x19a4c116, 0x1e376c08, 0x2748774c, 0x34b0bcb5, 0x391c0cb3, 0x4ed8aa4a, 0x5b9cca4f, 0x682e6ff3,
  0x748f82ee, 0x78a5636f, 0x84c87814, 0x8cc70208, 0x90befffa, 0xa4506ceb, 0xbef9a3f7, 0xc67178f2]

/-- The eight working words of the hash. -/
structure Digest where
  h0 : Nat
  h1 : Nat
  h2 : Nat
  h3 : Nat
  h4 : Nat
  h5 : Nat
  h6 : Nat
  h7 : Nat

/-- Initial hash value. -/
def init : Digest :=
  ⟨0x6a09e667, 0xbb67ae85, 0x3c6ef372, 0xa54ff53a, 0x510e527f, 0x9b05688c, 0x1f83d9ab, 0x5be0cd19⟩

/-- Big-endian value of a byte string. -/
def beWord (bs : List Nat) : Nat := bs.foldl (fun acc b => acc * 256 + b) 0

/-- The first `n` big-endian 32-bit words of a byte string. -/
def firstWords : Nat → List Nat → List Nat
  | 0, _ => []
  | n + 1, bs => beWord (bs.take 4) :: firstWords n (bs.drop 4)

/-- Append word `i` of the message schedule. -/
def extend (w : List Nat) (i : Nat) : List Nat :=
  let w15 := w.getD (i - 15) 0
  let w2 := w.getD (i - 2) 0
  let s0 := rotr w15 7 ^^^ rotr w15 18 ^^^ (w15 >>> 3)
  let s1 := rotr w2 17 ^^^ rotr w2 19 ^^^ (w2 >>> 10)
  w ++ [mask32 (w.getD (i - 16) 0 + s0 + w.getD (i - 7) 0 + s1)]

/-- The 64-word message schedule of one 64-byte block. -/
def schedule (block : List Nat) : List Nat :=
  (List.range 48).foldl (fun w j => extend w (j + 16)) (firstWords 16 block)

/-- One round of the compression function, for round constant `kw.1` and schedule word `kw.2`. -/
def round (s : Digest) (kw : Nat × Nat) : Digest :=
  let S1 := rotr s.h4 6 ^^^ rotr s.h4 11 ^^^ rotr s.h4 25
  let ch := (s.h4 &&& s.h5) ^^^ ((4294967295 - s.h4) &&& s.h6)
  let t1 := mask32 (s.h7 + S1 + ch + kw.1 + kw.2)
  let S0 := rotr s.h0 2 ^^^ rotr s.h0 13 ^^^ rotr s.h0 22
  let maj := (s.h0 &&& s.h1) ^^^ (s.h0 &&& s.h2) ^^^ (s.h1 &&& s.h2)
  let t2 := mask32 (S0 + maj)
  ⟨mask32 (t1 + t2), s.h0, s.h1, s.h2, mask32 (s.h3 + t1), s.h4, s.h5, s.h6⟩

/-- Compression of one block into the running hash. -/
def compress (s : Digest) (block : List Nat) : Digest :=
  let r := (K.zip (schedule block)).foldl round s
  ⟨mask32 (s.h0 + r.h0), mask32 (s.h1 + r.h1), mask32 (s.h2 + r.h2), mask32 (s.h3 + r.h3),
   mask32 (s.h4 + r.h4), mask32 (s.h5 + r.h5), mask32 (s.h6 + r.h6), mask32 (s.h7 + r.h7)⟩

/-- The `width` big-endian bytes of `x`. -/
def beBytes (width x : Nat) : List Nat :=
  (List.range width).map (fun i => (x >>> (8 * (width - 1 - i))) % 256)

/-- Message padding: a one bit, zeros up to 56 modulo 64, the bit length on 8 bytes. -/
def pad (msg : List Nat) : List Nat :=
  msg ++ [128] ++ List.replicate ((119 - msg.length % 64) % 64) 0 ++ beBytes 8 (8 * msg.length)

/-- Fold the compression function over `n` consecutive 64-byte blocks. -/
def blocks : Nat → Digest → List Nat → Digest
  | 0, s, _ => s
  | n + 1, s, bs => blocks n (compress s (bs.take 64)) (bs.drop 64)

/-- Go `sha256.Sum256`: the 32-byte digest of a byte string. -/
def Sum256 (msg : List Nat) : List Nat :=
  let p := pad msg
  let r := blocks (p.length / 64) init p
  [r.h0, r.h1, r.h2, r.h3, r.h4, r.h5, r.h6, r.h7].flatMap (beBytes 4)

end Sha256

/-- The UTF-8 bytes of one code point. -/
def utf8Bytes (c : Char) : List Nat :=
  let v := c.toNat
  if v < 128 then [v]
  else if v < 2048 then [192 + v / 64, 128 + v % 64]
  else if v < 65536 then [224 + v / 4096, 128 + v / 64 % 64, 128 + v % 64]
  else [240 + v / 262144, 128 + v / 4096 % 64, 128 + v / 64 % 64, 128 + v % 64]

/-- The bytes of a text. -/
def bytesOf (s : String) : List Nat := s.data.flatMap utf8Bytes

/-- One digit of Go's `hextable`, "0123456789abcdef". -/
def hexDigit (n : Nat) : Char := "0123456789abcdef".data.getD n '0'

/-- Go `hex.EncodeToString`. -/
def hexEncode (bs : List Nat) : String :=
  ⟨bs.flatMap (fun b => [hexDigit (b / 16), hexDigit (b % 16)])⟩

/-- The helper `hashOf`: hex-encoded SHA-256 of the data. -/
def hashOf (data : String) : String :=
  hexEncode (Sha256.Sum256 (bytesOf data))

/-! ## `sanitiseName` -/

/-- The runes `sanitiseName` writes unchanged: `a`-`z`, `A`-`Z`, `0`-`9`, dash, underscore, dot. -/
def keepRune (r : Char) : Bool :=
  ('a' ≤ r && r ≤ 'z') || ('A' ≤ r && r ≤ 'Z') || ('0' ≤ r && r ≤ '9') ||
    r == '-' || r == '_' || r == '.'

/-- The function `sanitiseName`: the loop writes each rune or an underscore to the
builder, then dots are trimmed and an empty result becomes "unknown". -/
def sanitiseName (name : String) : String :=
  let b := name.data.foldl (fun (b : String) r => if keepRune r then b.push r else b.push '_') ""
  let s := Trim b "."
  if s = "" then "unknown" else s

/-! ## `path/filepath` (Unix) -/

/-- One element of a path processed by `filepath.Clean`; `stack` holds the elements
kept so far, innermost first.  Empty elements and `.` vanish, `..` removes the
element before it unless there is none or it is itself `..`. -/
def cleanStep (rooted : Bool) (stack : List (List Char)) (c : List Char) : List (List Char) :=
  if c = [] ∨ c = ['.'] then stack
  else if c = ['.', '.'] then
    match stack with
    | [] => if rooted then [] else [c]
    | top :: rest => if top = ['.', '.'] then c :: stack else rest
  else c :: stack

/-- Whether a path starts at the root. -/
def isRooted (p : String) : Bool := p.data.head? = some '/'

/-- The elements that remain of a path after `filepath.Clean`, outermost first. -/
def elements (p : String) : List (List Char) :=
  ((splitAt '/' p.data).foldl (cleanStep (isRooted p)) []).reverse

/-- A cleaned path written out from its elements. -/
def render (rooted : Bool) (elems : List (List Char)) : String :=
  if rooted then ⟨'/' :: ['/'].intercalate elems⟩
  else if elems = [] then "." else ⟨['/'].intercalate elems⟩

/-- Go `filepath.Clean`. -/
def Clean (p : String) : String := render (isRooted p) (elements p)

/-- Go `filepath.Join` of two elements: the text from the first non-empty element
on, joined by the separator and cleaned; empty when both are empty. -/
def Join (a b : String) : String :=
  if a ≠ "" then Clean (a ++ "/" ++ b)
  else if b ≠ "" then Clean b
  else ""

/-! ## The clock -/

/-- A reading of `time.Now()`, by calendar field. -/
structure Time where
  year : Nat
  month : Nat
  day : Nat
  hour : Nat
  minute : Nat
deriving DecidableEq

/-- Decimal digits of `n`, zero-padded to at least `width` characters. -/
def zeroPad (width n : Nat) : String :=
  let ds := Nat.toDigits 10 n
  ⟨List.replicate (width - ds.length) '0' ++ ds⟩

/-- Go `t.Format("2006-01-02_1504")`. -/
def Time.Format (t : Time) : String :=
  zeroPad 4 t.year ++ "-" ++ zeroPad 2 t.month ++ "-" ++ zeroPad 2 t.day ++ "_" ++
    zeroPad 2 t.hour ++ zeroPad 2 t.minute

/-! ## The filesystem -/

/-- The files of one directory: name to content. -/
abbrev Dir := AList (fun _ : String => String)

/-- The directories that hold files, by path, each with its files; `none` where
there is no such directory.  A directory is recorded for the files it holds:
its subdirectories are no entries of it, and a parent directory that holds no
file has no record of its own. -/
abbrev Disk := String → Option Dir

/-- Go `os.MkdirAll`, as far as the files on disk tell: nothing to do when the
directory exists; otherwise it is created empty, unless the call fails
(`none`).  The missing parents that the call creates on the way, also when it
fails further down, hold no file and are not recorded; what the disk says
about another path is which files it holds, and these the call does not
change. -/
def MkdirAll (fails : Bool) (disk : Disk) (path : String) : Option Disk :=
  match disk path with
  | some _ => some disk
  | none => if fails then none else some (Function.update disk path (some ∅))

/-- The content `os.ReadFile` returns; the source discards the error, so a
missing file reads as empty. -/
def ReadFile (dir : Dir) (name : String) : String :=
  (dir.lookup name).getD ""

/-- The names `os.ReadDir` returns, sorted by file name. -/
def ReadDir (dir : Dir) : List String :=
  sortStrings dir.keys

/-- How a call of `writeFile` goes wrong, if it does. -/
inductive WriteFault where
  /-- Both calls succeed. -/
  | none
  /-- The call `os.WriteFile` cannot open the temporary file; nothing is touched. -/
  | openTmp
  /-- The call `os.WriteFile` fails after writing the first `n` characters to the temporary file. -/
  | writeTmp (n : Nat)
  /-- The call `os.Rename` fails; the temporary file stays, complete. -/
  | rename
deriving DecidableEq

/-- The helper `writeFile`: write `data` to `path ++ ".tmp"`, then rename it to
`path`.  Returns the directory afterwards and whether the call returned nil. -/
def writeFile (fault : WriteFault) (dir : Dir) (path data : String) : Dir × Bool :=
  let tmp := path ++ ".tmp"
  match fault with
  | .openTmp => (dir, false)
  | .writeTmp n => (dir.insert tmp ⟨data.data.take n⟩, false)
  | .rename => (dir.insert tmp data, false)
  | .none => (((dir.insert tmp data).erase tmp).insert path data, true)

/-! ## The snapshot store -/

/-- The store: root directory and number of versions to retain.  The command
line rejects `keep < 1`, so `keep` is a natural number. -/
structure Store where
  baseDir : String
  keep : Nat

/-- The errors `Save` returns, by the operation named in the message. -/
inductive SaveError where
  | emptyData
  | createDir
  | writeVersion
  | writeLatest
  | generateDiff
  | writeDiff
  | writeHash
  | rotate
deriving DecidableEq

/-- Which operating-system calls of one `Save` fail. -/
structure Faults where
  mkdirAll : Bool
  version : WriteFault
  latest : WriteFault
  diff : WriteFault
  hash : WriteFault
  readDir : Bool
  /-- The files for which the call `os.Remove` of `rotate` fails. -/
  remove : String → Bool

/-- No call fails. -/
def Faults.never : Faults := ⟨false, .none, .none, .none, .none, false, fun _ => false⟩

/-- The version keys `rotate` collects: the `.yml` entries other than
`latest.yml`, without the suffix, in directory order. -/
def versionsOf (dir : Dir) : List String :=
  (ReadDir dir).filterMap (fun n =>
    if HasSuffix n ".yml" && n != "latest.yml" then some (TrimSuffix n ".yml") else none)

/-- Go `os.Remove` of a file of the directory, with its result discarded as in
`rotate`: the file is gone unless the call fails for it; removing a missing file
changes nothing. -/
def Remove (removeFails : String → Bool) (dir : Dir) (name : String) : Dir :=
  if removeFails name then dir else dir.erase name

/-- The method `rotate`: remove the `.yml` and `.diff` of the oldest versions beyond
`keep`.  The results of `os.Remove` are discarded by the source, so the method
returns nil also when a file could not be removed and is still there. -/
def Store.rotate (s : Store) (readDirFails : Bool) (removeFails : String → Bool) (dir : Dir) :
    Dir × Bool :=
  if readDirFails then (dir, false)
  else
    let versions := sortStrings (versionsOf dir)
    if versions.length ≤ s.keep then (dir, true)
    else
      ((versions.take (versions.length - s.keep)).foldl
        (fun d old => Remove removeFails (Remove removeFails d (old ++ ".yml")) (old ++ ".diff"))
        dir, true)

/-- The diff step of `Save` (lines 63-82) on the files of the stack directory. -/
def writeDiff (unifiedDiff : String → String → Option String) (fault : WriteFault) (dir : Dir)
    (timestamp oldData yamlData : String) : Dir × Option SaveError :=
  if oldData.length > 0 then
    match unifiedDiff oldData yamlData with
    | none => (dir, some .generateDiff)
    | some diffText =>
      if diffText ≠ "" then
        let w := writeFile fault dir (timestamp ++ ".diff") diffText
        if w.2 then (w.1, none) else (w.1, some .writeDiff)
      else (dir, none)
  else (dir, none)

/-- The body of `Save` from change detection on (lines 39-94), on the files of the
stack directory.  `unifiedDiff old new` is `difflib.GetUnifiedDiffString` on the
lines of `old` and `new` with 3 lines of context (`none` when it returns an
error).  The Boolean tells whether anything was attempted (`false` on the
"unchanged" return). -/
def Store.saveFiles (s : Store) (unifiedDiff : String → String → Option String) (now : Time)
    (f : Faults) (dir : Dir) (yamlData : String) : Dir × Option SaveError × Bool :=
  let newHash := hashOf yamlData
  let oldHash := ReadFile dir ".hash"
  if TrimSpace oldHash = newHash then (dir, none, false)
  else
    let oldData := ReadFile dir "latest.yml"
    let timestamp := now.Format
    let w1 := writeFile f.version dir (timestamp ++ ".yml") yamlData
    if w1.2 = false then (w1.1, some .writeVersion, true)
    else
      let w2 := writeFile f.latest w1.1 "latest.yml" yamlData
      if w2.2 = false then (w2.1, some .writeLatest, true)
      else
        let w3 := writeDiff unifiedDiff f.diff w2.1 timestamp oldData yamlData
        match w3.2 with
        | some e => (w3.1, some e, true)
        | none =>
          let w4 := writeFile f.hash w3.1 ".hash" newHash
          if w4.2 = false then (w4.1, some .writeHash, true)
          else
            let r := s.rotate f.readDir f.remove w4.1
            if r.2 = false then (r.1, some .rotate, true) else (r.1, none, true)

/-- The method `Save`: returns the disk afterwards and the error (`none` for nil). -/
def Store.Save (s : Store) (unifiedDiff : String → String → Option String) (now : Time)
    (f : Faults) (disk : Disk) (name yamlData : String) : Disk × Option SaveError :=
  if yamlData.length = 0 then (disk, some .emptyData)
  else
    let dir := Join s.baseDir (sanitiseName name)
    match MkdirAll f.mkdirAll disk dir with
    | none => (disk, some .createDir)
    | some disk1 =>
      let r := s.saveFiles unifiedDiff now f ((disk1 dir).getD ∅) yamlData
      if r.2.2 then (Function.update disk1 dir (some r.1), r.2.1) else (disk1, r.2.1)

/-- Successive calls of `Save` for one stack, each with its own clock reading,
faults and document, stopping at the first call that returns an error: the
disk afterwards and that error (`none` when every call returned nil). -/
def Store.saveAll (s : Store) (unifiedDiff : String → String → Option String) (name : String) :
    List (Time × Faults × String) → Disk → Disk × Option SaveError
  | [], disk => (disk, none)
  | call :: rest, disk =>
    match (s.Save unifiedDiff call.1 call.2.1 disk name call.2.2).2 with
    | none =>
      Store.saveAll s unifiedDiff name rest
        (s.Save unifiedDiff call.1 call.2.1 disk name call.2.2).1
    | some e => ((s.Save unifiedDiff call.1 call.2.1 disk name call.2.2).1, some e)

/-- The disks reachable from the empty disk by calls of `Save` that return nil. -/
inductive Reachable (s : Store) (unifiedDiff : String → String → Option String) : Disk → Prop where
  | empty : Reachable s unifiedDiff (fun _ => none)
  | save (disk : Disk) (now : Time) (f : Faults) (name yamlData : String) :
      Reachable s unifiedDiff disk →
      (s.Save unifiedDiff now f disk name yamlData).2 = none →
      Reachable s unifiedDiff (s.Save unifiedDiff now f disk name yamlData).1

/-- The sanitisation rule in the specification's words: each character that is
not an ASCII letter, a digit, dash, underscore or dot becomes one underscore,
then leading and trailing dots are stripped, and an empty result becomes the
placeholder. -/
def sanitiseSpec (name : String) : String :=
  let replaced := name.data.map
    (fun c => if c.isAlpha || c.isDigit || c == '-' || c == '_' || c == '.' then c else '_')
  let stripped := ((replaced.dropWhile (· == '.')).reverse.dropWhile (· == '.')).reverse
  if stripped = [] then "unknown" else ⟨stripped⟩

/-! ## Compose reconstruction (`internal/docker`) -/

/-- One host binding of a published port. -/
structure PortBinding where
  HostIP : String
  HostPort : String
deriving DecidableEq

/-- The fields of `containerInspect` that the code reads.  The label map is only
looked up, so it is its lookup function; the port map is ranged over, so it is
the list of its entries in the order the loop visits them. -/
structure containerInspect where
  Name : String
  Image : String
  Env : List String
  Labels : String → Option String
  RestartPolicyName : String
  Binds : List String
  Ports : List (String × List PortBinding)

/-- The struct `ContainerInfo`. -/
structure ContainerInfo where
  ServiceName : String
  Image : String
  RestartPolicy : String
  Ports : List String
  Volumes : List String
  Environment : List String
deriving DecidableEq

/-- The struct `Project`. -/
structure Project where
  Name : String
  Containers : List ContainerInfo
deriving DecidableEq

/-- The function `normaliseRestartPolicy`. -/
def normaliseRestartPolicy (name : String) : String :=
  if name = "always" ∨ name = "unless-stopped" ∨ name = "on-failure" then name
  else if name = "no" ∨ name = "" then ""
  else name

/-- The function `extractPorts`, on the entries of the port map in the order the
loop visits them. -/
def extractPorts (ports : List (String × List PortBinding)) : List String :=
  let result := ports.foldl (fun (result : List String) kv =>
    kv.2.foldl (fun (result : List String) b =>
      if b.HostPort = "" then result
      else
        let cp := beforeFirst '/' kv.1
        let entry := b.HostPort ++ ":" ++ cp
        let entry := if b.HostIP ≠ "" ∧ b.HostIP ≠ "0.0.0.0" then b.HostIP ++ ":" ++ entry else entry
        result ++ [entry]) result) []
  sortStrings result

/-- The `skip` table of `filterEnv`. -/
def skip (k : String) : Bool :=
  k = "PATH" || k = "HOME" || k = "HOSTNAME" || k = "TERM" || k = "LANG" || k = "LC_ALL"

/-- The function `filterEnv`. -/
def filterEnv (env : List String) : List String :=
  env.foldl (fun (result : List String) e =>
    let k := beforeFirst '=' e
    if skip k then result else result ++ [e]) []

/-- The double-quote character. -/
def dquote : Char := Char.ofNat 34

/-- The function `escapeYAML`: every double quote becomes backslash, double quote. -/
def escapeYAML (s : String) : String :=
  ⟨s.data.flatMap (fun c => if c = dquote then [Char.ofNat 92, dquote] else [c])⟩

/-- A quoted list item, as `ToCompose` writes ports and volumes. -/
def listItem (v : String) : String :=
  "      - " ++ String.singleton dquote ++ v ++ String.singleton dquote ++ "\n"

/-- The method `ToCompose`; the string builder is the accumulated text. -/
def Project.ToCompose (p : Project) : String :=
  let b := "# Reconstructed by StackSnap from running containers.\n" ++
    "# This is a best-effort snapshot — review before use.\n" ++ "services:\n"
  p.Containers.foldl (fun (b : String) c =>
    let b := b ++ ("  " ++ c.ServiceName ++ ":\n")
    let b := b ++ ("    image: " ++ c.Image ++ "\n")
    let b := if c.RestartPolicy ≠ "" then b ++ ("    restart: " ++ c.RestartPolicy ++ "\n") else b
    let b := if c.Ports.length > 0 then
        c.Ports.foldl (fun (b : String) port => b ++ listItem port) (b ++ "    ports:\n")
      else b
    let b := if c.Volumes.length > 0 then
        c.Volumes.foldl (fun (b : String) vol => b ++ listItem vol) (b ++ "    volumes:\n")
      else b
    if c.Environment.length > 0 then
      c.Environment.foldl (fun (b : String) env =>
        b ++ ("      " ++ beforeFirst '=' env ++ ": " ++ String.singleton dquote ++
          escapeYAML (afterFirst '=' env) ++ String.singleton dquote ++ "\n"))
        (b ++ "    environment:\n")
    else b) b

/-- The statement `projectMap[projectName] = append(projectMap[projectName], info)`
on the entries of the map, kept in order of first insertion. -/
def appendInfo (projectName : String) (info : ContainerInfo) :
    List (String × List ContainerInfo) → List (String × List ContainerInfo)
  | [] => [(projectName, [info])]
  | kv :: rest =>
    if kv.1 = projectName then (kv.1, kv.2 ++ [info]) :: rest
    else kv :: appendInfo projectName info rest

/-- The first loop of `DiscoverProjects` (lines 65-90): the project map built from
the inspected containers in discovery order. -/
def collectProjects (containers : List containerInspect) : List (String × List ContainerInfo) :=
  containers.foldl (fun projectMap c =>
    match c.Labels "com.docker.compose.project" with
    | none => projectMap
    | some projectName =>
      match c.Labels "com.docker.compose.service" with
      | none => projectMap
      | some serviceName =>
        appendInfo projectName
          { ServiceName := serviceName
            Image := c.Image
            RestartPolicy := normaliseRestartPolicy c.RestartPolicyName
            Volumes := c.Binds
            Ports := extractPorts c.Ports
            Environment := filterEnv c.Env } projectMap) []

/-- The call `sort.Slice` of line 95, ordering by `ServiceName`.  It is a stable
insertion sort, which is what `sort.Slice` runs on up to 12 elements; when the
service names are distinct every sorting algorithm returns this list. -/
def sortContainers (containers : List ContainerInfo) : List ContainerInfo :=
  containers.insertionSort (fun a b => a.ServiceName.data ≤ b.ServiceName.data)

/-- The call `sort.Slice` of line 102, ordering by `Name`. -/
def sortProjects (projects : List Project) : List Project :=
  projects.insertionSort (fun a b => a.Name.data ≤ b.Name.data)

/-- The grouping step of `DiscoverProjects` (lines 65-106), from the inspected
containers in discovery order.  `visit` gives the order in which
`range projectMap` visits the entries of the map. -/
def DiscoverProjects
    (visit : List (String × List ContainerInfo) → List (String × List ContainerInfo))
    (containers : List containerInspect) : List Project :=
  let projectMap := collectProjects containers
  let projects := (visit projectMap).foldl (fun (projects : List Project) kv =>
    projects ++ [{ Name := kv.1, Containers := sortContainers kv.2 }]) []
  sortProjects projects

/-! ## Names for parts of the code above, used to state its properties -/

/-- The versions `rotate` sets out to remove: the oldest ones beyond `keep`, that is the
slice `versions[:len(versions)-s.keep]` of the sorted version keys (empty when
there are at most `keep` versions). -/
def Store.pruned (s : Store) (dir : Dir) : List String :=
  (sortStrings (versionsOf dir)).take ((sortStrings (versionsOf dir)).length - s.keep)

/-- The text the diff step writes to the `.diff` file when no call fails, if it
writes one: the unified diff, provided the previous `latest.yml` was non-empty
and the diff is non-empty. -/
def diffWritten (unifiedDiff : String → String → Option String) (oldData yamlData : String) :
    Option String :=
  if oldData.length > 0 then
    match unifiedDiff oldData yamlData with
    | none => none
    | some diffText => if diffText ≠ "" then some diffText else none
  else none

/-- The files one `Save` may touch in the stack directory. -/
inductive Artifact where
  | version
  | versionTmp
  | latest
  | latestTmp
  | diff
  | diffTmp
  | hash
  | hashTmp
deriving DecidableEq

/-- The file name of an artifact, for the timestamp key of the call. -/
def Artifact.file (timestamp : String) : Artifact → String
  | .version => timestamp ++ ".yml"
  | .versionTmp => timestamp ++ ".yml" ++ ".tmp"
  | .latest => "latest.yml"
  | .latestTmp => "latest.yml" ++ ".tmp"
  | .diff => timestamp ++ ".diff"
  | .diffTmp => timestamp ++ ".diff" ++ ".tmp"
  | .hash => ".hash"
  | .hashTmp => ".hash" ++ ".tmp"

/-- The content of file `q` once all writes of a `Save` have succeeded and before
`rotate` runs: the new document under the version name and `latest.yml`, the diff
`dw` (if one is written) under the diff name, the new hash in `.hash`, no
temporary file of these left, every other file as in `dir`. -/
def afterWrites (timestamp yamlData newHash : String) (dw : Option String) (dir : Dir)
    (q : String) : Option String :=
  if q = ".hash" then some newHash
  else if q = ".hash" ++ ".tmp" then none
  else if dw ≠ none ∧ q = timestamp ++ ".diff" then dw
  else if dw ≠ none ∧ q = timestamp ++ ".diff" ++ ".tmp" then none
  else if q = "latest.yml" then some yamlData
  else if q = "latest.yml" ++ ".tmp" then none
  else if q = timestamp ++ ".yml" then some yamlData
  else if q = timestamp ++ ".yml" ++ ".tmp" then none
  else dir.lookup q

/-- The entry the inner loop of `extractPorts` appends for one binding of the
container port `containerPort`; nothing for a binding without host port. -/
def portEntry (containerPort : String) (b : PortBinding) : Option String :=
  if b.HostPort = "" then none
  else
    some (if b.HostIP ≠ "" ∧ b.HostIP ≠ "0.0.0.0"
      then b.HostIP ++ ":" ++ (b.HostPort ++ ":" ++ beforeFirst '/' containerPort)
      else b.HostPort ++ ":" ++ beforeFirst '/' containerPort)

/-- What the body of the first loop of `DiscoverProjects` (lines 68-89) appends for
one container: the project name and the container info; nothing when one of
the two compose labels is missing. -/
def projectInfo (c : containerInspect) : Option (String × ContainerInfo) :=
  match c.Labels "com.docker.compose.project" with
  | none => none
  | some projectName =>
    match c.Labels "com.docker.compose.service" with
    | none => none
    | some serviceName =>
      some (projectName,
        { ServiceName := serviceName
          Image := c.Image
          RestartPolicy := normaliseRestartPolicy c.RestartPolicyName
          Volumes := c.Binds
          Ports := extractPorts c.Ports
          Environment := filterEnv c.Env })

/-- The grouping label and the service label of a container that carries both. -/
def serviceKey (c : containerInspect) : Option (String × String) :=
  (projectInfo c).map (fun pi => (pi.1, pi.2.ServiceName))

/-- The last `n` elements of a list (all of it when it has fewer). -/
def lastN {α : Type} (n : Nat) (l : List α) : List α :=
  l.drop (l.length - n)

/-- The timestamp keys of a run of calls, in call order. -/
def keysOf (calls : List (Time × Faults × String)) : List String :=
  calls.map (fun c => c.1.Format)

/-- The most recent `keep` timestamp keys of a run of calls, by timestamp order:
the last `keep` of the keys sorted ascending. -/
def Store.recentKeys (s : Store) (calls : List (Time × Faults × String)) : List String :=
  lastN s.keep (sortStrings (keysOf calls))

/-- The state of the stack directory after the calls `done`, all successful, at
distinct timestamp keys, with changing hashes and no failing removal: the
version keys are the most recent `keep` keys of the calls, each version file
holds the document of its call, diff files exist for retained versions only,
and `.hash` holds the hash of the last document. -/
def Retained (s : Store) (done : List (Time × Faults × String)) (dir : Dir) : Prop :=
  sortStrings (versionsOf dir) = s.recentKeys done ∧
  (∀ c ∈ done, c.1.Format ∈ versionsOf dir → dir.lookup (c.1.Format ++ ".yml") = some c.2.2) ∧
  (∀ k, dir.lookup (k ++ ".diff") ≠ none → k ∈ versionsOf dir) ∧
  ReadFile dir ".hash" = ((done.getLast?).map (fun c => hashOf c.2.2)).getD ""

/-- Concatenation of a list of texts, in order. -/
def concatAll (l : List String) : String :=
  l.foldr (fun a b => a ++ b) ""

/-- The three lines `ToCompose` writes first: the two comment lines and `services:`. -/
def composeHeader : String :=
  "# Reconstructed by StackSnap from running containers.\n" ++
    "# This is a best-effort snapshot — review before use.\n" ++ "services:\n"

/-- What `ToCompose` writes for the restart policy of a service (lines 122-124). -/
def restartLines (c : ContainerInfo) : String :=
  if c.RestartPolicy ≠ "" then "    restart: " ++ c.RestartPolicy ++ "\n" else ""

/-- What `ToCompose` writes for the ports of a service (lines 126-131). -/
def portsLines (c : ContainerInfo) : String :=
  if c.Ports.length > 0 then "    ports:\n" ++ concatAll (c.Ports.map listItem) else ""

/-- What `ToCompose` writes for the volumes of a service (lines 133-138). -/
def volumesLines (c : ContainerInfo) : String :=
  if c.Volumes.length > 0 then "    volumes:\n" ++ concatAll (c.Volumes.map listItem) else ""

/-- The line `ToCompose` writes for one environment entry (lines 143-145). -/
def envLine (env : String) : String :=
  "      " ++ beforeFirst '=' env ++ ": " ++ String.singleton dquote ++
    escapeYAML (afterFirst '=' env) ++ String.singleton dquote ++ "\n"

/-- What `ToCompose` writes for the environment of a service (lines 140-147). -/
def envLines (c : ContainerInfo) : String :=
  if c.Environment.length > 0 then "    environment:\n" ++ concatAll (c.Environment.map envLine)
  else ""

/-- What one pass of the loop of `ToCompose` writes for a service (lines 118-148). -/
def serviceBlock (c : ContainerInfo) : String :=
  ("  " ++ c.ServiceName ++ ":\n") ++ ("    image: " ++ c.Image ++ "\n") ++ restartLines c ++
    portsLines c ++ volumesLines c ++ envLines c

/-- Undoing the replacement of `escapeYAML` on a list of characters: every
backslash that is followed by a double quote is dropped (the occurrences of
backslash, double quote cannot overlap). -/
def unescapeChars : List Char → List Char
  | [] => []
  | a :: rest =>
    if a = Char.ofNat 92 ∧ rest.head? = some dquote then unescapeChars rest
    else a :: unescapeChars rest

/-- Undoing the replacement of `escapeYAML`: backslash, double quote becomes double quote. -/
def unescapeYAML (s : String) : String := ⟨unescapeChars s.data⟩

/-- The name of an environment entry in the specification's words: the text
before the first `=`, the whole entry when it has none. -/
def envName (e : String) : String := ⟨e.data.takeWhile (fun c => c != '=')⟩

/-- The filter of environment entries in the specification's words: the entries
whose name is none of the six denied names, in their original order. -/
def filterEnvSpec (env : List String) : List String :=
  env.filter (fun e => decide (envName e ∉ ["PATH", "HOME", "HOSTNAME", "TERM", "LANG", "LC_ALL"]))

/-- The port entry in the specification's words: `hostPort:containerPort`, with
the container port being the key text before its first `/`, prefixed by
`hostIP:` if and only if the host IP is non-empty and not `0.0.0.0`. -/
def portEntrySpec (key : String) (b : PortBinding) : String :=
  (if b.HostIP ≠ "" ∧ b.HostIP ≠ "0.0.0.0" then b.HostIP ++ ":" else "") ++
    (b.HostPort ++ ":" ++ (⟨key.data.takeWhile (fun c => c != '/')⟩ : String))

/-- The entries of a port mapping in the specification's words: one per binding
whose host port is non-empty, in the order of the mapping. -/
def portEntriesSpec (ports : List (String × List PortBinding)) : List String :=
  ports.flatMap (fun kv => (kv.2.filter (fun b => decide (b.HostPort ≠ ""))).map (portEntrySpec kv.1))

/-! ## Sample inputs for the examples -/

/-- A store under `/backups` that keeps two versions. -/
def sampleStore : Store := ⟨"/backups", 2⟩

/-- A store under `/backups` that keeps one version. -/
def keepOneStore : Store := ⟨"/backups", 1⟩

/-- A stand-in for the diff library in the examples: empty for equal texts,
otherwise a header followed by the old and the new text. -/
def sampleDiff (old new : String) : Option String :=
  if old = new then some ""
  else some ("--- previous\n+++ current\n-" ++ old ++ "\n+" ++ new ++ "\n")

/-- The disk with no directory at all. -/
def noDisk : Disk := fun _ => none

/-- The clock at minute `n` of 1 January 2024, 00 h. -/
def minute (n : Nat) : Time := ⟨2024, 1, 1, 0, n⟩

/-- A disk whose stack directory `/backups/shop` holds one file, `.hash`, with the
hash of "A" followed by a newline. -/
def newlineHashDisk : Disk :=
  fun p => if p = "/backups/shop" then some (AList.insert ".hash" (hashOf "A" ++ "\n") ∅) else none

/-- A disk whose stack directory `/backups/shop` holds one file, a diff named for
minute 0, and neither `latest.yml` nor `.hash`. -/
def strayDiffDisk : Disk :=
  fun p => if p = "/backups/shop" then some (AList.insert "2024-01-01_0000.diff" "stale" ∅)
    else none

/-- The faults of a call in which renaming the temporary file to `latest.yml` fails. -/
def latestRenameFails : Faults := ⟨false, .none, .rename, .none, .none, false, fun _ => false⟩

/-- The faults of a call in which no file can be removed and no other call fails. -/
def removalFails : Faults := ⟨false, .none, .none, .none, .none, false, fun _ => true⟩

/-- Two calls within the same minute, with the documents "A" and "B". -/
def sameMinuteCalls : List (Time × Faults × String) :=
  [(minute 0, Faults.never, "A"), (minute 0, Faults.never, "B")]

/-- Three calls in successive minutes, with the documents "A", "B" and "C". -/
def threeCalls : List (Time × Faults × String) :=
  [(minute 0, Faults.never, "A"), (minute 1, Faults.never, "B"), (minute 2, Faults.never, "C")]

/-- Three calls with the clock set back before each: "A" at minute 2, "B" at
minute 1, "C" at minute 0. -/
def clockBackCalls : List (Time × Faults × String) :=
  [(minute 2, Faults.never, "A"), (minute 1, Faults.never, "B"), (minute 0, Faults.never, "C")]

/-- Two calls in successive minutes, "A" and then "B"; in the second no file can
be removed. -/
def stuckRemovalCalls : List (Time × Faults × String) :=
  [(minute 0, Faults.never, "A"), (minute 1, removalFails, "B")]

/-- The labels of a container of project `shop` and service `service`. -/
def shopLabels (service : String) (k : String) : Option String :=
  if k = "com.docker.compose.project" then some "shop"
  else if k = "com.docker.compose.service" then some service
  else none

/-- A container of project `shop`, service `web`, image `nginx:1`, publishing 8080 on host port 80. -/
def webOne : containerInspect :=
  ⟨"/shop-web-1", "nginx:1", [], shopLabels "web", "always", [], [("8080/tcp", [⟨"", "80"⟩])]⟩

/-- A second container of project `shop` and service `web`, with image `nginx:2`. -/
def webTwo : containerInspect :=
  ⟨"/shop-web-2", "nginx:2", [], shopLabels "web", "always", [], []⟩

/-- A container of project `shop`, service `db`. -/
def dbOne : containerInspect :=
  ⟨"/shop-db-1", "postgres:16", [], shopLabels "db", "no", [], []⟩

/-- The project `shop` with one service `web` whose image is empty. -/
def emptyImageProject : Project :=
  ⟨"shop", [⟨"web", "", "", [], [], []⟩]⟩


/-! ## Theorems: name sanitisation -/

theorem char_le_iff (a b : Char) : a ≤ b ↔ a.toNat ≤ b.toNat := Iff.rfl

theorem uint32_le_iff (a b : UInt32) : a ≤ b ↔ a.toNat ≤ b.toNat := Iff.rfl

theorem keepRune_iff (c : Char) :
    keepRune c = (c.isAlpha || c.isDigit || c == '-' || c == '_' || c == '.') := by
  rw [Bool.eq_iff_iff]
  simp only [keepRune, Char.isAlpha, Char.isUpper, Char.isLower, Char.isDigit, Bool.or_eq_true,
    Bool.and_eq_true, decide_eq_true_eq, ge_iff_le, char_le_iff, uint32_le_iff]
  have e1 : ('a' : Char).toNat = 97 := rfl
  have e2 : ('z' : Char).toNat = 122 := rfl
  have e3 : ('A' : Char).toNat = 65 := rfl
  have e4 : ('Z' : Char).toNat = 90 := rfl
  have e5 : ('0' : Char).toNat = 48 := rfl
  have e6 : ('9' : Char).toNat = 57 := rfl
  have n1 : (97 : UInt32).toNat = 97 := rfl
  have n2 : (122 : UInt32).toNat = 122 := rfl
  have n3 : (65 : UInt32).toNat = 65 := rfl
  have n4 : (90 : UInt32).toNat = 90 := rfl
  have n5 : (48 : UInt32).toNat = 48 := rfl
  have n6 : (57 : UInt32).toNat = 57 := rfl
  have hc : c.val.toNat = c.toNat := rfl
  simp only [e1, e2, e3, e4, e5, e6, n1, n2, n3, n4, n5, n6, hc]
  tauto

theorem foldl_builder_data (l : List Char) (acc : String) :
    (l.foldl (fun (b : String) r => if keepRune r then b.push r else b.push '_') acc).data =
      acc.data ++ l.map (fun r => if keepRune r then r else '_') := by
  induction l generalizing acc with
  | nil => simp
  | cons r rs ih =>
    rw [List.foldl_cons, ih]
    by_cases h : keepRune r = true <;> simp [h, String.data_push]

theorem cutset_dot : (fun c : Char => ['.'].contains c) = (fun c => c == '.') := by
  funext c
  show List.elem c ['.'] = (c == '.')
  simp only [List.elem]
  cases (c == '.') <;> rfl

/-- The characters of `sanitiseName name`, computed on lists. -/
theorem sanitiseName_data (name : String) :
    (sanitiseName name).data =
      (if ((name.data.map (fun r => if keepRune r then r else '_')).dropWhile
            (fun c => c == '.')).rdropWhile (fun c => c == '.') = []
        then "unknown".data
        else ((name.data.map (fun r => if keepRune r then r else '_')).dropWhile
            (fun c => c == '.')).rdropWhile (fun c => c == '.')) := by
  unfold sanitiseName Trim
  simp only [foldl_builder_data, cutset_dot]
  have h0 : ("" : String).data = [] := rfl
  simp only [h0, List.nil_append]
  generalize ((name.data.map (fun r => if keepRune r then r else '_')).dropWhile
      (fun c => c == '.')).rdropWhile (fun c => c == '.') = q
  cases q with
  | nil => rfl
  | cons a q =>
    have hne : (⟨a :: q⟩ : String) ≠ "" := by
      intro h
      exact List.cons_ne_nil a q (congrArg String.data h)
    rw [if_neg hne, if_neg (List.cons_ne_nil a q)]

theorem sanitiseName_eq_spec (name : String) : sanitiseName name = sanitiseSpec name := by
  apply String.ext
  rw [sanitiseName_data]
  unfold sanitiseSpec
  have hmap : (fun r => if keepRune r then r else '_') =
      (fun c : Char => if (c.isAlpha || c.isDigit || c == '-' || c == '_' || c == '.') = true
        then c else '_') := by
    funext r
    rw [keepRune_iff]
  simp only [hmap, List.rdropWhile]
  split <;> rfl

theorem sanitiseName_chars (name : String) : ∀ c ∈ (sanitiseName name).data, keepRune c = true := by
  intro c hc
  rw [sanitiseName_data] at hc
  split at hc
  · revert c
    decide
  · have h1 := (List.rdropWhile_prefix (fun c : Char => c == '.')
      (l := (name.data.map (fun r => if keepRune r then r else '_')).dropWhile
        (fun c => c == '.'))).subset hc
    have h2 := List.dropWhile_subset (fun c : Char => c == '.') h1
    rw [List.mem_map] at h2
    obtain ⟨r, -, hr⟩ := h2
    by_cases hk : keepRune r = true
    · simp [hk] at hr
      rw [← hr]
      exact hk
    · simp [hk] at hr
      rw [← hr]
      decide

theorem sanitiseName_ne_empty (name : String) : sanitiseName name ≠ "" := by
  intro h
  have h2 := congrArg String.data h
  rw [sanitiseName_data] at h2
  split at h2
  · exact absurd h2 (by decide)
  · rename_i hne
    exact hne h2

theorem sanitiseName_head (name : String) : (sanitiseName name).data.head? ≠ some '.' := by
  rw [sanitiseName_data]
  split
  · decide
  · rename_i hne
    intro hh
    obtain ⟨t, ht⟩ := List.rdropWhile_prefix (fun c : Char => c == '.')
      (l := (name.data.map (fun r => if keepRune r then r else '_')).dropWhile
        (fun c => c == '.'))
    have h3 := List.head?_dropWhile_not (fun c : Char => c == '.')
      (name.data.map (fun r => if keepRune r then r else '_'))
    rw [← ht] at h3
    generalize List.rdropWhile (fun c : Char => c == '.')
      ((name.data.map (fun r => if keepRune r then r else '_')).dropWhile
        (fun c => c == '.')) = q at hne hh h3
    cases q with
    | nil => exact hne rfl
    | cons a q =>
      simp at hh
      subst hh
      simp at h3

theorem sanitiseName_last (name : String) : (sanitiseName name).data.getLast? ≠ some '.' := by
  rw [sanitiseName_data]
  split
  · decide
  · rename_i hne
    intro hh
    have h3 := List.rdropWhile_last_not (fun c : Char => c == '.') _ hne
    rw [List.getLast?_eq_getLast _ hne] at hh
    simp at hh
    rw [hh] at h3
    simp at h3

theorem splitAt_ne_nil (sep : Char) (l : List Char) : splitAt sep l ≠ [] := by
  induction l with
  | nil => simp [splitAt]
  | cons c cs ih =>
    unfold splitAt
    split
    · simp
    · split <;> simp

theorem splitAt_append_sep (sep : Char) (a b : List Char) :
    splitAt sep (a ++ sep :: b) = splitAt sep a ++ splitAt sep b := by
  induction a with
  | nil => simp [splitAt]
  | cons c cs ih =>
    by_cases hc : c = sep
    · simp [splitAt, hc, ih]
    · have hne := splitAt_ne_nil sep cs
      rw [List.cons_append, splitAt, if_neg hc, ih]
      conv_rhs => rw [splitAt, if_neg hc]
      cases h : splitAt sep cs with
      | nil => exact absurd h hne
      | cons w ws => simp

theorem splitAt_of_not_mem (sep : Char) (b : List Char) (h : sep ∉ b) : splitAt sep b = [b] := by
  induction b with
  | nil => rfl
  | cons c cs ih =>
    have hc : c ≠ sep := fun e => h (by simp [e])
    have hcs : sep ∉ cs := fun e => h (by simp [e])
    rw [splitAt, if_neg hc, ih hcs]

theorem elements_child (base s : String) (hb : base ≠ "") (hs : '/' ∉ s.data)
    (h0 : s.data ≠ []) (h1 : s.data ≠ ['.']) (h2 : s.data ≠ ['.', '.']) :
    isRooted (base ++ "/" ++ s) = isRooted base ∧
      elements (base ++ "/" ++ s) = elements base ++ [s.data] := by
  have hbd : base.data ≠ [] := fun e => hb (String.ext e)
  have hr : isRooted (base ++ "/" ++ s) = isRooted base := by
    unfold isRooted
    simp only [String.data_append]
    obtain ⟨a, t, hd⟩ := List.exists_cons_of_ne_nil hbd
    simp [hd]
  refine ⟨hr, ?_⟩
  unfold elements
  rw [hr]
  have hd : (base ++ "/" ++ s).data = base.data ++ '/' :: s.data := by
    simp [String.data_append]
  rw [hd, splitAt_append_sep, splitAt_of_not_mem _ _ hs, List.foldl_append]
  simp [cleanStep, h0, h1, h2]

theorem elements_plain (s : String) (hs : '/' ∉ s.data)
    (h0 : s.data ≠ []) (h1 : s.data ≠ ['.']) (h2 : s.data ≠ ['.', '.']) :
    isRooted s = false ∧ elements s = [s.data] := by
  have hr : isRooted s = false := by
    unfold isRooted
    cases hd : s.data with
    | nil => exact absurd hd h0
    | cons a t =>
      have : a ≠ '/' := fun e => hs (by simp [hd, e])
      simp [this]
  refine ⟨hr, ?_⟩
  unfold elements
  rw [hr, splitAt_of_not_mem _ _ hs]
  simp [cleanStep, h0, h1, h2]

theorem Join_child (base s : String) (hs : '/' ∉ s.data)
    (h0 : s.data ≠ []) (h1 : s.data ≠ ['.']) (h2 : s.data ≠ ['.', '.']) :
    Join base s = render (isRooted base) (elements base ++ [s.data]) := by
  unfold Join
  by_cases hb : base = ""
  · have hs0 : s ≠ "" := fun e => h0 (by rw [e])
    obtain ⟨hr, he⟩ := elements_plain s hs h0 h1 h2
    rw [if_neg (not_not.mpr hb), if_pos hs0]
    unfold Clean
    rw [hr, he, hb]
    rfl
  · obtain ⟨hr, he⟩ := elements_child base s hb hs h0 h1 h2
    rw [if_pos hb]
    unfold Clean
    rw [hr, he]

/-- C3. A sanitised stack name holds no path separator (neither slash nor
backslash) and no NUL, and is none of the empty name, `.` and `..`; hence the
directory `Save` uses, `Join baseDir (sanitiseName name)`, is the cleaned
`baseDir` followed by exactly one more element, the sanitised name: a direct
child of the configured root. -/
theorem sanitiseName_stays_in_root (baseDir name : String) :
    '/' ∉ (sanitiseName name).data ∧ Char.ofNat 92 ∉ (sanitiseName name).data ∧
      Char.ofNat 0 ∉ (sanitiseName name).data ∧
      sanitiseName name ≠ "" ∧ sanitiseName name ≠ "." ∧ sanitiseName name ≠ ".." ∧
      Clean baseDir = render (isRooted baseDir) (elements baseDir) ∧
      Join baseDir (sanitiseName name) =
        render (isRooted baseDir) (elements baseDir ++ [(sanitiseName name).data]) := by
  have hch := sanitiseName_chars name
  have hne := sanitiseName_ne_empty name
  have hhd := sanitiseName_head name
  have h1 : '/' ∉ (sanitiseName name).data := fun h => absurd (hch _ h) (by decide)
  have h2 : Char.ofNat 92 ∉ (sanitiseName name).data := fun h => absurd (hch _ h) (by decide)
  have h3 : Char.ofNat 0 ∉ (sanitiseName name).data := fun h => absurd (hch _ h) (by decide)
  have h5 : sanitiseName name ≠ "." := by
    intro e
    rw [e] at hhd
    exact hhd rfl
  have h6 : sanitiseName name ≠ ".." := by
    intro e
    rw [e] at hhd
    exact hhd rfl
  refine ⟨h1, h2, h3, hne, h5, h6, rfl, ?_⟩
  apply Join_child _ _ h1
  · intro e
    exact hne (String.ext e)
  · intro e
    exact h5 (String.ext e)
  · intro e
    exact h6 (String.ext e)

/-- C4. The code of `sanitiseName` computes the specification's rule (replace
every character other than an ASCII letter, digit, dash, underscore or dot by
one underscore, strip leading and trailing dots, use "unknown" when nothing is
left); its result is never empty, neither starts nor ends with a dot, and
consists of ASCII letters, digits, dashes, underscores and dots only. -/
theorem sanitiseName_meets_spec (name : String) :
    sanitiseName name = sanitiseSpec name ∧
      sanitiseName name ≠ "" ∧
      (sanitiseName name).data.head? ≠ some '.' ∧
      (sanitiseName name).data.getLast? ≠ some '.' ∧
      ∀ c ∈ (sanitiseName name).data,
        (c.isAlpha || c.isDigit || c == '-' || c == '_' || c == '.') = true := by
  refine ⟨sanitiseName_eq_spec name, sanitiseName_ne_empty name, sanitiseName_head name,
    sanitiseName_last name, ?_⟩
  intro c hc
  rw [← keepRune_iff]
  exact sanitiseName_chars name c hc

/-! ## Lemmas: texts, hashes and file names -/

theorem hasSuffix_iff (s suf : String) : HasSuffix s suf = true ↔ ∃ k : String, s = k ++ suf := by
  unfold HasSuffix
  rw [List.isPrefixOf_iff_prefix, List.reverse_prefix]
  constructor
  · rintro ⟨t, ht⟩
    exact ⟨⟨t⟩, String.ext (by simp [String.data_append, ht])⟩
  · rintro ⟨k, rfl⟩
    exact ⟨k.data, by simp [String.data_append]⟩

theorem trimSuffix_append (k suf : String) : TrimSuffix (k ++ suf) suf = k := by
  unfold TrimSuffix
  rw [if_pos ((hasSuffix_iff _ _).2 ⟨k, rfl⟩)]
  apply String.ext
  simp [String.data_append]

theorem append_cancel_right (a b suf : String) (h : a ++ suf = b ++ suf) : a = b := by
  have h2 := congrArg String.data h
  simp only [String.data_append, List.append_left_inj] at h2
  exact String.ext h2

theorem length_zeroPad (w n : Nat) : w ≤ (zeroPad w n).length := by
  unfold zeroPad
  simp only [String.length, List.length_append, List.length_replicate]
  omega

theorem length_Format (t : Time) : 15 ≤ t.Format.length := by
  unfold Time.Format
  have h1 := length_zeroPad 4 t.year
  have h2 := length_zeroPad 2 t.month
  have h3 := length_zeroPad 2 t.day
  have h4 := length_zeroPad 2 t.hour
  have h5 := length_zeroPad 2 t.minute
  simp only [String.length_append]
  have e1 : ("-" : String).length = 1 := rfl
  have e2 : ("_" : String).length = 1 := rfl
  omega

theorem dropWhile_of_forall_not {α : Type} (p : α → Bool) (l : List α)
    (h : ∀ x ∈ l, p x = false) : l.dropWhile p = l := by
  cases l with
  | nil => rfl
  | cons a t => simp [List.dropWhile, h a (by simp)]

theorem rdropWhile_of_forall_not {α : Type} (p : α → Bool) (l : List α)
    (h : ∀ x ∈ l, p x = false) : l.rdropWhile p = l := by
  unfold List.rdropWhile
  rw [dropWhile_of_forall_not p l.reverse (fun x hx => h x (List.mem_reverse.mp hx))]
  exact List.reverse_reverse l

theorem isSpace_hexDigit (n : Nat) : isSpace (hexDigit n) = false := by
  by_cases h : n < 16
  · interval_cases n <;> decide
  · have : hexDigit n = '0' := by
      unfold hexDigit
      apply List.getD_eq_default
      simp only [String.length, not_lt] at h ⊢
      exact h
    rw [this]
    decide

theorem trimSpace_hexEncode (bs : List Nat) : TrimSpace (hexEncode bs) = hexEncode bs := by
  have hall : ∀ c ∈ (hexEncode bs).data, isSpace c = false := by
    intro c hc
    unfold hexEncode at hc
    simp only [List.mem_flatMap, List.mem_cons, List.mem_singleton, List.not_mem_nil,
      or_false] at hc
    obtain ⟨b, -, hb | hb⟩ := hc <;> rw [hb] <;> exact isSpace_hexDigit _
  unfold TrimSpace
  apply String.ext
  show List.rdropWhile isSpace (List.dropWhile isSpace (hexEncode bs).data) = (hexEncode bs).data
  rw [dropWhile_of_forall_not _ _ hall, rdropWhile_of_forall_not _ _ hall]

theorem trimSpace_hashOf (d : String) : TrimSpace (hashOf d) = hashOf d :=
  trimSpace_hexEncode _

theorem length_hashOf (d : String) : (hashOf d).length = 64 := by
  unfold hashOf hexEncode Sha256.Sum256
  simp [String.length, Sha256.beBytes, List.range, List.range.loop, List.flatMap]

theorem hashOf_ne_empty (d : String) : hashOf d ≠ "" := by
  intro h
  have := length_hashOf d
  rw [h] at this
  exact absurd this (by decide)

theorem trimSpace_empty : TrimSpace "" = "" := by decide

/-- The model of SHA-256 on the test vector "abc" of FIPS 180-4. -/
theorem hashOf_abc :
    hashOf "abc" = "ba7816bf8f01cfea414140de5dae2223b00361a396177a9cb410ff61f20015ad" := by
  decide!

/-- The model of SHA-256 on the two-block test vector of FIPS 180-4. -/
theorem hashOf_two_blocks :
    hashOf "abcdbcdecdefdefgefghfghighijhijkijkljklmklmnlmnomnopnopq" =
      "248d6a61d20638b8e5c026930c3e6039a33ce45964ff2167f6ecedd419db06c1" := by
  decide!

theorem ne_of_length_ne {a b : String} (h : a.length ≠ b.length) : a ≠ b :=
  fun e => h (congrArg String.length e)

theorem getLast?_append_data (a b : String) (hb : b.data ≠ []) :
    (a ++ b).data.getLast? = b.data.getLast? := by
  rw [String.data_append]
  obtain ⟨x, t, hx⟩ := List.exists_cons_of_ne_nil hb
  rw [hx, List.getLast?_append_cons]

theorem ne_of_last_ne {a b : String} (h : a.data.getLast? ≠ b.data.getLast?) : a ≠ b :=
  fun e => h (congrArg (fun s : String => s.data.getLast?) e)

/-! ## Lemmas: `writeFile` -/

theorem tmp_ne (p : String) : p ≠ p ++ ".tmp" := by
  apply ne_of_length_ne
  rw [String.length_append]
  have : (".tmp" : String).length = 4 := rfl
  omega

theorem writeFile_ok_iff (f : WriteFault) (d : Dir) (p x : String) :
    (writeFile f d p x).2 = true ↔ f = .none := by
  cases f <;> simp [writeFile]

theorem lookup_writeFile_none (d : Dir) (p x q : String) :
    (writeFile .none d p x).1.lookup q =
      if q = p then some x else if q = p ++ ".tmp" then none else d.lookup q := by
  unfold writeFile
  by_cases h1 : q = p
  · subst h1
    simp [AList.lookup_insert]
  · by_cases h2 : q = p ++ ".tmp"
    · subst h2
      simp only [if_neg h1, if_true]
      rw [AList.lookup_insert_ne h1, AList.lookup_erase]
    · simp only [if_neg h1, if_neg h2]
      rw [AList.lookup_insert_ne h1, AList.lookup_erase_ne h2, AList.lookup_insert_ne h2]

theorem lookup_writeFile_other (f : WriteFault) (d : Dir) (p x q : String)
    (h2 : q ≠ p ++ ".tmp") (h1 : f = .none → q ≠ p) :
    (writeFile f d p x).1.lookup q = d.lookup q := by
  cases f with
  | none => rw [lookup_writeFile_none, if_neg (h1 rfl), if_neg h2]
  | openTmp => rfl
  | writeTmp n => exact AList.lookup_insert_ne h2
  | rename => exact AList.lookup_insert_ne h2

/-! ## Lemmas: version keys and `rotate` -/

theorem sortStrings_perm (l : List String) : (sortStrings l).Perm l :=
  List.perm_insertionSort _ l

theorem mem_sortStrings {l : List String} {a : String} : a ∈ sortStrings l ↔ a ∈ l :=
  (sortStrings_perm l).mem_iff

theorem length_sortStrings (l : List String) : (sortStrings l).length = l.length :=
  (sortStrings_perm l).length_eq

theorem strLe_total : IsTotal String (fun a b => a.data ≤ b.data) :=
  ⟨fun a b => le_total a.data b.data⟩

theorem strLe_trans : IsTrans String (fun a b => a.data ≤ b.data) :=
  ⟨fun _ _ _ h1 h2 => le_trans h1 h2⟩

theorem strLe_antisymm : IsAntisymm String (fun a b => a.data ≤ b.data) :=
  ⟨fun _ _ h1 h2 => String.ext (le_antisymm h1 h2)⟩

theorem sortStrings_sorted (l : List String) :
    (sortStrings l).Sorted (fun a b => a.data ≤ b.data) := by
  haveI := strLe_total
  haveI := strLe_trans
  exact List.sorted_insertionSort _ l

theorem sortStrings_eq_of_perm (l₁ l₂ : List String) (hp : l₁.Perm l₂) :
    sortStrings l₁ = sortStrings l₂ := by
  haveI := strLe_antisymm
  exact List.eq_of_perm_of_sorted
    (((sortStrings_perm l₁).trans hp).trans (sortStrings_perm l₂).symm)
    (sortStrings_sorted l₁) (sortStrings_sorted l₂)

theorem sortStrings_strict (l : List String) (h : l.Nodup) :
    (sortStrings l).Pairwise (fun a b => a.data < b.data) := by
  have h1 := sortStrings_sorted l
  have h2 : (sortStrings l).Nodup := (sortStrings_perm l).nodup_iff.mpr h
  have h3 := List.Pairwise.and h1 h2
  refine h3.imp ?_
  intro a b hab
  exact lt_of_le_of_ne hab.1 (fun e => hab.2 (String.ext e))

theorem mem_versionsOf (dir : Dir) (k : String) :
    k ∈ versionsOf dir ↔ k ≠ "latest" ∧ (k ++ ".yml") ∈ dir.keys := by
  unfold versionsOf ReadDir
  simp only [List.mem_filterMap, mem_sortStrings]
  constructor
  · rintro ⟨n, hn, hk⟩
    split at hk
    · rename_i hc
      simp only [Bool.and_eq_true, bne_iff_ne, ne_eq] at hc
      obtain ⟨k', rfl⟩ := (hasSuffix_iff _ _).1 hc.1
      rw [trimSuffix_append] at hk
      cases hk
      exact ⟨fun e => hc.2 (by rw [e]; rfl), hn⟩
    · cases hk
  · rintro ⟨h1, h2⟩
    refine ⟨k ++ ".yml", h2, ?_⟩
    have hs : HasSuffix (k ++ ".yml") ".yml" = true := (hasSuffix_iff _ _).2 ⟨k, rfl⟩
    have hne : (k ++ ".yml" != "latest.yml") = true := by
      rw [bne_iff_ne]
      intro e
      exact h1 (append_cancel_right k "latest" ".yml" e)
    rw [if_pos (by simp [hs, hne]), trimSuffix_append]

theorem mem_versionsOf_lookup (dir : Dir) (k : String) :
    k ∈ versionsOf dir ↔ k ≠ "latest" ∧ dir.lookup (k ++ ".yml") ≠ none := by
  rw [mem_versionsOf, ← AList.mem_keys, ← AList.lookup_isSome, Option.isSome_iff_ne_none]

theorem versionsOf_nodup (dir : Dir) : (versionsOf dir).Nodup := by
  unfold versionsOf
  have hnd : (ReadDir dir).Nodup := (sortStrings_perm _).nodup_iff.mpr dir.keys_nodup
  refine List.Nodup.filterMap ?_ hnd
  intro a a' b hb hb'
  simp only [Option.mem_def] at hb hb'
  split at hb
  · rename_i hc
    split at hb'
    · rename_i hc'
      simp only [Bool.and_eq_true] at hc hc'
      obtain ⟨k, rfl⟩ := (hasSuffix_iff _ _).1 hc.1
      obtain ⟨k', rfl⟩ := (hasSuffix_iff _ _).1 hc'.1
      rw [trimSuffix_append] at hb hb'
      cases hb
      cases hb'
      rfl
    · cases hb'
  · cases hb

theorem mem_pruned_versions (s : Store) (dir : Dir) (k : String) (h : k ∈ s.pruned dir) :
    k ∈ versionsOf dir :=
  mem_sortStrings.mp (List.mem_of_mem_take h)

theorem lookup_Remove (rm : String → Bool) (dir : Dir) (name q : String) :
    (Remove rm dir name).lookup q = if q = name ∧ rm name = false then none else dir.lookup q := by
  unfold Remove
  by_cases h : rm name = true
  · have hf : ¬ (q = name ∧ rm name = false) := fun hh => by rw [h] at hh; cases hh.2
    rw [if_pos h, if_neg hf]
  · have h' : rm name = false := by simpa using h
    rw [if_neg h]
    by_cases hq : q = name
    · rw [if_pos ⟨hq, h'⟩, hq, AList.lookup_erase]
    · rw [if_neg (fun hh => hq hh.1), AList.lookup_erase_ne hq]

theorem lookup_foldl_erase (rm : String → Bool) (olds : List String) (dir : Dir) (q : String) :
    (olds.foldl (fun d old => Remove rm (Remove rm d (old ++ ".yml")) (old ++ ".diff"))
        dir).lookup q =
      if (∃ old ∈ olds, q = old ++ ".yml" ∨ q = old ++ ".diff") ∧ rm q = false then none
      else dir.lookup q := by
  induction olds generalizing dir with
  | nil => simp
  | cons o os ih =>
    rw [List.foldl_cons, ih]
    by_cases hrm : rm q = false
    swap
    · rw [if_neg (fun hh => hrm hh.2), if_neg (fun hh => hrm hh.2), lookup_Remove, lookup_Remove,
        if_neg, if_neg]
      · rintro ⟨e, h⟩
        rw [← e] at h
        exact hrm h
      · rintro ⟨e, h⟩
        rw [← e] at h
        exact hrm h
    by_cases h : ∃ old ∈ os, q = old ++ ".yml" ∨ q = old ++ ".diff"
    · have h' : ∃ old ∈ o :: os, q = old ++ ".yml" ∨ q = old ++ ".diff" := by
        obtain ⟨old, ho, hq⟩ := h
        exact ⟨old, List.mem_cons_of_mem _ ho, hq⟩
      rw [if_pos ⟨h, hrm⟩, if_pos ⟨h', hrm⟩]
    · rw [if_neg (fun hh => h hh.1)]
      by_cases h1 : q = o ++ ".yml" ∨ q = o ++ ".diff"
      · have h' : ∃ old ∈ o :: os, q = old ++ ".yml" ∨ q = old ++ ".diff" :=
          ⟨o, List.mem_cons_self _ _, h1⟩
        rw [if_pos ⟨h', hrm⟩, lookup_Remove]
        rcases h1 with h1 | h1
        · by_cases h2 : q = o ++ ".diff"
          · rw [if_pos ⟨h2, h2 ▸ hrm⟩]
          · rw [if_neg (fun hh => h2 hh.1), lookup_Remove, if_pos ⟨h1, h1 ▸ hrm⟩]
        · rw [if_pos ⟨h1, h1 ▸ hrm⟩]
      · have h' : ¬ ∃ old ∈ o :: os, q = old ++ ".yml" ∨ q = old ++ ".diff" := by
          rintro ⟨old, ho, hq⟩
          rcases List.mem_cons.mp ho with e | ho
          · exact h1 (e ▸ hq)
          · exact h ⟨old, ho, hq⟩
        rw [if_neg (fun hh => h' hh.1)]
        rw [not_or] at h1
        rw [lookup_Remove, if_neg (fun hh => h1.2 hh.1), lookup_Remove,
          if_neg (fun hh => h1.1 hh.1)]

theorem rotate_ok_iff (s : Store) (b : Bool) (rm : String → Bool) (dir : Dir) :
    (s.rotate b rm dir).2 = true ↔ b = false := by
  unfold Store.rotate
  cases b
  · simp only [Bool.false_eq_true, if_false]
    split <;> simp
  · simp

theorem rotate_fail (s : Store) (rm : String → Bool) (dir : Dir) :
    (s.rotate true rm dir).1 = dir := by
  simp [Store.rotate]

/-- A file after `rotate`: gone when it is the version file or the diff file of a
pruned version and its removal does not fail, as before otherwise. -/
theorem lookup_rotate (s : Store) (rm : String → Bool) (dir : Dir) (q : String) :
    (s.rotate false rm dir).1.lookup q =
      if (∃ old ∈ s.pruned dir, q = old ++ ".yml" ∨ q = old ++ ".diff") ∧ rm q = false then none
      else dir.lookup q := by
  unfold Store.rotate Store.pruned
  simp only [Bool.false_eq_true, if_false]
  split
  · rename_i hle
    have : (sortStrings (versionsOf dir)).length - s.keep = 0 := by omega
    rw [this]
    simp
  · exact lookup_foldl_erase _ _ _ _

/-! ## Lemmas: file names told apart -/

theorem last_yml (k : String) : (k ++ ".yml").data.getLast? = some 'l' :=
  getLast?_append_data k ".yml" (by decide)

theorem last_diff (k : String) : (k ++ ".diff").data.getLast? = some 'f' :=
  getLast?_append_data k ".diff" (by decide)

theorem last_tmp (k : String) : (k ++ ".tmp").data.getLast? = some 'p' :=
  getLast?_append_data k ".tmp" (by decide)

theorem yml_ne_tmp (k p : String) : k ++ ".yml" ≠ p ++ ".tmp" := by
  apply ne_of_last_ne
  rw [last_yml, last_tmp]
  decide

theorem yml_ne_diff (k p : String) : k ++ ".yml" ≠ p ++ ".diff" := by
  apply ne_of_last_ne
  rw [last_yml, last_diff]
  decide

theorem yml_ne_hash (k : String) : k ++ ".yml" ≠ ".hash" := by
  apply ne_of_last_ne
  rw [last_yml]
  decide

theorem diff_ne_tmp (k p : String) : k ++ ".diff" ≠ p ++ ".tmp" := by
  apply ne_of_last_ne
  rw [last_diff, last_tmp]
  decide

theorem diff_ne_hash (k : String) : k ++ ".diff" ≠ ".hash" := by
  apply ne_of_last_ne
  rw [last_diff]
  decide

theorem diff_ne_latest (k : String) : k ++ ".diff" ≠ "latest.yml" := by
  apply ne_of_last_ne
  rw [last_diff]
  decide

theorem Format_ne_latest (now : Time) : now.Format ≠ "latest" := by
  apply ne_of_length_ne
  have h := length_Format now
  have : ("latest" : String).length = 6 := rfl
  omega

theorem yml_eq_latest_iff (k : String) : k ++ ".yml" = "latest.yml" ↔ k = "latest" :=
  ⟨fun e => append_cancel_right k "latest" ".yml" e, fun e => by rw [e]; rfl⟩

theorem yml_eq_yml_iff (k p : String) : k ++ ".yml" = p ++ ".yml" ↔ k = p :=
  ⟨fun e => append_cancel_right k p ".yml" e, fun e => by rw [e]⟩

theorem diff_eq_diff_iff (k p : String) : k ++ ".diff" = p ++ ".diff" ↔ k = p :=
  ⟨fun e => append_cancel_right k p ".diff" e, fun e => by rw [e]⟩


/-! ## Lemmas: the steps of `Save` -/

theorem file_length (ts : String) (a : Artifact) :
    (Artifact.file ts a).length =
      match a with
      | .version => ts.length + 4
      | .versionTmp => ts.length + 8
      | .latest => 10
      | .latestTmp => 14
      | .diff => ts.length + 5
      | .diffTmp => ts.length + 9
      | .hash => 5
      | .hashTmp => 9 := by
  cases a <;> simp [Artifact.file, String.length_append] <;> rfl

theorem file_inj (ts : String) (hts : 15 ≤ ts.length) (a b : Artifact) :
    Artifact.file ts a = Artifact.file ts b ↔ a = b := by
  constructor
  · intro h
    have hl := congrArg String.length h
    rw [file_length, file_length] at hl
    cases a <;> cases b <;> first | rfl | (exfalso; simp only at hl; omega)
  · rintro rfl
    rfl

theorem writeDiff_ok (ud : String → String → Option String) (f : WriteFault) (dir : Dir)
    (ts old d : String) (h : (writeDiff ud f dir ts old d).2 = none) (q : String) :
    (writeDiff ud f dir ts old d).1.lookup q =
      if diffWritten ud old d ≠ none ∧ q = ts ++ ".diff" then diffWritten ud old d
      else if diffWritten ud old d ≠ none ∧ q = ts ++ ".diff" ++ ".tmp" then none
      else dir.lookup q := by
  unfold writeDiff diffWritten at *
  by_cases h0 : old.length > 0
  · simp only [h0, if_true] at h ⊢
    cases hu : ud old d with
    | none => simp [hu] at h
    | some t =>
      simp only [hu] at h ⊢
      by_cases ht : t = ""
      · simp [ht]
      · simp only [ne_eq, ht, not_false_eq_true, if_true] at h ⊢
        have hf : f = .none := by
          rw [← writeFile_ok_iff f dir (ts ++ ".diff") t]
          by_contra hc
          simp [hc] at h
        subst hf
        simp only [writeFile_ok_iff, if_true]
        rw [lookup_writeFile_none]
        simp
  · simp [h0]

theorem writeFile_none_snd (d : Dir) (p x : String) : (writeFile .none d p x).2 = true := rfl

theorem writeFile_fail_snd (f : WriteFault) (d : Dir) (p x : String) (h : f ≠ .none) :
    (writeFile f d p x).2 = false := by
  cases f <;> first | rfl | exact absurd rfl h

theorem writeDiff_err (ud : String → String → Option String) (f : WriteFault) (dir : Dir)
    (ts old d : String) (e : SaveError) (h : (writeDiff ud f dir ts old d).2 = some e) :
    (e = .generateDiff ∨ e = .writeDiff) ∧
      ∀ q, q ≠ ts ++ ".diff" ++ ".tmp" → (writeDiff ud f dir ts old d).1.lookup q = dir.lookup q := by
  unfold writeDiff at *
  by_cases h0 : old.length > 0
  · rw [if_pos h0] at h ⊢
    cases hu : ud old d with
    | none =>
      rw [hu] at h
      simp only [Option.some.injEq] at h
      exact ⟨Or.inl h.symm, fun _ _ => rfl⟩
    | some t =>
      rw [hu] at h
      by_cases ht : t = ""
      · simp [ht] at h
      · simp only [ne_eq, ht, not_false_eq_true, if_true] at h ⊢
        by_cases hw : (writeFile f dir (ts ++ ".diff") t).2 = true
        · simp [hw] at h
        · simp only [hw, if_false, Option.some.injEq, Bool.false_eq_true] at h ⊢
          refine ⟨Or.inr h.symm, fun q hq => ?_⟩
          apply lookup_writeFile_other _ _ _ _ _ hq
          intro hf
          exact absurd ((writeFile_ok_iff _ _ _ _).2 hf) hw
  · simp [h0] at h

/-- A `Save` that detects a change and gets as far as `rotate` has done all its
writes; it returns nil after `rotate`, or the error of `rotate` when the
directory cannot be read. -/
theorem saveFiles_written (s : Store) (ud : String → String → Option String) (now : Time)
    (f : Faults) (dir : Dir) (d : String)
    (hch : TrimSpace (ReadFile dir ".hash") ≠ hashOf d)
    (hres : (s.saveFiles ud now f dir d).2.1 = none ∨
      (s.saveFiles ud now f dir d).2.1 = some .rotate) :
    ∃ pre : Dir,
      (∀ q, pre.lookup q =
        afterWrites now.Format d (hashOf d) (diffWritten ud (ReadFile dir "latest.yml") d) dir q) ∧
      s.saveFiles ud now f dir d =
        if f.readDir = true then (pre, some .rotate, true)
        else ((s.rotate false f.remove pre).1, none, true) := by
  unfold Store.saveFiles at *
  simp only [if_neg hch] at hres ⊢
  by_cases e1 : f.version = .none
  swap
  · simp [writeFile_fail_snd _ _ _ _ e1] at hres
  by_cases e2 : f.latest = .none
  swap
  · simp [e1, writeFile_none_snd, writeFile_fail_snd _ _ _ _ e2] at hres
  simp only [e1, e2, writeFile_none_snd, Bool.true_eq_false, if_false] at hres ⊢
  cases h3 : (writeDiff ud f.diff (writeFile .none (writeFile .none dir
      (now.Format ++ ".yml") d).1 "latest.yml" d).1 now.Format (ReadFile dir "latest.yml") d).2 with
  | some e =>
    have he := (writeDiff_err _ _ _ _ _ _ e h3).1
    rcases he with he | he <;> simp [h3, he] at hres
  | none =>
    simp only [h3] at hres ⊢
    by_cases e4 : f.hash = .none
    swap
    · simp [writeFile_fail_snd _ _ _ _ e4] at hres
    simp only [e4, writeFile_none_snd, Bool.true_eq_false, if_false] at hres ⊢
    refine ⟨(writeFile .none (writeDiff ud f.diff (writeFile .none (writeFile .none dir
      (now.Format ++ ".yml") d).1 "latest.yml" d).1 now.Format (ReadFile dir "latest.yml") d).1
      ".hash" (hashOf d)).1, ?_, ?_⟩
    · intro q
      unfold afterWrites
      rw [lookup_writeFile_none, writeDiff_ok _ _ _ _ _ _ h3, lookup_writeFile_none,
        lookup_writeFile_none]
    · cases h5 : f.readDir with
      | true => simp [Store.rotate]
      | false =>
        have hrot : ∀ x : Dir, (s.rotate false f.remove x).2 = true :=
          fun x => (rotate_ok_iff s false f.remove x).2 rfl
        simp only [hrot, Bool.true_eq_false, if_false, Bool.false_eq_true]

/-- What a `Save` that detects a change and returns nil has done: no call failed,
and the directory is `rotate` applied to the directory with all writes done. -/
theorem saveFiles_ok (s : Store) (ud : String → String → Option String) (now : Time)
    (f : Faults) (dir : Dir) (d : String)
    (hch : TrimSpace (ReadFile dir ".hash") ≠ hashOf d)
    (hok : (s.saveFiles ud now f dir d).2.1 = none) :
    ∃ pre : Dir,
      s.saveFiles ud now f dir d = ((s.rotate false f.remove pre).1, none, true) ∧
      ∀ q, pre.lookup q =
        afterWrites now.Format d (hashOf d) (diffWritten ud (ReadFile dir "latest.yml") d) dir q := by
  obtain ⟨pre, hpre, heq⟩ := saveFiles_written s ud now f dir d hch (Or.inl hok)
  refine ⟨pre, ?_, hpre⟩
  cases h5 : f.readDir with
  | true =>
    rw [heq, h5] at hok
    simp at hok
  | false =>
    rw [heq, h5]
    simp

/-- A `Save` that returns an error before `rotate` has left every file that is
not a temporary file either untouched or holding its complete new content;
`.hash` is untouched, and nothing at all is touched when the error is the one of
the version file. -/
theorem saveFiles_err (s : Store) (ud : String → String → Option String) (now : Time)
    (f : Faults) (dir : Dir) (d : String) (e : SaveError)
    (herr : (s.saveFiles ud now f dir d).2.1 = some e) (hrot : e ≠ .rotate)
    (q : String) (hq : ∀ p : String, q ≠ p ++ ".tmp") :
    ((s.saveFiles ud now f dir d).1.lookup q = dir.lookup q ∨
      (q = now.Format ++ ".yml" ∧ (s.saveFiles ud now f dir d).1.lookup q = some d) ∨
      (q = "latest.yml" ∧ (s.saveFiles ud now f dir d).1.lookup q = some d) ∨
      (q = now.Format ++ ".diff" ∧ (s.saveFiles ud now f dir d).1.lookup q ≠ none ∧
        (s.saveFiles ud now f dir d).1.lookup q =
          diffWritten ud (ReadFile dir "latest.yml") d)) ∧
    (q = ".hash" → (s.saveFiles ud now f dir d).1.lookup q = dir.lookup q) ∧
    (e = .writeVersion → (s.saveFiles ud now f dir d).1.lookup q = dir.lookup q) := by
  have hH : ".hash" ≠ now.Format ++ ".yml" := (yml_ne_hash _).symm
  have hH2 : ".hash" ≠ "latest.yml" := by decide
  have hH3 : ".hash" ≠ now.Format ++ ".diff" := (diff_ne_hash _).symm
  unfold Store.saveFiles at *
  by_cases hch : TrimSpace (ReadFile dir ".hash") = hashOf d
  · simp [hch] at herr
  simp only [if_neg hch] at herr ⊢
  by_cases e1 : f.version = .none
  swap
  · have hw := writeFile_fail_snd f.version dir (now.Format ++ ".yml") d e1
    simp only [hw, if_true] at herr ⊢
    have hl := lookup_writeFile_other f.version dir (now.Format ++ ".yml") d q (hq _)
      (fun h => absurd h e1)
    exact ⟨Or.inl hl, fun _ => hl, fun _ => hl⟩
  simp only [e1, writeFile_none_snd, Bool.true_eq_false, if_false] at herr ⊢
  have l1 := lookup_writeFile_none dir (now.Format ++ ".yml") d q
  rw [if_neg (hq _)] at l1
  by_cases e2 : f.latest = .none
  swap
  · have hw := writeFile_fail_snd f.latest (writeFile .none dir (now.Format ++ ".yml") d).1
      "latest.yml" d e2
    simp only [hw, if_true] at herr ⊢
    have hl := lookup_writeFile_other f.latest (writeFile .none dir (now.Format ++ ".yml") d).1
      "latest.yml" d q (hq _) (fun h => absurd h e2)
    simp only [Option.some.injEq] at herr
    rw [hl, l1]
    refine ⟨?_, ?_, ?_⟩
    · by_cases hv : q = now.Format ++ ".yml"
      · exact Or.inr (Or.inl ⟨hv, by rw [if_pos hv]⟩)
      · exact Or.inl (by rw [if_neg hv])
    · intro h
      rw [h, if_neg hH]
    · intro h
      rw [← herr] at h
      cases h
  simp only [e2, writeFile_none_snd, Bool.true_eq_false, if_false] at herr ⊢
  have l2 := lookup_writeFile_none (writeFile .none dir (now.Format ++ ".yml") d).1
    "latest.yml" d q
  rw [if_neg (hq _), l1] at l2
  cases h3 : (writeDiff ud f.diff (writeFile .none (writeFile .none dir
      (now.Format ++ ".yml") d).1 "latest.yml" d).1 now.Format (ReadFile dir "latest.yml") d).2 with
  | some e' =>
    simp only [h3, Option.some.injEq] at herr ⊢
    have hl := (writeDiff_err _ _ _ _ _ _ e' h3).2 q (hq _)
    have he' := (writeDiff_err _ _ _ _ _ _ e' h3).1
    rw [hl, l2]
    refine ⟨?_, ?_, ?_⟩
    · by_cases hL : q = "latest.yml"
      · exact Or.inr (Or.inr (Or.inl ⟨hL, by rw [if_pos hL]⟩))
      · by_cases hv : q = now.Format ++ ".yml"
        · exact Or.inr (Or.inl ⟨hv, by rw [if_neg hL, if_pos hv]⟩)
        · exact Or.inl (by rw [if_neg hL, if_neg hv])
    · intro h
      rw [h, if_neg hH2, if_neg hH]
    · intro h
      rw [← herr] at h
      rcases he' with he' | he' <;> rw [he'] at h <;> cases h
  | none =>
    simp only [h3] at herr ⊢
    have l3 := writeDiff_ok _ _ _ _ _ _ h3 q
    rw [if_neg (fun h : diffWritten ud (ReadFile dir "latest.yml") d ≠ none ∧
      q = now.Format ++ ".diff" ++ ".tmp" => hq _ h.2), l2] at l3
    by_cases e4 : f.hash = .none
    swap
    · have hw := writeFile_fail_snd f.hash (writeDiff ud f.diff (writeFile .none (writeFile .none
        dir (now.Format ++ ".yml") d).1 "latest.yml" d).1 now.Format
        (ReadFile dir "latest.yml") d).1 ".hash" (hashOf d) e4
      simp only [hw, if_true, Option.some.injEq] at herr ⊢
      have hl := lookup_writeFile_other f.hash (writeDiff ud f.diff (writeFile .none
        (writeFile .none dir (now.Format ++ ".yml") d).1 "latest.yml" d).1 now.Format
        (ReadFile dir "latest.yml") d).1 ".hash" (hashOf d) q (hq _) (fun h => absurd h e4)
      rw [hl, l3]
      refine ⟨?_, ?_, ?_⟩
      · by_cases hD : diffWritten ud (ReadFile dir "latest.yml") d ≠ none ∧
            q = now.Format ++ ".diff"
        · exact Or.inr (Or.inr (Or.inr ⟨hD.2, by rw [if_pos hD]; exact hD.1, by rw [if_pos hD]⟩))
        · rw [if_neg hD]
          by_cases hL : q = "latest.yml"
          · exact Or.inr (Or.inr (Or.inl ⟨hL, by rw [if_pos hL]⟩))
          · by_cases hv : q = now.Format ++ ".yml"
            · exact Or.inr (Or.inl ⟨hv, by rw [if_neg hL, if_pos hv]⟩)
            · exact Or.inl (by rw [if_neg hL, if_neg hv])
      · intro h
        rw [h, if_neg (fun h' => hH3 h'.2), if_neg hH2, if_neg hH]
      · intro h
        rw [← herr] at h
        cases h
    · simp only [e4, writeFile_none_snd, Bool.true_eq_false, if_false] at herr
      exfalso
      split at herr
      · simp only [Option.some.injEq] at herr
        exact hrot herr.symm
      · cases herr

theorem length_eq_zero_iff (d : String) : d.length = 0 ↔ d = "" := by
  constructor
  · intro h
    apply String.ext
    exact List.length_eq_zero.mp h
  · rintro rfl
    rfl

theorem Save_of_dir (s : Store) (ud : String → String → Option String) (now : Time) (f : Faults)
    (disk : Disk) (name d : String) (dir : Dir) (hd : d ≠ "")
    (h : disk (Join s.baseDir (sanitiseName name)) = some dir) :
    s.Save ud now f disk name d =
      if (s.saveFiles ud now f dir d).2.2 = true then
        (Function.update disk (Join s.baseDir (sanitiseName name))
          (some (s.saveFiles ud now f dir d).1), (s.saveFiles ud now f dir d).2.1)
      else (disk, (s.saveFiles ud now f dir d).2.1) := by
  unfold Store.Save
  rw [if_neg (fun e => hd ((length_eq_zero_iff d).1 e))]
  simp only [MkdirAll, h, Option.getD_some]

theorem Save_of_no_dir (s : Store) (ud : String → String → Option String) (now : Time)
    (f : Faults) (disk : Disk) (name d : String) (hd : d ≠ "")
    (h : disk (Join s.baseDir (sanitiseName name)) = none) :
    s.Save ud now f disk name d =
      if f.mkdirAll = true then (disk, some .createDir)
      else if (s.saveFiles ud now f ∅ d).2.2 = true then
        (Function.update disk (Join s.baseDir (sanitiseName name))
          (some (s.saveFiles ud now f ∅ d).1), (s.saveFiles ud now f ∅ d).2.1)
      else (Function.update disk (Join s.baseDir (sanitiseName name)) (some ∅),
        (s.saveFiles ud now f ∅ d).2.1) := by
  unfold Store.Save
  rw [if_neg (fun e => hd ((length_eq_zero_iff d).1 e))]
  simp only [MkdirAll, h]
  cases f.mkdirAll
  · simp
  · simp

theorem saveFiles_unchanged (s : Store) (ud : String → String → Option String) (now : Time)
    (f : Faults) (dir : Dir) (d : String) (h : TrimSpace (ReadFile dir ".hash") = hashOf d) :
    s.saveFiles ud now f dir d = (dir, none, false) := by
  unfold Store.saveFiles
  simp only [if_pos h]

theorem readFile_empty (q : String) : ReadFile (∅ : Dir) q = "" := rfl

theorem diffWritten_empty (ud : String → String → Option String) (d : String) :
    diffWritten ud "" d = none := rfl

/-- The directory a first `Save` leaves: exactly the version file, `latest.yml`
and `.hash`. -/
theorem saveFiles_first (s : Store) (ud : String → String → Option String) (now : Time)
    (f : Faults) (d : String) (hkeep : 1 ≤ s.keep)
    (hok : (s.saveFiles ud now f ∅ d).2.1 = none) :
    (s.saveFiles ud now f ∅ d).2.2 = true ∧
      versionsOf (s.saveFiles ud now f ∅ d).1 = [now.Format] ∧
      ∀ q, (s.saveFiles ud now f ∅ d).1.lookup q =
        if q = now.Format ++ ".yml" then some d
        else if q = "latest.yml" then some d
        else if q = ".hash" then some (hashOf d)
        else none := by
  have hch : TrimSpace (ReadFile (∅ : Dir) ".hash") ≠ hashOf d := by
    rw [readFile_empty, trimSpace_empty]
    exact fun e => hashOf_ne_empty d e.symm
  obtain ⟨pre, hpre, hlook⟩ := saveFiles_ok s ud now f ∅ d hch hok
  rw [readFile_empty, diffWritten_empty] at hlook
  have hts := length_Format now
  have hinj := file_inj now.Format hts
  have hlook2 : ∀ q, pre.lookup q =
      if q = now.Format ++ ".yml" then some d
      else if q = "latest.yml" then some d
      else if q = ".hash" then some (hashOf d)
      else none := by
    intro q
    rw [hlook]
    unfold afterWrites
    have eV : now.Format ++ ".yml" = Artifact.file now.Format .version := rfl
    have eVt : Artifact.file now.Format .version ++ ".tmp" =
      Artifact.file now.Format .versionTmp := rfl
    have eL : "latest.yml" = Artifact.file now.Format .latest := rfl
    have eLt : Artifact.file now.Format .latest ++ ".tmp" =
      Artifact.file now.Format .latestTmp := rfl
    have eH : ".hash" = Artifact.file now.Format .hash := rfl
    have eHt : Artifact.file now.Format .hash ++ ".tmp" =
      Artifact.file now.Format .hashTmp := rfl
    simp only [eV, eVt, eL, eLt, eH, eHt, ne_eq, not_true_eq_false, false_and, if_false,
      AList.lookup_empty]
    by_cases h1 : q = Artifact.file now.Format .version
    · subst h1
      simp [hinj]
    by_cases h2 : q = Artifact.file now.Format .latest
    · subst h2
      simp [hinj]
    by_cases h3 : q = Artifact.file now.Format .hash
    · subst h3
      simp [hinj]
    simp [h1, h2, h3]
  have hv : versionsOf pre = [now.Format] := by
    have hnd := versionsOf_nodup pre
    have hmem : ∀ k, k ∈ versionsOf pre ↔ k ∈ [now.Format] := by
      intro k
      rw [mem_versionsOf_lookup, hlook2, List.mem_singleton]
      constructor
      · rintro ⟨hk, hne⟩
        by_cases h1 : k ++ ".yml" = now.Format ++ ".yml"
        · exact append_cancel_right _ _ _ h1
        · exfalso
          rw [if_neg h1] at hne
          have h2 : k ++ ".yml" ≠ "latest.yml" :=
            fun e => hk (append_cancel_right k "latest" ".yml" e)
          have h3 : k ++ ".yml" ≠ ".hash" := by
            apply ne_of_last_ne
            rw [getLast?_append_data _ _ (by decide)]
            decide
          rw [if_neg h2, if_neg h3] at hne
          exact hne rfl
      · rintro rfl
        refine ⟨?_, by simp⟩
        apply ne_of_length_ne
        have : ("latest" : String).length = 6 := rfl
        omega
    exact List.perm_singleton.mp
      ((List.perm_ext_iff_of_nodup hnd (List.nodup_singleton _)).mpr hmem)
  have hrot : (s.rotate false f.remove pre).1 = pre := by
    unfold Store.rotate
    have : (sortStrings (versionsOf pre)).length ≤ s.keep := by
      rw [length_sortStrings, hv]
      exact hkeep
    simp [this]
  rw [hpre, hrot]
  exact ⟨rfl, hv, hlook2⟩

theorem afterWrites_yml (ts d h : String) (dw : Option String) (dir : Dir) (k : String)
    (hk : k ≠ "latest") :
    afterWrites ts d h dw dir (k ++ ".yml") =
      if k = ts then some d else dir.lookup (k ++ ".yml") := by
  unfold afterWrites
  rw [if_neg (yml_ne_hash k), if_neg (yml_ne_tmp k ".hash"),
    if_neg (fun e => yml_ne_diff k ts e.2), if_neg (fun e => yml_ne_tmp k (ts ++ ".diff") e.2),
    if_neg (fun e => hk ((yml_eq_latest_iff k).1 e)), if_neg (yml_ne_tmp k "latest.yml")]
  by_cases e : k = ts
  · rw [if_pos e, if_pos (by rw [e])]
  · rw [if_neg e, if_neg (fun e' => e ((yml_eq_yml_iff k ts).1 e')), if_neg (yml_ne_tmp k _)]

theorem afterWrites_diff (ts d h : String) (dw : Option String) (dir : Dir) (k : String) :
    afterWrites ts d h dw dir (k ++ ".diff") =
      if dw ≠ none ∧ k = ts then dw else dir.lookup (k ++ ".diff") := by
  unfold afterWrites
  rw [if_neg (diff_ne_hash k), if_neg (diff_ne_tmp k ".hash")]
  by_cases e : dw ≠ none ∧ k = ts
  · rw [if_pos e, if_pos ⟨e.1, by rw [e.2]⟩]
  · rw [if_neg e, if_neg (fun e' => e ⟨e'.1, (diff_eq_diff_iff k ts).1 e'.2⟩),
      if_neg (fun e' => diff_ne_tmp k (ts ++ ".diff") e'.2), if_neg (diff_ne_latest k),
      if_neg (diff_ne_tmp k "latest.yml"), if_neg (fun e' => yml_ne_diff ts k e'.symm),
      if_neg (diff_ne_tmp k _)]

theorem afterWrites_hash (ts d h : String) (dw : Option String) (dir : Dir) :
    afterWrites ts d h dw dir ".hash" = some h := by
  unfold afterWrites
  rw [if_pos rfl]

theorem afterWrites_latest (ts d h : String) (dw : Option String) (dir : Dir) :
    afterWrites ts d h dw dir "latest.yml" = some d := by
  unfold afterWrites
  rw [if_neg (by decide), if_neg (by decide), if_neg (fun e => diff_ne_latest ts e.2.symm),
    if_neg (fun e => (diff_ne_tmp ts (ts ++ ".diff")).elim (absurd e.2 (by
      apply ne_of_last_ne
      rw [last_tmp]
      decide))), if_pos rfl]

/-- The version keys once all writes are done: those of before, and the new one. -/
theorem mem_versionsOf_pre (now : Time) (d h : String) (dw : Option String) (dir pre : Dir)
    (hpre : ∀ q, pre.lookup q = afterWrites now.Format d h dw dir q) (k : String) :
    k ∈ versionsOf pre ↔ k = now.Format ∨ k ∈ versionsOf dir := by
  rw [mem_versionsOf_lookup, mem_versionsOf_lookup]
  constructor
  · rintro ⟨hk, hne⟩
    rw [hpre, afterWrites_yml _ _ _ _ _ _ hk] at hne
    by_cases e : k = now.Format
    · exact Or.inl e
    · rw [if_neg e] at hne
      exact Or.inr ⟨hk, hne⟩
  · rintro (e | ⟨hk, hne⟩)
    · have hk : k ≠ "latest" := e ▸ Format_ne_latest now
      refine ⟨hk, ?_⟩
      rw [hpre, afterWrites_yml _ _ _ _ _ _ hk, if_pos e]
      simp
    · refine ⟨hk, ?_⟩
      rw [hpre, afterWrites_yml _ _ _ _ _ _ hk]
      split
      · simp
      · exact hne

/-- With `keep` at least 1, `rotate` never removes a version whose key is the
largest. -/
theorem max_not_pruned (s : Store) (dir : Dir) (ts : String) (hkeep : 1 ≤ s.keep)
    (hmax : ∀ k ∈ versionsOf dir, k.data ≤ ts.data) : ts ∉ s.pruned dir := by
  intro hin
  unfold Store.pruned at hin
  have hstrict := sortStrings_strict _ (versionsOf_nodup dir)
  rw [← List.take_append_drop ((sortStrings (versionsOf dir)).length - s.keep)
    (sortStrings (versionsOf dir))] at hstrict
  have hlen : 0 < (sortStrings (versionsOf dir)).length :=
    List.length_pos_of_mem (List.mem_of_mem_take hin)
  have hdrop : (List.drop ((sortStrings (versionsOf dir)).length - s.keep)
      (sortStrings (versionsOf dir))) ≠ [] := by
    intro e
    have := congrArg List.length e
    simp only [List.length_drop, List.length_nil] at this
    omega
  obtain ⟨b, t, hb⟩ := List.exists_cons_of_ne_nil hdrop
  have hbmem : b ∈ List.drop ((sortStrings (versionsOf dir)).length - s.keep)
      (sortStrings (versionsOf dir)) := by
    rw [hb]
    exact List.mem_cons_self _ _
  have hlt := (List.pairwise_append.mp hstrict).2.2 ts hin b hbmem
  have hble := hmax b (mem_sortStrings.mp (List.mem_of_mem_drop hbmem))
  exact absurd hlt (not_lt.mpr hble)


/-! ## Lemmas: `Save` on the disk -/

theorem saveFiles_ne_emptyData (s : Store) (ud : String → String → Option String) (now : Time)
    (f : Faults) (dir : Dir) (d : String) :
    (s.saveFiles ud now f dir d).2.1 ≠ some .emptyData := by
  intro h
  by_cases hch : TrimSpace (ReadFile dir ".hash") = hashOf d
  · rw [saveFiles_unchanged _ _ _ _ _ _ hch] at h
    cases h
  · unfold Store.saveFiles at h
    simp only [if_neg hch] at h
    split at h
    · cases h
    · split at h
      · cases h
      · split at h
        · rename_i e he
          simp only [Option.some.injEq] at h
          rw [h] at he
          rcases (writeDiff_err _ _ _ _ _ _ _ he).1 with h2 | h2 <;> cases h2
        · split at h
          · cases h
          · split at h <;> cases h

theorem Save_empty_doc (s : Store) (ud : String → String → Option String) (now : Time)
    (f : Faults) (disk : Disk) (name : String) :
    s.Save ud now f disk name "" = (disk, some .emptyData) := by
  unfold Store.Save
  rw [if_pos (show ("" : String).length = 0 from rfl)]

theorem ne_empty_of_Save_ok (s : Store) (ud : String → String → Option String) (now : Time)
    (f : Faults) (disk : Disk) (name d : String) (e : Option SaveError)
    (h : (s.Save ud now f disk name d).2 = e) (he : e ≠ some .emptyData) : d ≠ "" := by
  intro hd
  rw [hd, Save_empty_doc] at h
  exact he h.symm

/-- A `Save` that detects a change and returns nil: the stack directory becomes
`rotate` of the directory with all writes done, nothing else changes. -/
theorem Save_changed_ok (s : Store) (ud : String → String → Option String) (now : Time)
    (f : Faults) (disk : Disk) (name d : String)
    (hch : TrimSpace (ReadFile ((disk (Join s.baseDir (sanitiseName name))).getD ∅) ".hash") ≠
      hashOf d)
    (hok : (s.Save ud now f disk name d).2 = none) :
    ∃ pre : Dir,
      (∀ q, pre.lookup q = afterWrites now.Format d (hashOf d)
        (diffWritten ud (ReadFile ((disk (Join s.baseDir (sanitiseName name))).getD ∅)
          "latest.yml") d)
        ((disk (Join s.baseDir (sanitiseName name))).getD ∅) q) ∧
      (s.Save ud now f disk name d).1 =
        Function.update disk (Join s.baseDir (sanitiseName name))
          (some (s.rotate false f.remove pre).1) := by
  have hd := ne_empty_of_Save_ok s ud now f disk name d none hok (by decide)
  cases hk : disk (Join s.baseDir (sanitiseName name)) with
  | none =>
    rw [hk] at hch
    rw [Save_of_no_dir s ud now f disk name d hd hk] at hok ⊢
    cases hm : f.mkdirAll with
    | true => simp [hm] at hok
    | false =>
      simp only [hm, Bool.false_eq_true, if_false, Option.getD_none] at hok hch ⊢
      have hok2 : (s.saveFiles ud now f ∅ d).2.1 = none := by
        split at hok <;> exact hok
      obtain ⟨pre, heq, hpre⟩ := saveFiles_ok s ud now f ∅ d hch hok2
      refine ⟨pre, hpre, ?_⟩
      rw [heq]
      simp
  | some dir =>
    rw [hk] at hch
    rw [Save_of_dir s ud now f disk name d dir hd hk] at hok ⊢
    simp only [Option.getD_some] at hch ⊢
    have hok2 : (s.saveFiles ud now f dir d).2.1 = none := by
      split at hok <;> exact hok
    obtain ⟨pre, heq, hpre⟩ := saveFiles_ok s ud now f dir d hch hok2
    refine ⟨pre, hpre, ?_⟩
    rw [heq]
    simp

/-- The method `rotate` removes neither `latest.yml` nor `.hash`. -/
theorem rotate_keeps_latest_hash (s : Store) (rm : String → Bool) (pre : Dir) :
    (s.rotate false rm pre).1.lookup "latest.yml" = pre.lookup "latest.yml" ∧
      (s.rotate false rm pre).1.lookup ".hash" = pre.lookup ".hash" := by
  constructor
  · rw [lookup_rotate, if_neg]
    rintro ⟨⟨old, hold, h | h⟩, -⟩
    · have h1 := ((mem_versionsOf_lookup pre old).1 (mem_pruned_versions s pre old hold)).1
      exact h1 ((yml_eq_latest_iff old).1 h.symm)
    · exact diff_ne_latest old h.symm
  · rw [lookup_rotate, if_neg]
    rintro ⟨⟨old, -, h | h⟩, -⟩
    · exact yml_ne_hash old h.symm
    · exact diff_ne_hash old h.symm

/-- With `keep` at least 1 and the new key no smaller than the existing ones,
`rotate` removes neither the new version file nor its diff. -/
theorem rotate_keeps_new (s : Store) (rm : String → Bool) (now : Time) (d h : String)
    (dw : Option String) (dir pre : Dir) (hkeep : 1 ≤ s.keep)
    (hmax : ∀ k ∈ versionsOf dir, k.data ≤ now.Format.data)
    (hpre : ∀ q, pre.lookup q = afterWrites now.Format d h dw dir q) :
    (s.rotate false rm pre).1.lookup (now.Format ++ ".yml") = pre.lookup (now.Format ++ ".yml") ∧
      (s.rotate false rm pre).1.lookup (now.Format ++ ".diff") =
        pre.lookup (now.Format ++ ".diff") := by
  have hnp : now.Format ∉ s.pruned pre := by
    apply max_not_pruned s pre now.Format hkeep
    intro k hk
    rcases (mem_versionsOf_pre now d h dw dir pre hpre k).1 hk with e | hk'
    · rw [e]
    · exact hmax k hk'
  constructor
  · rw [lookup_rotate, if_neg]
    rintro ⟨⟨old, hold, h | h⟩, -⟩
    · rw [(yml_eq_yml_iff _ _).1 h] at hnp
      exact hnp hold
    · exact yml_ne_diff _ _ h
  · rw [lookup_rotate, if_neg]
    rintro ⟨⟨old, hold, h | h⟩, -⟩
    · exact yml_ne_diff _ _ h.symm
    · rw [(diff_eq_diff_iff _ _).1 h] at hnp
      exact hnp hold


theorem saveFiles_not_attempted (s : Store) (ud : String → String → Option String) (now : Time)
    (f : Faults) (dir : Dir) (d : String) (h : (s.saveFiles ud now f dir d).2.2 = false) :
    s.saveFiles ud now f dir d = (dir, none, false) := by
  by_cases hch : TrimSpace (ReadFile dir ".hash") = hashOf d
  · exact saveFiles_unchanged _ _ _ _ _ _ hch
  · exfalso
    unfold Store.saveFiles at h
    simp only [if_neg hch] at h
    split at h
    · cases h
    · split at h
      · cases h
      · split at h
        · cases h
        · split at h
          · cases h
          · split at h <;> cases h

/-- A `Save` touches no directory but the one of its stack. -/
theorem Save_other_path (s : Store) (ud : String → String → Option String) (now : Time)
    (f : Faults) (disk : Disk) (name d path : String)
    (hp : path ≠ Join s.baseDir (sanitiseName name)) :
    (s.Save ud now f disk name d).1 path = disk path := by
  unfold Store.Save
  split
  · rfl
  · simp only [MkdirAll]
    cases hk : disk (Join s.baseDir (sanitiseName name)) with
    | none =>
      cases f.mkdirAll
      · simp only [Bool.false_eq_true, if_false]
        split <;> simp [Function.update_noteq hp]
      · rfl
    | some dir =>
      simp only
      split
      · simp [Function.update_noteq hp]
      · rfl

/-- The stack directory and the result of a `Save` on an existing directory. -/
theorem Save_on_dir (s : Store) (ud : String → String → Option String) (now : Time) (f : Faults)
    (disk : Disk) (name d : String) (dir : Dir) (hd : d ≠ "")
    (h : disk (Join s.baseDir (sanitiseName name)) = some dir) :
    (s.Save ud now f disk name d).1 (Join s.baseDir (sanitiseName name)) =
        some (s.saveFiles ud now f dir d).1 ∧
      (s.Save ud now f disk name d).2 = (s.saveFiles ud now f dir d).2.1 := by
  rw [Save_of_dir s ud now f disk name d dir hd h]
  cases ha : (s.saveFiles ud now f dir d).2.2 with
  | true => simp
  | false =>
    rw [saveFiles_not_attempted _ _ _ _ _ _ ha]
    simp [h]

/-- The stack directory and the result of a `Save` where no directory exists and
`MkdirAll` succeeds. -/
theorem Save_on_no_dir (s : Store) (ud : String → String → Option String) (now : Time)
    (f : Faults) (disk : Disk) (name d : String) (hd : d ≠ "")
    (h : disk (Join s.baseDir (sanitiseName name)) = none) (hm : f.mkdirAll = false) :
    (s.Save ud now f disk name d).1 (Join s.baseDir (sanitiseName name)) =
        some (s.saveFiles ud now f ∅ d).1 ∧
      (s.Save ud now f disk name d).2 = (s.saveFiles ud now f ∅ d).2.1 := by
  rw [Save_of_no_dir s ud now f disk name d hd h, hm]
  cases ha : (s.saveFiles ud now f ∅ d).2.2 with
  | true => simp
  | false =>
    rw [saveFiles_not_attempted _ _ _ _ _ _ ha]
    simp


/-- A `Save` whose document has the recorded hash does nothing and returns nil. -/
theorem Save_unchanged (s : Store) (ud : String → String → Option String) (now : Time)
    (f : Faults) (disk : Disk) (name d : String) (hd : d ≠ "")
    (hch : TrimSpace (ReadFile ((disk (Join s.baseDir (sanitiseName name))).getD ∅) ".hash") =
      hashOf d) :
    s.Save ud now f disk name d = (disk, none) := by
  cases hk : disk (Join s.baseDir (sanitiseName name)) with
  | none =>
    rw [hk, Option.getD_none, readFile_empty, trimSpace_empty] at hch
    exact absurd hch.symm (hashOf_ne_empty d)
  | some dir =>
    rw [hk, Option.getD_some] at hch
    rw [Save_of_dir s ud now f disk name d dir hd hk, saveFiles_unchanged _ _ _ _ _ _ hch]
    simp

theorem diffWritten_eq_some_iff (ud : String → String → Option String) (old d t : String) :
    diffWritten ud old d = some t ↔ old ≠ "" ∧ ud old d = some t ∧ t ≠ "" := by
  unfold diffWritten
  by_cases h0 : old.length > 0
  · have hne : old ≠ "" := by
      intro e
      rw [e] at h0
      exact absurd h0 (by decide)
    rw [if_pos h0]
    cases hu : ud old d with
    | none => simp
    | some x =>
      by_cases hx : x = ""
      · simp only [hx, ne_eq, not_true_eq_false, if_false, Option.some.injEq]
        constructor
        · intro h
          cases h
        · rintro ⟨-, h, h'⟩
          exact absurd h.symm h'
      · simp only [ne_eq, hx, not_false_eq_true, if_true, Option.some.injEq]
        constructor
        · rintro rfl
          exact ⟨hne, rfl, hx⟩
        · rintro ⟨-, h, -⟩
          exact h
  · have he : old = "" := (length_eq_zero_iff old).1 (by omega)
    rw [if_neg h0]
    simp [he]

/-- In a disk reached by successful `Save`s, every stack directory holds a
`latest.yml` and the hash of its content in `.hash`. -/
theorem reachable_hash_of_latest (s : Store) (ud : String → String → Option String)
    (disk : Disk) (h : Reachable s ud disk) :
    ∀ path dir, disk path = some dir →
      ∃ doc, dir.lookup "latest.yml" = some doc ∧ dir.lookup ".hash" = some (hashOf doc) := by
  induction h with
  | empty =>
    intro path dir hp
    cases hp
  | save disk now f name d _ hok ih =>
    intro path dir hp
    have hd := ne_empty_of_Save_ok s ud now f disk name d none hok (by decide)
    by_cases hch : TrimSpace (ReadFile ((disk (Join s.baseDir (sanitiseName name))).getD ∅)
        ".hash") = hashOf d
    · rw [Save_unchanged s ud now f disk name d hd hch] at hp
      exact ih path dir hp
    · obtain ⟨pre, hpre, heq⟩ := Save_changed_ok s ud now f disk name d hch hok
      rw [heq] at hp
      by_cases hpk : path = Join s.baseDir (sanitiseName name)
      · rw [hpk, Function.update_same] at hp
        cases hp
        refine ⟨d, ?_, ?_⟩
        · rw [(rotate_keeps_latest_hash s f.remove pre).1, hpre, afterWrites_latest]
        · rw [(rotate_keeps_latest_hash s f.remove pre).2, hpre, afterWrites_hash]
      · rw [Function.update_noteq hpk] at hp
        exact ih path dir hp


theorem saveFiles_errors (s : Store) (ud : String → String → Option String) (now : Time)
    (f : Faults) (dir : Dir) (d : String) (e : SaveError)
    (h : (s.saveFiles ud now f dir d).2.1 = some e) :
    e = .writeVersion ∨ e = .writeLatest ∨ e = .generateDiff ∨ e = .writeDiff ∨
      e = .writeHash ∨ e = .rotate := by
  cases e with
  | emptyData => exact absurd h (saveFiles_ne_emptyData _ _ _ _ _ _)
  | createDir =>
    exfalso
    by_cases hch : TrimSpace (ReadFile dir ".hash") = hashOf d
    · rw [saveFiles_unchanged _ _ _ _ _ _ hch] at h
      cases h
    · unfold Store.saveFiles at h
      simp only [if_neg hch] at h
      split at h
      · cases h
      · split at h
        · cases h
        · split at h
          · rename_i e he
            simp only [Option.some.injEq] at h
            rw [h] at he
            rcases (writeDiff_err _ _ _ _ _ _ _ he).1 with h2 | h2 <;> cases h2
          · split at h
            · cases h
            · split at h <;> cases h
  | writeVersion => simp
  | writeLatest => simp
  | generateDiff => simp
  | writeDiff => simp
  | writeHash => simp
  | rotate => simp

theorem not_tmp_of_hasSuffix (q : String) (h : HasSuffix q ".tmp" = false) (p : String) :
    q ≠ p ++ ".tmp" := by
  intro e
  have := (hasSuffix_iff q ".tmp").2 ⟨p, e⟩
  rw [h] at this
  cases this


/-! ## The snapshot store: claims -/

/-- C5. `Save` with an empty document returns the empty-input error and leaves
the disk as it was (no directory created, no file written); with a non-empty
document it never returns that error. -/
theorem Save_refuses_empty (s : Store) (ud : String → String → Option String) (now : Time)
    (f : Faults) (disk : Disk) (name : String) :
    s.Save ud now f disk name "" = (disk, some .emptyData) ∧
      ∀ d : String, d.length ≠ 0 → (s.Save ud now f disk name d).2 ≠ some .emptyData := by
  refine ⟨Save_empty_doc s ud now f disk name, ?_⟩
  intro d hd
  have hd' : d ≠ "" := fun e => hd ((length_eq_zero_iff d).2 e)
  cases hk : disk (Join s.baseDir (sanitiseName name)) with
  | none =>
    cases hm : f.mkdirAll with
    | true =>
      rw [Save_of_no_dir s ud now f disk name d hd' hk, hm]
      simp
    | false =>
      rw [(Save_on_no_dir s ud now f disk name d hd' hk hm).2]
      exact saveFiles_ne_emptyData _ _ _ _ _ _
  | some dir =>
    rw [(Save_on_dir s ud now f disk name d dir hd' hk).2]
    exact saveFiles_ne_emptyData _ _ _ _ _ _

/-- C5 at a sample input: an empty document is refused on the empty disk, the
document "A" is not. -/
theorem Save_refuses_empty_witness :
    sampleStore.Save sampleDiff (minute 0) Faults.never noDisk "shop" "" =
        (noDisk, some .emptyData) ∧
      (sampleStore.Save sampleDiff (minute 0) Faults.never noDisk "shop" "A").2 ≠
        some .emptyData :=
  ⟨(Save_refuses_empty sampleStore sampleDiff (minute 0) Faults.never noDisk "shop").1,
    (Save_refuses_empty sampleStore sampleDiff (minute 0) Faults.never noDisk "shop").2 "A"
      (by decide)⟩

/-- C1. With `keep` at least 1 and no directory for the stack, a `Save` of a
non-empty document that returns nil, followed by a `Save` of the same document
at any clock time (whatever calls would fail), leaves exactly one version file,
`latest.yml` and `.hash` and no other file (so no diff file); the second call
returns nil and leaves the disk exactly as the first call left it. -/
theorem Save_twice_is_noop (s : Store) (ud : String → String → Option String) (t1 t2 : Time)
    (f1 f2 : Faults) (disk : Disk) (name d : String)
    (hkeep : 1 ≤ s.keep) (hd : d ≠ "")
    (hno : disk (Join s.baseDir (sanitiseName name)) = none)
    (hok : (s.Save ud t1 f1 disk name d).2 = none) :
    s.Save ud t2 f2 (s.Save ud t1 f1 disk name d).1 name d =
        ((s.Save ud t1 f1 disk name d).1, none) ∧
      ∃ dir : Dir,
        (s.Save ud t1 f1 disk name d).1 (Join s.baseDir (sanitiseName name)) = some dir ∧
        versionsOf dir = [t1.Format] ∧
        ∀ q, dir.lookup q =
          if q = t1.Format ++ ".yml" then some d
          else if q = "latest.yml" then some d
          else if q = ".hash" then some (hashOf d)
          else none := by
  have hm : f1.mkdirAll = false := by
    cases hm : f1.mkdirAll with
    | false => rfl
    | true =>
      rw [Save_of_no_dir s ud t1 f1 disk name d hd hno, hm] at hok
      simp at hok
  obtain ⟨hdir, hres⟩ := Save_on_no_dir s ud t1 f1 disk name d hd hno hm
  rw [hres] at hok
  obtain ⟨-, hv, hlook⟩ := saveFiles_first s ud t1 f1 d hkeep hok
  refine ⟨?_, _, hdir, hv, hlook⟩
  rw [Save_of_dir s ud t2 f2 _ name d _ hd hdir]
  have hsame : TrimSpace (ReadFile (s.saveFiles ud t1 f1 ∅ d).1 ".hash") = hashOf d := by
    unfold ReadFile
    rw [hlook, if_neg (yml_ne_hash _).symm, if_neg (by decide), if_pos rfl]
    exact trimSpace_hashOf d
  rw [saveFiles_unchanged _ _ _ _ _ _ hsame]
  simp

/-- C1 at a sample input: "A" saved twice, two minutes apart, on the empty disk. -/
theorem Save_twice_is_noop_witness :
    sampleStore.Save sampleDiff (minute 2) Faults.never
        (sampleStore.Save sampleDiff (minute 0) Faults.never noDisk "shop" "A").1 "shop" "A" =
      ((sampleStore.Save sampleDiff (minute 0) Faults.never noDisk "shop" "A").1, none) :=
  (Save_twice_is_noop sampleStore sampleDiff (minute 0) (minute 2) Faults.never Faults.never
    noDisk "shop" "A" (by decide) (by decide) (by decide) (by decide!)).1

/-- C6, as stated, fails: the stack directory holds a `.hash` with the hash of "A"
followed by a newline, so the hash of "A" differs from the recorded `.hash`;
`keep` is 2, there is no version yet, and `Save` of "A" returns nil, but it
returns at the "unchanged" test and afterwards there is no `latest.yml` (and no
version file) holding "A". -/
theorem Save_trimmed_hash_counterexample :
    1 ≤ sampleStore.keep ∧
      ReadFile ((newlineHashDisk (Join sampleStore.baseDir (sanitiseName "shop"))).getD ∅)
        ".hash" ≠ hashOf "A" ∧
      (∀ k ∈ versionsOf
          ((newlineHashDisk (Join sampleStore.baseDir (sanitiseName "shop"))).getD ∅),
        k.data ≤ (minute 0).Format.data) ∧
      (sampleStore.Save sampleDiff (minute 0) Faults.never newlineHashDisk "shop" "A").2 = none ∧
      ((sampleStore.Save sampleDiff (minute 0) Faults.never newlineHashDisk "shop" "A").1
        (Join sampleStore.baseDir (sanitiseName "shop"))).bind
          (fun dir => dir.lookup "latest.yml") = none ∧
      ((sampleStore.Save sampleDiff (minute 0) Faults.never newlineHashDisk "shop" "A").1
        (Join sampleStore.baseDir (sanitiseName "shop"))).bind
          (fun dir => dir.lookup ((minute 0).Format ++ ".yml")) = none := by
  decide!

/-- C6, amended. With `keep` at least 1, when the hash of `d` differs from the
recorded `.hash` with its surrounding white space trimmed (the comparison the code
makes) and the clock's key is no smaller than every existing version key, a
`Save` that returns nil leaves the version file of that key, `latest.yml` and
`.hash` holding `d`, `d` and the hex SHA-256 of `d`.  Hence in every disk reached
from the empty one by `Save`s that return nil, `.hash` holds the hash of the
current `latest.yml`. -/
theorem Save_changed_writes_all (s : Store) (ud : String → String → Option String) (now : Time)
    (f : Faults) (disk : Disk) (name d : String)
    (hkeep : 1 ≤ s.keep)
    (hch : TrimSpace (ReadFile ((disk (Join s.baseDir (sanitiseName name))).getD ∅) ".hash") ≠
      hashOf d)
    (hmax : ∀ k ∈ versionsOf ((disk (Join s.baseDir (sanitiseName name))).getD ∅),
      k.data ≤ now.Format.data)
    (hok : (s.Save ud now f disk name d).2 = none) :
    (∃ dir : Dir,
        (s.Save ud now f disk name d).1 (Join s.baseDir (sanitiseName name)) = some dir ∧
        dir.lookup (now.Format ++ ".yml") = some d ∧
        dir.lookup "latest.yml" = some d ∧
        dir.lookup ".hash" = some (hashOf d)) ∧
      ∀ disk' : Disk, Reachable s ud disk' → ∀ path dir, disk' path = some dir →
        ∃ doc, dir.lookup "latest.yml" = some doc ∧ dir.lookup ".hash" = some (hashOf doc) := by
  refine ⟨?_, fun disk' h => reachable_hash_of_latest s ud disk' h⟩
  obtain ⟨pre, hpre, heq⟩ := Save_changed_ok s ud now f disk name d hch hok
  refine ⟨(s.rotate false f.remove pre).1, ?_, ?_, ?_, ?_⟩
  · rw [heq, Function.update_same]
  · rw [(rotate_keeps_new s f.remove now d _ _ _ pre hkeep hmax hpre).1, hpre,
      afterWrites_yml _ _ _ _ _ _ (Format_ne_latest now), if_pos rfl]
  · rw [(rotate_keeps_latest_hash s f.remove pre).1, hpre, afterWrites_latest]
  · rw [(rotate_keeps_latest_hash s f.remove pre).2, hpre, afterWrites_hash]

/-- C6, amended, at a sample input: "B" saved one minute after "A". -/
theorem Save_changed_writes_all_witness :
    ∃ dir : Dir,
      (sampleStore.Save sampleDiff (minute 1) Faults.never
        (sampleStore.Save sampleDiff (minute 0) Faults.never noDisk "shop" "A").1 "shop" "B").1
          (Join sampleStore.baseDir (sanitiseName "shop")) = some dir ∧
      dir.lookup ((minute 1).Format ++ ".yml") = some "B" ∧
      dir.lookup "latest.yml" = some "B" ∧
      dir.lookup ".hash" = some (hashOf "B") :=
  (Save_changed_writes_all sampleStore sampleDiff (minute 1) Faults.never
    (sampleStore.Save sampleDiff (minute 0) Faults.never noDisk "shop" "A").1 "shop" "B"
    (by decide) (by decide!) (by decide!) (by decide!)).1

/-- C7, as stated, fails: the stack directory holds a diff file named for minute 0
and no `latest.yml`; `Save` of "A" at minute 0 detects a change and returns nil;
no prior latest document existed, yet the diff file of that key exists after
the call. -/
theorem Save_stray_diff_counterexample :
    TrimSpace (ReadFile ((strayDiffDisk (Join sampleStore.baseDir (sanitiseName "shop"))).getD ∅)
        ".hash") ≠ hashOf "A" ∧
      (sampleStore.Save sampleDiff (minute 0) Faults.never strayDiffDisk "shop" "A").2 = none ∧
      (strayDiffDisk (Join sampleStore.baseDir (sanitiseName "shop"))).bind
          (fun dir => dir.lookup "latest.yml") = none ∧
      ((sampleStore.Save sampleDiff (minute 0) Faults.never strayDiffDisk "shop" "A").1
        (Join sampleStore.baseDir (sanitiseName "shop"))).bind
          (fun dir => dir.lookup ((minute 0).Format ++ ".diff")) = some "stale" := by
  decide!

/-- Why the amended C7 asks for a clock key no smaller than the existing ones:
with `keep = 1`, "A" saved at minute 1 and then "B" at minute 0 (the clock set
back) both return nil; the second call writes the version and the diff of
minute 0 and `rotate` removes them at once as the oldest version, so no diff
file of that key exists after the call, while `latest.yml` holds "B" and the
only version file holds "A". -/
theorem Save_clock_back_example :
    (keepOneStore.Save sampleDiff (minute 0) Faults.never
      (keepOneStore.Save sampleDiff (minute 1) Faults.never noDisk "shop" "A").1 "shop" "B").2 =
        none ∧
      ((keepOneStore.Save sampleDiff (minute 0) Faults.never
        (keepOneStore.Save sampleDiff (minute 1) Faults.never noDisk "shop" "A").1 "shop" "B").1
          "/backups/shop").map (fun dir =>
            (dir.lookup "2024-01-01_0000.diff", dir.lookup "2024-01-01_0000.yml",
              dir.lookup "2024-01-01_0001.yml", dir.lookup "latest.yml")) =
        some (none, none, some "A", some "B") := by
  decide!

/-- C7, amended. With `keep` at least 1, the clock's key no smaller than every
existing version key and no diff file of that key in the directory before the
call, a `Save` that detects a change and returns nil leaves the diff file of
that key present if and only if the prior `latest.yml` existed with non-empty
content and the unified diff between it and `d` is non-empty; when present, its
content is exactly that unified diff. -/
theorem Save_diff_iff (s : Store) (ud : String → String → Option String) (now : Time)
    (f : Faults) (disk : Disk) (name d : String)
    (hkeep : 1 ≤ s.keep)
    (hch : TrimSpace (ReadFile ((disk (Join s.baseDir (sanitiseName name))).getD ∅) ".hash") ≠
      hashOf d)
    (hmax : ∀ k ∈ versionsOf ((disk (Join s.baseDir (sanitiseName name))).getD ∅),
      k.data ≤ now.Format.data)
    (hnodiff : ((disk (Join s.baseDir (sanitiseName name))).getD ∅).lookup
      (now.Format ++ ".diff") = none)
    (hok : (s.Save ud now f disk name d).2 = none) :
    ∃ dir : Dir,
      (s.Save ud now f disk name d).1 (Join s.baseDir (sanitiseName name)) = some dir ∧
      (dir.lookup (now.Format ++ ".diff") ≠ none ↔
        (ReadFile ((disk (Join s.baseDir (sanitiseName name))).getD ∅) "latest.yml" ≠ "" ∧
          ∃ t, ud (ReadFile ((disk (Join s.baseDir (sanitiseName name))).getD ∅) "latest.yml") d =
            some t ∧ t ≠ "")) ∧
      ∀ t, dir.lookup (now.Format ++ ".diff") = some t →
        ud (ReadFile ((disk (Join s.baseDir (sanitiseName name))).getD ∅) "latest.yml") d =
          some t := by
  obtain ⟨pre, hpre, heq⟩ := Save_changed_ok s ud now f disk name d hch hok
  have hl : (s.rotate false f.remove pre).1.lookup (now.Format ++ ".diff") =
      diffWritten ud (ReadFile ((disk (Join s.baseDir (sanitiseName name))).getD ∅)
        "latest.yml") d := by
    rw [(rotate_keeps_new s f.remove now d _ _ _ pre hkeep hmax hpre).2, hpre, afterWrites_diff]
    split
    · rfl
    · rename_i hn
      rw [hnodiff]
      simp only [ne_eq, and_true, not_not] at hn
      exact hn.symm
  refine ⟨(s.rotate false f.remove pre).1, ?_, ?_, ?_⟩
  · rw [heq, Function.update_same]
  · rw [hl]
    constructor
    · intro hne
      obtain ⟨t, ht⟩ := Option.ne_none_iff_exists'.mp hne
      have := (diffWritten_eq_some_iff ud _ d t).1 ht
      exact ⟨this.1, t, this.2.1, this.2.2⟩
    · rintro ⟨h1, t, h2, h3⟩
      rw [(diffWritten_eq_some_iff ud _ d t).2 ⟨h1, h2, h3⟩]
      simp
  · intro t ht
    rw [hl] at ht
    exact ((diffWritten_eq_some_iff ud _ d t).1 ht).2.1

/-- C7, amended, at a sample input: "B" saved one minute after "A" gets a diff file. -/
theorem Save_diff_iff_witness :
    ∃ dir : Dir,
      (sampleStore.Save sampleDiff (minute 1) Faults.never
        (sampleStore.Save sampleDiff (minute 0) Faults.never noDisk "shop" "A").1 "shop" "B").1
          (Join sampleStore.baseDir (sanitiseName "shop")) = some dir ∧
      ∀ t, dir.lookup ((minute 1).Format ++ ".diff") = some t →
        sampleDiff (ReadFile (((sampleStore.Save sampleDiff (minute 0) Faults.never noDisk
          "shop" "A").1 (Join sampleStore.baseDir (sanitiseName "shop"))).getD ∅)
            "latest.yml") "B" = some t := by
  obtain ⟨dir, h1, -, h3⟩ := Save_diff_iff sampleStore sampleDiff (minute 1) Faults.never
    (sampleStore.Save sampleDiff (minute 0) Faults.never noDisk "shop" "A").1 "shop" "B"
    (by decide) (by decide!) (by decide!) (by decide!) (by decide!)
  exact ⟨dir, h1, h3⟩

/-- C8, as stated, fails: "A" is saved at minute 0, then "B" at minute 1 in a
call whose rename to `latest.yml` fails.  The call returns the error of
`latest.yml`, yet the version file of minute 1, absent before, now holds "B",
while `latest.yml` still holds "A". -/
theorem Save_partial_commit_counterexample :
    (sampleStore.Save sampleDiff (minute 1) latestRenameFails
      (sampleStore.Save sampleDiff (minute 0) Faults.never noDisk "shop" "A").1 "shop" "B").2 =
        some .writeLatest ∧
      ((sampleStore.Save sampleDiff (minute 0) Faults.never noDisk "shop" "A").1
        (Join sampleStore.baseDir (sanitiseName "shop"))).bind
          (fun dir => dir.lookup ((minute 1).Format ++ ".yml")) = none ∧
      ((sampleStore.Save sampleDiff (minute 1) latestRenameFails
        (sampleStore.Save sampleDiff (minute 0) Faults.never noDisk "shop" "A").1 "shop" "B").1
          (Join sampleStore.baseDir (sanitiseName "shop"))).bind
            (fun dir => dir.lookup ((minute 1).Format ++ ".yml")) = some "B" ∧
      ((sampleStore.Save sampleDiff (minute 1) latestRenameFails
        (sampleStore.Save sampleDiff (minute 0) Faults.never noDisk "shop" "A").1 "shop" "B").1
          (Join sampleStore.baseDir (sanitiseName "shop"))).bind
            (fun dir => dir.lookup "latest.yml") = some "A" := by
  decide!

/-- C8, amended. When `Save` returns an error other than the one of `rotate`, no
artifact is corrupted: every file of every other directory is exactly as
before the call (no file appears, changes or goes there), and every file of
the stack directory that is not a temporary `.tmp` file is either exactly as
before the call or holds the complete new content written for it (`d` for the
version file and for `latest.yml`, the unified diff for the diff file); `.hash`
is exactly as before; and when the error comes from the directory creation or
from the version file, every such file is exactly as before. -/
theorem Save_error_no_corruption (s : Store) (ud : String → String → Option String)
    (now : Time) (f : Faults) (disk : Disk) (name d : String) (e : SaveError)
    (herr : (s.Save ud now f disk name d).2 = some e) (hrot : e ≠ .rotate) :
    (∀ path, path ≠ Join s.baseDir (sanitiseName name) → ∀ q,
        ((s.Save ud now f disk name d).1 path).bind (fun dir => dir.lookup q) =
          (disk path).bind (fun dir => dir.lookup q)) ∧
      ∀ q, HasSuffix q ".tmp" = false →
        ((((s.Save ud now f disk name d).1 (Join s.baseDir (sanitiseName name))).bind
              (fun dir => dir.lookup q) =
            (disk (Join s.baseDir (sanitiseName name))).bind (fun dir => dir.lookup q) ∨
          (q = now.Format ++ ".yml" ∧
            ((s.Save ud now f disk name d).1 (Join s.baseDir (sanitiseName name))).bind
              (fun dir => dir.lookup q) = some d) ∨
          (q = "latest.yml" ∧
            ((s.Save ud now f disk name d).1 (Join s.baseDir (sanitiseName name))).bind
              (fun dir => dir.lookup q) = some d) ∨
          (q = now.Format ++ ".diff" ∧
            ((s.Save ud now f disk name d).1 (Join s.baseDir (sanitiseName name))).bind
              (fun dir => dir.lookup q) ≠ none ∧
            ((s.Save ud now f disk name d).1 (Join s.baseDir (sanitiseName name))).bind
              (fun dir => dir.lookup q) =
              diffWritten ud (ReadFile ((disk (Join s.baseDir (sanitiseName name))).getD ∅)
                "latest.yml") d)) ∧
        (q = ".hash" →
          ((s.Save ud now f disk name d).1 (Join s.baseDir (sanitiseName name))).bind
              (fun dir => dir.lookup q) =
            (disk (Join s.baseDir (sanitiseName name))).bind (fun dir => dir.lookup q)) ∧
        (e = .createDir ∨ e = .writeVersion →
          ((s.Save ud now f disk name d).1 (Join s.baseDir (sanitiseName name))).bind
              (fun dir => dir.lookup q) =
            (disk (Join s.baseDir (sanitiseName name))).bind (fun dir => dir.lookup q))) := by
  refine ⟨fun path hp q => by rw [Save_other_path s ud now f disk name d path hp], ?_⟩
  intro q hq
  have hq' := not_tmp_of_hasSuffix q hq
  by_cases hd : d = ""
  · rw [hd, Save_empty_doc]
    exact ⟨Or.inl rfl, fun _ => rfl, fun _ => rfl⟩
  cases hk : disk (Join s.baseDir (sanitiseName name)) with
  | none =>
    cases hm : f.mkdirAll with
    | true =>
      rw [Save_of_no_dir s ud now f disk name d hd hk, hm]
      simp only [if_true]
      rw [hk]
      exact ⟨Or.inl rfl, fun _ => rfl, fun _ => rfl⟩
    | false =>
      obtain ⟨h1, h2⟩ := Save_on_no_dir s ud now f disk name d hd hk hm
      rw [h2] at herr
      obtain ⟨a, b, c⟩ := saveFiles_err s ud now f ∅ d e herr hrot q hq'
      rw [h1]
      simp only [Option.some_bind, Option.none_bind, Option.getD_none]
      rw [AList.lookup_empty] at a b c
      refine ⟨a, b, ?_⟩
      rintro (h | h)
      · rcases saveFiles_errors s ud now f ∅ d e herr with h' | h' | h' | h' | h' | h' <;>
          rw [h'] at h <;> cases h
      · exact c h
  | some dir =>
    obtain ⟨h1, h2⟩ := Save_on_dir s ud now f disk name d dir hd hk
    rw [h2] at herr
    obtain ⟨a, b, c⟩ := saveFiles_err s ud now f dir d e herr hrot q hq'
    rw [h1]
    simp only [Option.some_bind, Option.getD_some]
    refine ⟨a, b, ?_⟩
    rintro (h | h)
    · rcases saveFiles_errors s ud now f dir d e herr with h' | h' | h' | h' | h' | h' <;>
        rw [h'] at h <;> cases h
    · exact c h

/-- C8, amended, at a sample input: in the failed call of the counterexample,
`.hash` is as before, and a file of another directory (`/backups/blog`, which
holds none) is as before. -/
theorem Save_error_no_corruption_witness :
    (((sampleStore.Save sampleDiff (minute 1) latestRenameFails
        (sampleStore.Save sampleDiff (minute 0) Faults.never noDisk "shop" "A").1 "shop" "B").1
          "/backups/blog").bind (fun dir => dir.lookup "2024-01-01_0000.yml") =
      ((sampleStore.Save sampleDiff (minute 0) Faults.never noDisk "shop" "A").1
          "/backups/blog").bind (fun dir => dir.lookup "2024-01-01_0000.yml")) ∧
    ((sampleStore.Save sampleDiff (minute 1) latestRenameFails
        (sampleStore.Save sampleDiff (minute 0) Faults.never noDisk "shop" "A").1 "shop" "B").1
          (Join sampleStore.baseDir (sanitiseName "shop"))).bind
            (fun dir => dir.lookup ".hash") =
      ((sampleStore.Save sampleDiff (minute 0) Faults.never noDisk "shop" "A").1
          (Join sampleStore.baseDir (sanitiseName "shop"))).bind
            (fun dir => dir.lookup ".hash") :=
  ⟨(Save_error_no_corruption sampleStore sampleDiff (minute 1) latestRenameFails
      (sampleStore.Save sampleDiff (minute 0) Faults.never noDisk "shop" "A").1 "shop" "B"
      .writeLatest (by decide!) (by decide)).1 "/backups/blog" (by decide) _,
    ((Save_error_no_corruption sampleStore sampleDiff (minute 1) latestRenameFails
      (sampleStore.Save sampleDiff (minute 0) Faults.never noDisk "shop" "A").1 "shop" "B"
      .writeLatest (by decide!) (by decide)).2 ".hash" (by decide)).2.1 rfl⟩

/-- C9, as stated, fails: "A" and then "B" are saved within the same minute; the
version file of that minute, which held "A" before the second call, holds "B"
after it. -/
theorem Save_same_minute_counterexample :
    ((sampleStore.Save sampleDiff (minute 0) Faults.never noDisk "shop" "A").1
        (Join sampleStore.baseDir (sanitiseName "shop"))).bind
          (fun dir => dir.lookup ((minute 0).Format ++ ".yml")) = some "A" ∧
      (sampleStore.Save sampleDiff (minute 0) Faults.never
        (sampleStore.Save sampleDiff (minute 0) Faults.never noDisk "shop" "A").1 "shop" "B").2 =
          none ∧
      ((sampleStore.Save sampleDiff (minute 0) Faults.never
        (sampleStore.Save sampleDiff (minute 0) Faults.never noDisk "shop" "A").1 "shop" "B").1
          (Join sampleStore.baseDir (sanitiseName "shop"))).bind
            (fun dir => dir.lookup ((minute 0).Format ++ ".yml")) = some "B" := by
  decide!

/-- C9, amended. For every disk and every `Save` call, whatever fails in it, each
version file (a `.yml` file other than `latest.yml`) that existed before the
call and is not the version file of the call's own timestamp key is afterwards
either present with the same content or absent; it can only be absent in the
stack directory of the call and when the call returned nil, that is after
`rotate` ran. -/
theorem Save_keeps_other_versions (s : Store) (ud : String → String → Option String)
    (now : Time) (f : Faults) (disk : Disk) (name d path q content : String)
    (hbefore : (disk path).bind (fun dir => dir.lookup q) = some content)
    (hyml : HasSuffix q ".yml" = true) (hnl : q ≠ "latest.yml")
    (hkey : path = Join s.baseDir (sanitiseName name) → q ≠ now.Format ++ ".yml") :
    ((s.Save ud now f disk name d).1 path).bind (fun dir => dir.lookup q) = some content ∨
      (((s.Save ud now f disk name d).1 path).bind (fun dir => dir.lookup q) = none ∧
        (s.Save ud now f disk name d).2 = none ∧ path = Join s.baseDir (sanitiseName name)) := by
  by_cases hp : path = Join s.baseDir (sanitiseName name)
  swap
  · rw [Save_other_path s ud now f disk name d path hp]
    exact Or.inl hbefore
  have hq := hkey hp
  rw [hp] at hbefore ⊢
  by_cases hd : d = ""
  · rw [hd, Save_empty_doc]
    exact Or.inl hbefore
  cases hk : disk (Join s.baseDir (sanitiseName name)) with
  | none =>
    rw [hk] at hbefore
    cases hbefore
  | some dir =>
    rw [hk, Option.some_bind] at hbefore
    obtain ⟨h1, h2⟩ := Save_on_dir s ud now f disk name d dir hd hk
    rw [h1, h2, Option.some_bind]
    obtain ⟨k, rfl⟩ := (hasSuffix_iff q ".yml").1 hyml
    have hkl : k ≠ "latest" := fun e => hnl (by rw [e]; rfl)
    have hkt : k ≠ now.Format := fun e => hq (by rw [e])
    have haw : ∀ dw, afterWrites now.Format d (hashOf d) dw dir (k ++ ".yml") = some content := by
      intro dw
      rw [afterWrites_yml _ _ _ _ _ _ hkl, if_neg hkt, hbefore]
    by_cases hch : TrimSpace (ReadFile dir ".hash") = hashOf d
    · rw [saveFiles_unchanged _ _ _ _ _ _ hch]
      exact Or.inl hbefore
    cases he : (s.saveFiles ud now f dir d).2.1 with
    | none =>
      obtain ⟨pre, heq, hpre⟩ := saveFiles_ok s ud now f dir d hch he
      rw [heq]
      simp only
      rw [lookup_rotate]
      split
      · exact Or.inr (by simp)
      · rw [hpre, haw]
        exact Or.inl rfl
    | some e =>
      by_cases hrot : e = .rotate
      · obtain ⟨pre, hpre, heq⟩ := saveFiles_written s ud now f dir d hch
          (Or.inr (hrot ▸ he))
        have hrd : f.readDir = true := by
          cases hr : f.readDir with
          | true => rfl
          | false =>
            rw [heq, hr] at he
            simp at he
        rw [heq, hrd]
        simp only [if_true]
        rw [hpre, haw]
        exact Or.inl rfl
      · have h3 := (saveFiles_err s ud now f dir d e he hrot (k ++ ".yml")
          (fun p => yml_ne_tmp k p)).1
        rcases h3 with h3 | ⟨h3, -⟩ | ⟨h3, -⟩ | ⟨h3, -⟩
        · rw [h3]
          exact Or.inl hbefore
        · exact absurd h3 hq
        · exact absurd h3 hnl
        · exact absurd h3 (yml_ne_diff _ _)

/-- C9, amended, at a sample input: the version file of minute 0 is untouched by
a `Save` at minute 1. -/
theorem Save_keeps_other_versions_witness :
    ((sampleStore.Save sampleDiff (minute 1) Faults.never
        (sampleStore.Save sampleDiff (minute 0) Faults.never noDisk "shop" "A").1 "shop" "B").1
          "/backups/shop").bind (fun dir => dir.lookup "2024-01-01_0000.yml") = some "A" ∨
      (((sampleStore.Save sampleDiff (minute 1) Faults.never
        (sampleStore.Save sampleDiff (minute 0) Faults.never noDisk "shop" "A").1 "shop" "B").1
          "/backups/shop").bind (fun dir => dir.lookup "2024-01-01_0000.yml") = none ∧
        (sampleStore.Save sampleDiff (minute 1) Faults.never
          (sampleStore.Save sampleDiff (minute 0) Faults.never noDisk "shop" "A").1
            "shop" "B").2 = none ∧
        "/backups/shop" = Join sampleStore.baseDir (sanitiseName "shop")) :=
  Save_keeps_other_versions sampleStore sampleDiff (minute 1) Faults.never
    (sampleStore.Save sampleDiff (minute 0) Faults.never noDisk "shop" "A").1 "shop" "B"
    "/backups/shop" "2024-01-01_0000.yml" "A" (by decide!) (by decide) (by decide)
    (fun _ => by decide)


/-! ## Lemmas: retention over a run of `Save`s -/

theorem lastN_of_le {α : Type} (n : Nat) (l : List α) (h : l.length ≤ n) : lastN n l = l := by
  unfold lastN
  rw [Nat.sub_eq_zero_of_le h, List.drop_zero]

theorem lastN_cons {α : Type} (n : Nat) (a : α) (l : List α) (h : n ≤ l.length) :
    lastN n (a :: l) = lastN n l := by
  unfold lastN
  have e : (a :: l).length - n = (l.length - n) + 1 := by
    rw [List.length_cons]
    omega
  rw [e, List.drop_succ_cons]

theorem length_lastN {α : Type} (n : Nat) (l : List α) : (lastN n l).length = min l.length n := by
  unfold lastN
  rw [List.length_drop]
  omega

theorem orderedInsert_cons_eq (t a : String) (l : List String) :
    (a :: l).orderedInsert (fun a b => a.data ≤ b.data) t =
      if t.data ≤ a.data then t :: a :: l
      else a :: l.orderedInsert (fun a b => a.data ≤ b.data) t := rfl

theorem orderedInsert_of_forall_le (t : String) (l : List String)
    (h : ∀ b ∈ l, t.data ≤ b.data) :
    l.orderedInsert (fun a b => a.data ≤ b.data) t = t :: l := by
  cases l with
  | nil => rfl
  | cons b l => rw [orderedInsert_cons_eq, if_pos (h b (List.mem_cons_self _ _))]

/-- Keeping the last `n` of a sorted list before inserting a new element and
keeping the last `n` again gives the last `n` of the whole list with the element
inserted. -/
theorem lastN_orderedInsert (n : Nat) (t : String) (l : List String)
    (hs : l.Sorted (fun a b => a.data ≤ b.data)) :
    lastN n ((lastN n l).orderedInsert (fun a b => a.data ≤ b.data) t) =
      lastN n (l.orderedInsert (fun a b => a.data ≤ b.data) t) := by
  induction l with
  | nil => rw [lastN_of_le n [] (Nat.zero_le _)]
  | cons a l ih =>
    by_cases hle : (a :: l).length ≤ n
    · rw [lastN_of_le n (a :: l) hle]
    · have hn : n ≤ l.length := by
        rw [List.length_cons] at hle
        omega
      have hs' : l.Sorted (fun a b => a.data ≤ b.data) := hs.of_cons
      rw [lastN_cons n a l hn, ih hs']
      by_cases hta : t.data ≤ a.data
      · have hall : ∀ b ∈ l, t.data ≤ b.data :=
          fun b hb => le_trans hta (List.rel_of_sorted_cons hs b hb)
        rw [orderedInsert_of_forall_le t l hall, orderedInsert_cons_eq, if_pos hta,
          lastN_cons n t l hn, lastN_cons n t (a :: l) (by rw [List.length_cons]; omega),
          lastN_cons n a l hn]
      · rw [orderedInsert_cons_eq, if_neg hta, lastN_cons]
        rw [List.orderedInsert_length]
        omega

theorem sortStrings_eq_of_mem_iff (l K : List String) (hl : l.Nodup)
    (hK : K.Pairwise (fun a b => a.data < b.data)) (h : ∀ k, k ∈ l ↔ k ∈ K) :
    sortStrings l = K := by
  have hKn : K.Nodup := hK.imp (fun hab e => absurd hab (by rw [e]; exact lt_irrefl _))
  have hp : (sortStrings l).Perm K :=
    (sortStrings_perm l).trans ((List.perm_ext_iff_of_nodup hl hKn).mpr h)
  haveI := strLe_antisymm
  exact List.eq_of_perm_of_sorted hp (sortStrings_sorted l)
    (hK.imp (fun hab => le_of_lt hab))

theorem mem_drop_iff_of_nodup {α : Type} (l : List α) (hl : l.Nodup) (m : Nat) (k : α) :
    k ∈ l.drop m ↔ k ∈ l ∧ k ∉ l.take m := by
  have hsplit := List.take_append_drop m l
  rw [← hsplit] at hl
  have hdisj := List.disjoint_of_nodup_append hl
  constructor
  · intro hk
    exact ⟨List.mem_of_mem_drop hk, fun ht => hdisj ht hk⟩
  · rintro ⟨hk, hnt⟩
    rw [← hsplit, List.mem_append] at hk
    rcases hk with hk | hk
    · exact absurd hk hnt
    · exact hk

theorem lookup_rotate_yml (s : Store) (rm : String → Bool) (hrm : ∀ q, rm q = false) (pre : Dir)
    (k : String) :
    (s.rotate false rm pre).1.lookup (k ++ ".yml") =
      if k ∈ s.pruned pre then none else pre.lookup (k ++ ".yml") := by
  rw [lookup_rotate]
  by_cases h : k ∈ s.pruned pre
  · rw [if_pos h, if_pos ⟨⟨k, h, Or.inl rfl⟩, hrm _⟩]
  · rw [if_neg h, if_neg]
    rintro ⟨⟨old, hold, e | e⟩, -⟩
    · rw [(yml_eq_yml_iff _ _).1 e] at h
      exact h hold
    · exact yml_ne_diff _ _ e

theorem lookup_rotate_diff (s : Store) (rm : String → Bool) (hrm : ∀ q, rm q = false) (pre : Dir)
    (k : String) :
    (s.rotate false rm pre).1.lookup (k ++ ".diff") =
      if k ∈ s.pruned pre then none else pre.lookup (k ++ ".diff") := by
  rw [lookup_rotate]
  by_cases h : k ∈ s.pruned pre
  · rw [if_pos h, if_pos ⟨⟨k, h, Or.inr rfl⟩, hrm _⟩]
  · rw [if_neg h, if_neg]
    rintro ⟨⟨old, hold, e | e⟩, -⟩
    · exact yml_ne_diff _ _ e.symm
    · rw [(diff_eq_diff_iff _ _).1 e] at h
      exact h hold

/-- The version keys after a `rotate` in which no removal fails: those of before
that are not pruned. -/
theorem mem_versionsOf_rotate (s : Store) (rm : String → Bool) (hrm : ∀ q, rm q = false)
    (pre : Dir) (k : String) :
    k ∈ versionsOf (s.rotate false rm pre).1 ↔ k ∈ versionsOf pre ∧ k ∉ s.pruned pre := by
  rw [mem_versionsOf_lookup, mem_versionsOf_lookup, lookup_rotate_yml s rm hrm]
  by_cases hp : k ∈ s.pruned pre
  · simp [hp]
  · simp [hp]

/-- The sorted version keys after a `rotate` in which no removal fails: the last
`keep` of the sorted keys of before. -/
theorem sortStrings_versionsOf_rotate (s : Store) (rm : String → Bool)
    (hrm : ∀ q, rm q = false) (pre : Dir) :
    sortStrings (versionsOf (s.rotate false rm pre).1) =
      lastN s.keep (sortStrings (versionsOf pre)) := by
  have hstrict := sortStrings_strict _ (versionsOf_nodup pre)
  have hnd : (sortStrings (versionsOf pre)).Nodup :=
    (sortStrings_perm _).nodup_iff.mpr (versionsOf_nodup pre)
  apply sortStrings_eq_of_mem_iff _ _ (versionsOf_nodup _)
  · exact hstrict.sublist (List.drop_sublist _ _)
  · intro k
    unfold lastN
    rw [mem_versionsOf_rotate s rm hrm, mem_drop_iff_of_nodup _ hnd, mem_sortStrings]
    rfl

theorem keysOf_append (done : List (Time × Faults × String)) (c : Time × Faults × String) :
    keysOf (done ++ [c]) = keysOf done ++ [c.1.Format] := by
  unfold keysOf
  rw [List.map_append, List.map_singleton]

/-- The most recent keys of a run extended by one call. -/
theorem recentKeys_append (s : Store) (done : List (Time × Faults × String))
    (c : Time × Faults × String) :
    s.recentKeys (done ++ [c]) =
      lastN s.keep ((s.recentKeys done).orderedInsert (fun a b => a.data ≤ b.data) c.1.Format) := by
  unfold Store.recentKeys
  rw [lastN_orderedInsert _ _ _ (sortStrings_sorted _), keysOf_append]
  have hp : (keysOf done ++ [c.1.Format]).Perm (c.1.Format :: keysOf done) :=
    List.perm_append_singleton _ _
  rw [sortStrings_eq_of_perm _ _ hp]
  rfl

theorem mem_recentKeys (s : Store) (done : List (Time × Faults × String)) (k : String)
    (h : k ∈ s.recentKeys done) : k ∈ keysOf done :=
  mem_sortStrings.mp (List.mem_of_mem_drop h)

theorem retained_empty (s : Store) : Retained s [] ∅ := by
  refine ⟨?_, ?_, ?_, rfl⟩
  · have hv : versionsOf (∅ : Dir) = [] := by
      apply List.eq_nil_iff_forall_not_mem.mpr
      intro k hk
      rw [mem_versionsOf_lookup, AList.lookup_empty] at hk
      exact hk.2 rfl
    rw [hv]
    unfold Store.recentKeys
    rw [lastN_of_le _ _ (by rw [length_sortStrings]; exact Nat.zero_le _)]
    rfl
  · intro c hc
    cases hc
  · intro k hk
    rw [AList.lookup_empty] at hk
    exact absurd rfl hk

theorem retained_step (s : Store) (ud : String → String → Option String)
    (done : List (Time × Faults × String)) (c : Time × Faults × String) (dir : Dir)
    (hinv : Retained s done dir)
    (hnew : c.1.Format ∉ keysOf done)
    (hhash : ∀ c' ∈ done, hashOf c'.2.2 ≠ hashOf c.2.2)
    (hrm : ∀ q, c.2.1.remove q = false)
    (hok : (s.saveFiles ud c.1 c.2.1 dir c.2.2).2.1 = none) :
    Retained s (done ++ [c]) (s.saveFiles ud c.1 c.2.1 dir c.2.2).1 := by
  obtain ⟨ha, hb, hc, hh⟩ := hinv
  have hch : TrimSpace (ReadFile dir ".hash") ≠ hashOf c.2.2 := by
    rw [hh]
    cases hl : done.getLast? with
    | none =>
      simp only [Option.map_none', Option.getD_none]
      rw [trimSpace_empty]
      exact fun e => hashOf_ne_empty _ e.symm
    | some c' =>
      simp only [Option.map_some', Option.getD_some]
      rw [trimSpace_hashOf]
      exact hhash c' (List.mem_of_getLast?_eq_some hl)
  obtain ⟨pre, heq, hpre⟩ := saveFiles_ok s ud c.1 c.2.1 dir c.2.2 hch hok
  rw [heq]
  have hvsub : ∀ k, k ∈ versionsOf dir → k ∈ keysOf done := by
    intro k hk
    apply mem_recentKeys s
    rw [← ha]
    exact mem_sortStrings.mpr hk
  have htn : c.1.Format ∉ versionsOf dir := fun h => hnew (hvsub _ h)
  have hvpre := mem_versionsOf_pre c.1 c.2.2 _ _ dir pre hpre
  have hperm : (versionsOf pre).Perm (c.1.Format :: versionsOf dir) := by
    refine (List.perm_ext_iff_of_nodup (versionsOf_nodup pre)
      (List.nodup_cons.mpr ⟨htn, versionsOf_nodup dir⟩)).mpr ?_
    intro k
    rw [hvpre, List.mem_cons]
  have hSpre : sortStrings (versionsOf pre) =
      (s.recentKeys done).orderedInsert (fun a b => a.data ≤ b.data) c.1.Format := by
    rw [sortStrings_eq_of_perm _ _ hperm, ← ha]
    rfl
  have hmem := mem_versionsOf_rotate s c.2.1.remove hrm pre
  refine ⟨?_, ?_, ?_, ?_⟩
  · rw [sortStrings_versionsOf_rotate s _ hrm, hSpre, recentKeys_append]
  · intro c' hc' hin
    obtain ⟨hin1, hin2⟩ := (hmem _).1 hin
    rw [lookup_rotate_yml s _ hrm, if_neg hin2, hpre,
      afterWrites_yml _ _ _ _ _ _ (Format_ne_latest c'.1)]
    rcases List.mem_append.mp hc' with hd | hd
    · have hne : c'.1.Format ≠ c.1.Format := by
        intro e
        apply hnew
        rw [← e]
        exact List.mem_map_of_mem _ hd
      rw [if_neg hne]
      rcases (hvpre _).1 hin1 with e | hv
      · exact absurd e hne
      · exact hb c' hd hv
    · rw [List.mem_singleton.mp hd, if_pos rfl]
  · intro k hk
    rw [lookup_rotate_diff s _ hrm] at hk
    by_cases hp : k ∈ s.pruned pre
    · rw [if_pos hp] at hk
      exact absurd rfl hk
    · rw [if_neg hp, hpre, afterWrites_diff] at hk
      refine (hmem k).2 ⟨?_, hp⟩
      rw [hvpre]
      by_cases hkt : k = c.1.Format
      · exact Or.inl hkt
      · rw [if_neg (fun h => hkt h.2)] at hk
        exact Or.inr (hc k hk)
  · unfold ReadFile
    rw [(rotate_keeps_latest_hash s _ pre).2, hpre, afterWrites_hash]
    simp

/-- A `Save` that returns nil has run the body of `Save` on the files of the
stack directory (none when there was no directory) and stored the result. -/
theorem Save_ok_files (s : Store) (ud : String → String → Option String) (now : Time)
    (f : Faults) (disk : Disk) (name d : String)
    (hok : (s.Save ud now f disk name d).2 = none) :
    (s.Save ud now f disk name d).1 (Join s.baseDir (sanitiseName name)) =
        some (s.saveFiles ud now f ((disk (Join s.baseDir (sanitiseName name))).getD ∅) d).1 ∧
      (s.saveFiles ud now f ((disk (Join s.baseDir (sanitiseName name))).getD ∅) d).2.1 =
        none := by
  have hd := ne_empty_of_Save_ok s ud now f disk name d none hok (by decide)
  cases hk : disk (Join s.baseDir (sanitiseName name)) with
  | none =>
    have hm : f.mkdirAll = false := by
      cases hm : f.mkdirAll with
      | false => rfl
      | true =>
        rw [Save_of_no_dir s ud now f disk name d hd hk, hm] at hok
        simp at hok
    obtain ⟨h1, h2⟩ := Save_on_no_dir s ud now f disk name d hd hk hm
    rw [h2] at hok
    exact ⟨h1, hok⟩
  | some dir =>
    obtain ⟨h1, h2⟩ := Save_on_dir s ud now f disk name d dir hd hk
    rw [h2] at hok
    exact ⟨h1, hok⟩

theorem saveAll_retained (s : Store) (ud : String → String → Option String) (name : String)
    (calls : List (Time × Faults × String)) :
    ∀ (done : List (Time × Faults × String)) (disk : Disk),
      Retained s done ((disk (Join s.baseDir (sanitiseName name))).getD ∅) →
      (keysOf (done ++ calls)).Nodup →
      (done ++ calls).Pairwise (fun a b => hashOf a.2.2 ≠ hashOf b.2.2) →
      (∀ c ∈ calls, ∀ q, c.2.1.remove q = false) →
      (s.saveAll ud name calls disk).2 = none →
      Retained s (done ++ calls)
        (((s.saveAll ud name calls disk).1 (Join s.baseDir (sanitiseName name))).getD ∅) := by
  induction calls with
  | nil =>
    intro done disk hinv _ _ _ _
    rw [List.append_nil]
    exact hinv
  | cons c rest ih =>
    intro done disk hinv ht hh hrm hrun
    unfold Store.saveAll at hrun ⊢
    cases hres : (s.Save ud c.1 c.2.1 disk name c.2.2).2 with
    | some e =>
      rw [hres] at hrun
      cases hrun
    | none =>
      rw [hres] at hrun
      simp only [hres] at hrun ⊢
      obtain ⟨h1, h2⟩ := Save_ok_files s ud c.1 c.2.1 disk name c.2.2 hres
      rw [List.append_cons] at ht hh ⊢
      have ht1 : c.1.Format ∉ keysOf done := by
        unfold keysOf at ht ⊢
        rw [List.map_append, List.map_append, List.map_singleton] at ht
        have hnd := (List.nodup_append.mp (List.nodup_append.mp ht).1)
        exact fun hin => hnd.2.2 hin (List.mem_singleton_self _)
      have hh1 : ∀ c' ∈ done, hashOf c'.2.2 ≠ hashOf c.2.2 := fun c' hc' =>
        (List.pairwise_append.mp (List.pairwise_append.mp hh).1).2.2 c' hc' c
          (List.mem_singleton_self c)
      have hstep := retained_step s ud done c _ hinv ht1 hh1
        (hrm c (List.mem_cons_self _ _)) h2
      apply ih (done ++ [c]) _ _ ht hh (fun c' hc' => hrm c' (List.mem_cons_of_mem _ hc')) hrun
      rw [h1, Option.getD_some]
      exact hstep

/-! ## Retention: claim -/

/-- C2, as stated, fails in two ways. With `keep = 2`, the distinct documents "A"
and "B" saved on the empty disk within the same minute both return nil, and one
version file remains, not `min 2 2 = 2`: the second call overwrote the version
file of that minute. With `keep = 1`, "A" and "B" saved in successive minutes
both return nil although in the second call no file can be removed (`rotate`
discards the result of `os.Remove`), and two version files remain, not
`min 2 1 = 1`. -/
theorem saveAll_count_counterexample :
    (1 ≤ sampleStore.keep ∧
      sameMinuteCalls.Pairwise (fun a b => a.2.2 ≠ b.2.2) ∧
      (sampleStore.saveAll sampleDiff "shop" sameMinuteCalls noDisk).2 = none ∧
      (versionsOf (((sampleStore.saveAll sampleDiff "shop" sameMinuteCalls noDisk).1
        (Join sampleStore.baseDir (sanitiseName "shop"))).getD ∅)).length = 1 ∧
      min sameMinuteCalls.length sampleStore.keep = 2) ∧
    (1 ≤ keepOneStore.keep ∧
      stuckRemovalCalls.Pairwise (fun a b => a.2.2 ≠ b.2.2) ∧
      (keysOf stuckRemovalCalls).Nodup ∧
      (keepOneStore.saveAll sampleDiff "shop" stuckRemovalCalls noDisk).2 = none ∧
      (versionsOf (((keepOneStore.saveAll sampleDiff "shop" stuckRemovalCalls noDisk).1
        (Join keepOneStore.baseDir (sanitiseName "shop"))).getD ∅)).length = 2 ∧
      min stuckRemovalCalls.length keepOneStore.keep = 1) := by
  decide!

/-- C2, amended. With `keep = k` at least 1 and no directory for the stack, after
N `Save`s that all return nil, made at pairwise distinct timestamp keys (in any
order) with documents whose hashes are pairwise distinct, and in which no
removal of a file fails, exactly `min N k` version files remain. They are the
most recent ones by timestamp order: their keys are the last `min N k` of the
calls' keys sorted ascending; each holds the document of the call with that
key, and for every other key of the run neither the version file nor the diff
file is left. -/
theorem saveAll_keeps_most_recent (s : Store) (ud : String → String → Option String)
    (name : String) (calls : List (Time × Faults × String)) (disk : Disk)
    (hkeep : 1 ≤ s.keep)
    (hno : disk (Join s.baseDir (sanitiseName name)) = none)
    (hkeys : (calls.map (fun c => c.1.Format)).Nodup)
    (hhash : calls.Pairwise (fun a b => hashOf a.2.2 ≠ hashOf b.2.2))
    (hremove : ∀ c ∈ calls, ∀ q, c.2.1.remove q = false)
    (hrun : (s.saveAll ud name calls disk).2 = none) :
    (versionsOf (((s.saveAll ud name calls disk).1
        (Join s.baseDir (sanitiseName name))).getD ∅)).length = min calls.length s.keep ∧
      sortStrings (versionsOf (((s.saveAll ud name calls disk).1
        (Join s.baseDir (sanitiseName name))).getD ∅)) =
          (sortStrings (calls.map (fun c => c.1.Format))).drop (calls.length - s.keep) ∧
      (∀ c ∈ calls,
        c.1.Format ∈
            (sortStrings (calls.map (fun c => c.1.Format))).drop (calls.length - s.keep) →
          (((s.saveAll ud name calls disk).1 (Join s.baseDir (sanitiseName name))).getD ∅).lookup
            (c.1.Format ++ ".yml") = some c.2.2) ∧
      ∀ key ∈ (sortStrings (calls.map (fun c => c.1.Format))).take (calls.length - s.keep),
        (((s.saveAll ud name calls disk).1 (Join s.baseDir (sanitiseName name))).getD ∅).lookup
            (key ++ ".yml") = none ∧
          (((s.saveAll ud name calls disk).1 (Join s.baseDir (sanitiseName name))).getD ∅).lookup
            (key ++ ".diff") = none := by
  have hinit : Retained s [] ((disk (Join s.baseDir (sanitiseName name))).getD ∅) := by
    rw [hno]
    exact retained_empty s
  have hret := saveAll_retained s ud name calls [] disk hinit
    (by rw [List.nil_append]; exact hkeys) (by rw [List.nil_append]; exact hhash) hremove hrun
  rw [List.nil_append] at hret
  obtain ⟨ha, hb, hc, -⟩ := hret
  have hrk : s.recentKeys calls =
      (sortStrings (calls.map (fun c => c.1.Format))).drop (calls.length - s.keep) := by
    unfold Store.recentKeys lastN keysOf
    rw [length_sortStrings, List.length_map]
  rw [hrk] at ha
  have hnd : (sortStrings (calls.map (fun c => c.1.Format))).Nodup :=
    (sortStrings_perm _).nodup_iff.mpr hkeys
  have hmem : ∀ k, k ∈ versionsOf (((s.saveAll ud name calls disk).1
      (Join s.baseDir (sanitiseName name))).getD ∅) ↔
      k ∈ (sortStrings (calls.map (fun c => c.1.Format))).drop (calls.length - s.keep) := by
    intro k
    rw [← ha, mem_sortStrings]
  refine ⟨?_, ha, ?_, ?_⟩
  · rw [← length_sortStrings, ha, List.length_drop, length_sortStrings, List.length_map]
    omega
  · intro c hc' hin
    exact hb c hc' ((hmem _).2 hin)
  · intro key hkey
    have hnot : key ∉ versionsOf (((s.saveAll ud name calls disk).1
        (Join s.baseDir (sanitiseName name))).getD ∅) := by
      rw [hmem]
      exact fun hin => ((mem_drop_iff_of_nodup _ hnd _ _).1 hin).2 hkey
    obtain ⟨c, -, hck⟩ := List.mem_map.mp (mem_sortStrings.mp (List.mem_of_mem_take hkey))
    constructor
    · by_contra hne
      apply hnot
      rw [mem_versionsOf_lookup]
      exact ⟨hck ▸ Format_ne_latest c.1, hne⟩
    · by_contra hne
      exact hnot (hc _ hne)

/-- C2, amended, at sample inputs: "A", "B", "C" saved in successive minutes with
`keep = 2` leave the versions of "B" and "C" and no file of "A"; saved with the
clock set back before each call ("A" at minute 2, "B" at minute 1, "C" at
minute 0) they leave the versions of minutes 1 and 2, the most recent by
timestamp order. -/
theorem saveAll_keeps_most_recent_witness :
    (sortStrings (versionsOf (((sampleStore.saveAll sampleDiff "shop" threeCalls noDisk).1
        (Join sampleStore.baseDir (sanitiseName "shop"))).getD ∅)) =
          (sortStrings (threeCalls.map (fun c => c.1.Format))).drop
            (threeCalls.length - sampleStore.keep) ∧
      (sortStrings (threeCalls.map (fun c => c.1.Format))).drop
          (threeCalls.length - sampleStore.keep) = ["2024-01-01_0001", "2024-01-01_0002"] ∧
      ∀ key ∈ (sortStrings (threeCalls.map (fun c => c.1.Format))).take
          (threeCalls.length - sampleStore.keep),
        (((sampleStore.saveAll sampleDiff "shop" threeCalls noDisk).1
          (Join sampleStore.baseDir (sanitiseName "shop"))).getD ∅).lookup
            (key ++ ".yml") = none ∧
        (((sampleStore.saveAll sampleDiff "shop" threeCalls noDisk).1
          (Join sampleStore.baseDir (sanitiseName "shop"))).getD ∅).lookup
            (key ++ ".diff") = none) ∧
    (sortStrings (versionsOf (((sampleStore.saveAll sampleDiff "shop" clockBackCalls noDisk).1
        (Join sampleStore.baseDir (sanitiseName "shop"))).getD ∅)) =
          (sortStrings (clockBackCalls.map (fun c => c.1.Format))).drop
            (clockBackCalls.length - sampleStore.keep) ∧
      (sortStrings (clockBackCalls.map (fun c => c.1.Format))).drop
          (clockBackCalls.length - sampleStore.keep) = ["2024-01-01_0001", "2024-01-01_0002"]) :=
  ⟨⟨(saveAll_keeps_most_recent sampleStore sampleDiff "shop" threeCalls noDisk (by decide)
        (by decide) (by decide!) (by decide!) (by
          intro c hc q
          simp only [threeCalls, clockBackCalls, List.mem_cons, List.mem_singleton,
            List.not_mem_nil, or_false] at hc
          rcases hc with rfl | rfl | rfl <;> rfl) (by decide!)).2.1,
      by decide!,
      (saveAll_keeps_most_recent sampleStore sampleDiff "shop" threeCalls noDisk (by decide)
        (by decide) (by decide!) (by decide!) (by
          intro c hc q
          simp only [threeCalls, clockBackCalls, List.mem_cons, List.mem_singleton,
            List.not_mem_nil, or_false] at hc
          rcases hc with rfl | rfl | rfl <;> rfl) (by decide!)).2.2.2⟩,
    ⟨(saveAll_keeps_most_recent sampleStore sampleDiff "shop" clockBackCalls noDisk (by decide)
        (by decide) (by decide!) (by decide!) (by
          intro c hc q
          simp only [threeCalls, clockBackCalls, List.mem_cons, List.mem_singleton,
            List.not_mem_nil, or_false] at hc
          rcases hc with rfl | rfl | rfl <;> rfl) (by decide!)).2.1,
      by decide!⟩⟩

/-! ## Lemmas: grouping and sorting in `DiscoverProjects` -/

theorem foldl_append_singleton {α β : Type} (f : α → β) (l : List α) (init : List β) :
    l.foldl (fun acc x => acc ++ [f x]) init = init ++ l.map f := by
  induction l generalizing init with
  | nil => simp
  | cons a t ih => rw [List.foldl_cons, ih]; simp

/-- Sorting by a key gives the same list for two orderings of elements whose keys
are distinct. -/
theorem insertionSort_eq_of_perm {α : Type} (key : α → List Char) (l₁ l₂ : List α)
    (hp : l₁.Perm l₂) (hnd : (l₁.map key).Nodup) :
    l₁.insertionSort (fun a b => key a ≤ key b) = l₂.insertionSort (fun a b => key a ≤ key b) := by
  haveI : IsTotal α (fun a b => key a ≤ key b) := ⟨fun a b => le_total (key a) (key b)⟩
  haveI : IsTrans α (fun a b => key a ≤ key b) := ⟨fun _ _ _ h1 h2 => le_trans h1 h2⟩
  have hs₁ : (l₁.insertionSort (fun a b => key a ≤ key b)).Pairwise (fun a b => key a ≤ key b) :=
    List.sorted_insertionSort _ l₁
  have hs₂ : (l₂.insertionSort (fun a b => key a ≤ key b)).Pairwise (fun a b => key a ≤ key b) :=
    List.sorted_insertionSort _ l₂
  have hpp : (l₁.insertionSort (fun a b => key a ≤ key b)).Perm
      (l₂.insertionSort (fun a b => key a ≤ key b)) :=
    ((List.perm_insertionSort _ l₁).trans hp).trans (List.perm_insertionSort _ l₂).symm
  refine List.Perm.eq_of_sorted ?_ hs₁ hs₂ hpp
  intro a b ha hb hab hba
  have ha' : a ∈ l₁ := (List.perm_insertionSort _ l₁).subset ha
  have hb' : b ∈ l₁ := hp.symm.subset ((List.perm_insertionSort _ l₂).subset hb)
  exact List.inj_on_of_nodup_map hnd ha' hb' (le_antisymm hab hba)

theorem DiscoverProjects_eq
    (visit : List (String × List ContainerInfo) → List (String × List ContainerInfo))
    (cs : List containerInspect) :
    DiscoverProjects visit cs =
      sortProjects ((visit (collectProjects cs)).map
        (fun kv => ({ Name := kv.1, Containers := sortContainers kv.2 } : Project))) := by
  unfold DiscoverProjects
  simp only [foldl_append_singleton, List.nil_append]

theorem collectProjects_eq (cs : List containerInspect) :
    collectProjects cs =
      (cs.filterMap projectInfo).foldl (fun m pi => appendInfo pi.1 pi.2 m) [] := by
  unfold collectProjects
  generalize ([] : List (String × List ContainerInfo)) = init
  induction cs generalizing init with
  | nil => rfl
  | cons c t ih =>
    rw [List.foldl_cons, ih]
    unfold projectInfo
    cases h1 : c.Labels "com.docker.compose.project" with
    | none => simp [List.filterMap_cons, h1]
    | some p =>
      cases h2 : c.Labels "com.docker.compose.service" with
      | none => simp [List.filterMap_cons, h1, h2]
      | some sv => simp [List.filterMap_cons, h1, h2]

theorem keys_appendInfo (p : String) (i : ContainerInfo) (m : List (String × List ContainerInfo)) :
    (appendInfo p i m).map Prod.fst =
      if p ∈ m.map Prod.fst then m.map Prod.fst else m.map Prod.fst ++ [p] := by
  induction m with
  | nil => simp [appendInfo]
  | cons kv t ih =>
    unfold appendInfo
    by_cases h : kv.1 = p
    · simp [h]
    · rw [if_neg h, List.map_cons, ih]
      have h' : p ≠ kv.1 := fun e => h e.symm
      by_cases hin : p ∈ t.map Prod.fst
      · simp [hin]
      · simp [hin, h']

theorem nodup_keys_appendInfo (p : String) (i : ContainerInfo)
    (m : List (String × List ContainerInfo)) (h : (m.map Prod.fst).Nodup) :
    ((appendInfo p i m).map Prod.fst).Nodup := by
  rw [keys_appendInfo]
  split
  · exact h
  · rename_i hin
    exact List.Nodup.append h (List.nodup_singleton p) (by simpa using hin)

theorem mem_appendInfo (p : String) (i : ContainerInfo) (m : List (String × List ContainerInfo))
    (hnd : (m.map Prod.fst).Nodup) (q : String) (is : List ContainerInfo) :
    (q, is) ∈ appendInfo p i m ↔
      (q ≠ p ∧ (q, is) ∈ m) ∨
        (q = p ∧ ((∃ js, (p, js) ∈ m ∧ is = js ++ [i]) ∨ (p ∉ m.map Prod.fst ∧ is = [i]))) := by
  induction m with
  | nil =>
    simp only [appendInfo, List.mem_singleton, Prod.mk.injEq, List.not_mem_nil, and_false,
      false_and, exists_false, List.map_nil, not_false_eq_true, true_and, false_or]
  | cons kv t ih =>
    obtain ⟨k, v⟩ := kv
    rw [List.map_cons, List.nodup_cons] at hnd
    have ih' := ih hnd.2
    unfold appendInfo
    by_cases h : k = p
    · subst h
      have hnot : ∀ js, (k, js) ∉ t := fun js hjs =>
        hnd.1 (List.mem_map.mpr ⟨(k, js), hjs, rfl⟩)
      simp only [if_true, List.mem_cons, Prod.mk.injEq, List.map_cons, true_or, not_true_eq_false,
        false_and, or_false]
      constructor
      · rintro (⟨rfl, rfl⟩ | hin)
        · exact Or.inr ⟨rfl, v, Or.inl ⟨trivial, rfl⟩, rfl⟩
        · by_cases hq : q = k
          · subst hq
            exact absurd hin (hnot is)
          · exact Or.inl ⟨hq, Or.inr hin⟩
      · rintro (⟨hq, h1 | h1⟩ | ⟨rfl, js, h1 | h1, rfl⟩)
        · exact absurd h1.1 hq
        · exact Or.inr h1
        · rw [h1.2]
          exact Or.inl ⟨rfl, rfl⟩
        · exact absurd h1 (hnot js)
    · simp only [if_neg h, List.mem_cons, Prod.mk.injEq, List.map_cons]
      rw [ih']
      have h' : p ≠ k := fun e => h e.symm
      constructor
      · rintro (⟨rfl, rfl⟩ | ⟨hq, hin⟩ | ⟨rfl, ⟨js, hjs, rfl⟩ | ⟨hnin, rfl⟩⟩)
        · exact Or.inl ⟨h, Or.inl ⟨rfl, rfl⟩⟩
        · exact Or.inl ⟨hq, Or.inr hin⟩
        · exact Or.inr ⟨rfl, Or.inl ⟨js, Or.inr hjs, rfl⟩⟩
        · refine Or.inr ⟨rfl, Or.inr ⟨?_, rfl⟩⟩
          simp only [List.mem_cons, not_or]
          exact ⟨h', hnin⟩
      · rintro (⟨hq, ⟨rfl, rfl⟩ | hin⟩ | ⟨rfl, ⟨js, ⟨e1, e2⟩ | hjs, rfl⟩ | ⟨hnin, rfl⟩⟩)
        · exact Or.inl ⟨rfl, rfl⟩
        · exact Or.inr (Or.inl ⟨hq, hin⟩)
        · exact absurd e1 h'
        · exact Or.inr (Or.inr ⟨rfl, Or.inl ⟨js, hjs, rfl⟩⟩)
        · simp only [List.mem_cons, not_or] at hnin
          exact Or.inr (Or.inr ⟨rfl, Or.inr ⟨hnin.2, rfl⟩⟩)

theorem filter_eq_nil_of_not_mem_keys (l : List (String × ContainerInfo)) (p : String)
    (h : p ∉ l.map Prod.fst) : l.filter (fun pi => pi.1 = p) = [] := by
  rw [List.filter_eq_nil_iff]
  intro a ha hap
  apply h
  rw [List.mem_map]
  exact ⟨a, ha, by simpa using hap⟩

/-- The project map built by the first loop: one entry per project name, holding
the infos of that project in discovery order. -/
theorem group_spec (l : List (String × ContainerInfo)) :
    ((l.foldl (fun m pi => appendInfo pi.1 pi.2 m) []).map Prod.fst).Nodup ∧
      (∀ p, p ∈ (l.foldl (fun m pi => appendInfo pi.1 pi.2 m) []).map Prod.fst ↔
        p ∈ l.map Prod.fst) ∧
      ∀ p is, (p, is) ∈ l.foldl (fun m pi => appendInfo pi.1 pi.2 m) [] ↔
        (p ∈ l.map Prod.fst ∧ is = (l.filter (fun pi => pi.1 = p)).map Prod.snd) := by
  induction l using List.reverseRecOn with
  | nil => simp
  | append_singleton l x ih =>
    obtain ⟨hnd, hkeys, hmem⟩ := ih
    rw [List.foldl_append, List.foldl_cons, List.foldl_nil]
    have hkeys' : ∀ p, p ∈ (appendInfo x.1 x.2
        (l.foldl (fun m pi => appendInfo pi.1 pi.2 m) [])).map Prod.fst ↔
        p ∈ (l ++ [x]).map Prod.fst := by
      intro p
      rw [keys_appendInfo, List.map_append, List.mem_append, List.map_singleton,
        List.mem_singleton]
      split
      · rename_i hin
        rw [hkeys]
        constructor
        · exact Or.inl
        · rintro (h | h)
          · exact h
          · rw [h]
            exact (hkeys _).1 hin
      · rw [List.mem_append, List.mem_singleton, hkeys]
    refine ⟨nodup_keys_appendInfo _ _ _ hnd, hkeys', ?_⟩
    intro p is
    rw [mem_appendInfo _ _ _ hnd, List.map_append, List.mem_append, List.map_singleton,
      List.mem_singleton, List.filter_append, List.map_append]
    by_cases hp : p = x.1
    · subst hp
      have hfx : List.filter (fun pi : String × ContainerInfo => decide (pi.1 = x.1)) [x] = [x] := by
        simp
      rw [hfx, List.map_singleton]
      constructor
      · rintro (⟨h, -⟩ | ⟨-, ⟨js, hjs, rfl⟩ | ⟨hnin, rfl⟩⟩)
        · exact absurd rfl h
        · exact ⟨Or.inr rfl, by rw [((hmem _ _).1 hjs).2]⟩
        · refine ⟨Or.inr rfl, ?_⟩
          rw [filter_eq_nil_of_not_mem_keys l x.1 (fun h => hnin ((hkeys _).2 h))]
          rfl
      · rintro ⟨-, rfl⟩
        refine Or.inr ⟨rfl, ?_⟩
        by_cases hin : x.1 ∈ l.map Prod.fst
        · exact Or.inl ⟨_, (hmem _ _).2 ⟨hin, rfl⟩, rfl⟩
        · refine Or.inr ⟨fun h => hin ((hkeys _).1 h), ?_⟩
          rw [filter_eq_nil_of_not_mem_keys l x.1 hin]
          rfl
    · have hfx : List.filter (fun pi : String × ContainerInfo => decide (pi.1 = p)) [x] = [] := by
        simp [Ne.symm hp]
      rw [hfx, List.map_nil, List.append_nil, hmem]
      constructor
      · rintro (⟨-, h1, h2⟩ | ⟨h, -⟩)
        · exact ⟨Or.inl h1, h2⟩
        · exact absurd h hp
      · rintro ⟨h1 | h1, h2⟩
        · exact Or.inl ⟨hp, h1, h2⟩
        · exact absurd h1 hp

theorem extractPorts_inner (k : String) (bs : List PortBinding) (init : List String) :
    bs.foldl (fun (result : List String) b =>
      if b.HostPort = "" then result
      else
        let cp := beforeFirst '/' k
        let entry := b.HostPort ++ ":" ++ cp
        let entry := if b.HostIP ≠ "" ∧ b.HostIP ≠ "0.0.0.0" then b.HostIP ++ ":" ++ entry else entry
        result ++ [entry]) init = init ++ bs.filterMap (portEntry k) := by
  induction bs generalizing init with
  | nil => simp
  | cons b t ih =>
    rw [List.foldl_cons, ih]
    unfold portEntry
    by_cases h : b.HostPort = ""
    · simp [h]
    · simp [h]

theorem extractPorts_outer (ports : List (String × List PortBinding)) (init : List String) :
    ports.foldl (fun (result : List String) kv =>
      kv.2.foldl (fun (result : List String) b =>
        if b.HostPort = "" then result
        else
          let cp := beforeFirst '/' kv.1
          let entry := b.HostPort ++ ":" ++ cp
          let entry :=
            if b.HostIP ≠ "" ∧ b.HostIP ≠ "0.0.0.0" then b.HostIP ++ ":" ++ entry else entry
          result ++ [entry]) result) init =
      init ++ ports.flatMap (fun kv => kv.2.filterMap (portEntry kv.1)) := by
  induction ports generalizing init with
  | nil => simp
  | cons kv t ih =>
    rw [List.foldl_cons, extractPorts_inner, ih]
    simp

/-- The list `extractPorts` returns: the entries of all bindings, sorted. -/
theorem extractPorts_eq (ports : List (String × List PortBinding)) :
    extractPorts ports = sortStrings (ports.flatMap (fun kv => kv.2.filterMap (portEntry kv.1))) := by
  unfold extractPorts
  simp only [extractPorts_outer, List.nil_append]

/-- The result of `extractPorts` does not depend on the order in which the port
map is visited. -/
theorem extractPorts_perm (ports₁ ports₂ : List (String × List PortBinding))
    (hp : ports₁.Perm ports₂) : extractPorts ports₁ = extractPorts ports₂ := by
  rw [extractPorts_eq, extractPorts_eq]
  exact sortStrings_eq_of_perm _ _ (hp.flatMap_right _)

theorem sortContainers_infos (l₁ l₂ : List (String × ContainerInfo)) (hp : l₁.Perm l₂)
    (hsv : (l₁.map (fun pi => (pi.1, pi.2.ServiceName))).Nodup) (p : String) :
    sortContainers ((l₁.filter (fun pi => pi.1 = p)).map Prod.snd) =
      sortContainers ((l₂.filter (fun pi => pi.1 = p)).map Prod.snd) := by
  unfold sortContainers
  apply insertionSort_eq_of_perm (fun a : ContainerInfo => a.ServiceName.data)
  · exact (hp.filter _).map _
  · have h1 : ((l₁.filter (fun pi => pi.1 = p)).map (fun pi => (pi.1, pi.2.ServiceName))).Nodup :=
      hsv.sublist (List.Sublist.map _ (List.filter_sublist _))
    have h2 : (l₁.filter (fun pi => pi.1 = p)).map (fun pi => (pi.1, pi.2.ServiceName)) =
        ((l₁.filter (fun pi => pi.1 = p)).map (fun pi => pi.2.ServiceName)).map
          (fun sv => (p, sv)) := by
      rw [List.map_map]
      apply List.map_congr_left
      intro a ha
      have := (List.mem_filter.mp ha).2
      simp only [decide_eq_true_eq] at this
      simp [this]
    rw [h2] at h1
    have h3 := List.Nodup.of_map _ h1
    rw [List.map_map]
    have h4 : (l₁.filter (fun pi => pi.1 = p)).map
        ((fun a : ContainerInfo => a.ServiceName.data) ∘ Prod.snd) =
        ((l₁.filter (fun pi => pi.1 = p)).map (fun pi => pi.2.ServiceName)).map String.data := by
      rw [List.map_map]
      rfl
    rw [h4]
    exact h3.map (fun a b hab => String.ext hab)

/-- The grouping step on the contributions of the containers: two orderings of
contributions with distinct service names per project give the same projects,
whatever the order in which the project map is visited. -/
theorem projects_of_perm
    (visit₁ visit₂ : List (String × List ContainerInfo) → List (String × List ContainerInfo))
    (hv₁ : ∀ m, (visit₁ m).Perm m) (hv₂ : ∀ m, (visit₂ m).Perm m)
    (l₁ l₂ : List (String × ContainerInfo)) (hp : l₁.Perm l₂)
    (hsv : (l₁.map (fun pi => (pi.1, pi.2.ServiceName))).Nodup) :
    sortProjects ((visit₁ (l₁.foldl (fun m pi => appendInfo pi.1 pi.2 m) [])).map
        (fun kv => ({ Name := kv.1, Containers := sortContainers kv.2 } : Project))) =
      sortProjects ((visit₂ (l₂.foldl (fun m pi => appendInfo pi.1 pi.2 m) [])).map
        (fun kv => ({ Name := kv.1, Containers := sortContainers kv.2 } : Project))) := by
  obtain ⟨hnd₁, hk₁, hm₁⟩ := group_spec l₁
  obtain ⟨hnd₂, hk₂, hm₂⟩ := group_spec l₂
  have hnames : ∀ m : List (String × List ContainerInfo), (m.map Prod.fst).Nodup →
      ((m.map (fun kv => ({ Name := kv.1, Containers := sortContainers kv.2 } : Project))).map
        (fun a : Project => a.Name.data)).Nodup := by
    intro m hm
    rw [List.map_map]
    have : (m.map ((fun a : Project => a.Name.data) ∘
        (fun kv => ({ Name := kv.1, Containers := sortContainers kv.2 } : Project)))) =
        (m.map Prod.fst).map String.data := by
      rw [List.map_map]
      rfl
    rw [this]
    exact hm.map (fun a b hab => String.ext hab)
  have hmem : ∀ x : Project,
      x ∈ (l₁.foldl (fun m pi => appendInfo pi.1 pi.2 m) []).map
        (fun kv => ({ Name := kv.1, Containers := sortContainers kv.2 } : Project)) ↔
      x ∈ (l₂.foldl (fun m pi => appendInfo pi.1 pi.2 m) []).map
        (fun kv => ({ Name := kv.1, Containers := sortContainers kv.2 } : Project)) := by
    intro x
    simp only [List.mem_map]
    constructor
    · rintro ⟨⟨p, is⟩, hin, rfl⟩
      obtain ⟨h1, h2⟩ := (hm₁ p is).1 hin
      refine ⟨(p, (l₂.filter (fun pi => pi.1 = p)).map Prod.snd), ?_, ?_⟩
      · exact (hm₂ _ _).2 ⟨(hp.map _).subset h1, rfl⟩
      · simp only [h2]
        rw [sortContainers_infos l₁ l₂ hp hsv p]
    · rintro ⟨⟨p, is⟩, hin, rfl⟩
      obtain ⟨h1, h2⟩ := (hm₂ p is).1 hin
      refine ⟨(p, (l₁.filter (fun pi => pi.1 = p)).map Prod.snd), ?_, ?_⟩
      · exact (hm₁ _ _).2 ⟨(hp.symm.map _).subset h1, rfl⟩
      · simp only [h2]
        rw [sortContainers_infos l₁ l₂ hp hsv p]
  have hperm : ((l₁.foldl (fun m pi => appendInfo pi.1 pi.2 m) []).map
        (fun kv => ({ Name := kv.1, Containers := sortContainers kv.2 } : Project))).Perm
      ((l₂.foldl (fun m pi => appendInfo pi.1 pi.2 m) []).map
        (fun kv => ({ Name := kv.1, Containers := sortContainers kv.2 } : Project))) :=
    (List.perm_ext_iff_of_nodup (List.Nodup.of_map _ (hnames _ hnd₁))
      (List.Nodup.of_map _ (hnames _ hnd₂))).mpr hmem
  unfold sortProjects
  apply insertionSort_eq_of_perm (fun a : Project => a.Name.data)
  · exact (((hv₁ _).map _).trans hperm).trans ((hv₂ _).map _).symm
  · exact (((hv₁ _).map _).map _).nodup_iff.mpr (hnames _ hnd₁)


/-! ## Compose reconstruction: determinism claim -/

/-- C10. The grouping step is not deterministic on the failing input: two
containers of project `shop` that both carry the service label `web` (images
`nginx:1` and `nginx:2`) are the same facts in either discovery order, yet the
project lists differ (the comparison by service name has no tie-break, so the
two services keep their discovery order) and so do the rendered documents. -/
theorem DiscoverProjects_order_counterexample :
    [webOne, webTwo].Perm [webTwo, webOne] ∧
      DiscoverProjects id [webOne, webTwo] ≠ DiscoverProjects id [webTwo, webOne] ∧
      (DiscoverProjects id [webOne, webTwo]).map Project.ToCompose ≠
        (DiscoverProjects id [webTwo, webOne]).map Project.ToCompose :=
  ⟨List.Perm.swap _ _ _, by decide, by decide⟩

/-- Where the grouping step is deterministic: for every list of container facts
in which no two facts with the same grouping label carry the same service
label, the result does not depend on the discovery order nor on the order in
which the project map is visited: for two orderings of the facts and two
visiting orders, the grouping
step of `DiscoverProjects` returns the same list of projects and `ToCompose`
the same documents; and `extractPorts` returns the same list for every
visiting order of the port map (labels are only looked up). -/
theorem DiscoverProjects_order_independent
    (visit₁ visit₂ : List (String × List ContainerInfo) → List (String × List ContainerInfo))
    (cs₁ cs₂ : List containerInspect)
    (hv₁ : ∀ m, (visit₁ m).Perm m) (hv₂ : ∀ m, (visit₂ m).Perm m)
    (hfacts : cs₁.Perm cs₂)
    (hservices : (cs₁.filterMap serviceKey).Nodup) :
    DiscoverProjects visit₁ cs₁ = DiscoverProjects visit₂ cs₂ ∧
      (DiscoverProjects visit₁ cs₁).map Project.ToCompose =
        (DiscoverProjects visit₂ cs₂).map Project.ToCompose ∧
      ∀ ports₁ ports₂ : List (String × List PortBinding), ports₁.Perm ports₂ →
        extractPorts ports₁ = extractPorts ports₂ := by
  have hsv : ((cs₁.filterMap projectInfo).map (fun pi => (pi.1, pi.2.ServiceName))).Nodup := by
    rw [List.map_filterMap]
    exact hservices
  have heq : DiscoverProjects visit₁ cs₁ = DiscoverProjects visit₂ cs₂ := by
    rw [DiscoverProjects_eq, DiscoverProjects_eq, collectProjects_eq, collectProjects_eq]
    exact projects_of_perm visit₁ visit₂ hv₁ hv₂ _ _ (hfacts.filterMap projectInfo) hsv
  exact ⟨heq, by rw [heq], extractPorts_perm⟩

/-- Order independence at a sample input: the services `web` and `db` of project
`shop` discovered in either order, the project map visited in either order. -/
theorem DiscoverProjects_order_independent_witness :
    DiscoverProjects id [webOne, dbOne] = DiscoverProjects List.reverse [dbOne, webOne] ∧
      (DiscoverProjects id [webOne, dbOne]).map Project.ToCompose =
        (DiscoverProjects List.reverse [dbOne, webOne]).map Project.ToCompose :=
  ⟨(DiscoverProjects_order_independent id List.reverse [webOne, dbOne] [dbOne, webOne]
      (fun m => List.Perm.refl m) (fun m => List.reverse_perm m) (List.Perm.swap _ _ _)
      (by decide)).1,
    (DiscoverProjects_order_independent id List.reverse [webOne, dbOne] [dbOne, webOne]
      (fun m => List.Perm.refl m) (fun m => List.reverse_perm m) (List.Perm.swap _ _ _)
      (by decide)).2.1⟩


/-! ## Lemmas: cutting texts, rendering, filtering -/

theorem headD_splitAt (sep : Char) (l : List Char) :
    (splitAt sep l).headD [] = l.takeWhile (fun c => c != sep) := by
  induction l with
  | nil => rfl
  | cons c cs ih =>
    unfold splitAt
    by_cases h : c = sep
    · simp [h]
    · have hb : (c != sep) = true := by simpa using h
      rw [if_neg h, List.takeWhile_cons, hb]
      simp only [if_true]
      rw [← ih]
      cases hs : splitAt sep cs with
      | nil => exact absurd hs (splitAt_ne_nil sep cs)
      | cons w ws => rfl

theorem beforeFirst_data (sep : Char) (s : String) :
    (beforeFirst sep s).data = s.data.takeWhile (fun c => c != sep) :=
  headD_splitAt sep s.data

/-- The two results of `strings.Cut` put the text back together around the
first separator. -/
theorem cut_of_mem (sep : Char) (s : String) (h : sep ∈ s.data) :
    s = beforeFirst sep s ++ String.singleton sep ++ afterFirst sep s := by
  apply String.ext
  simp only [String.data_append, beforeFirst_data, afterFirst, String.singleton, String.data_push]
  have hsplit := List.takeWhile_append_dropWhile (fun c => c != sep) s.data
  have hne : s.data.dropWhile (fun c => c != sep) ≠ [] := by
    intro e
    rw [List.dropWhile_eq_nil_iff] at e
    have := e sep h
    simp at this
  obtain ⟨x, t, hx⟩ := List.exists_cons_of_ne_nil hne
  have hx0 : x = sep := by
    have h1 := List.head?_dropWhile_not (fun c => c != sep) s.data
    rw [hx] at h1
    simpa using h1
  conv_lhs => rw [← hsplit, hx, hx0]
  rw [hx]
  simp

theorem cut_of_not_mem (sep : Char) (s : String) (h : sep ∉ s.data) :
    beforeFirst sep s = s ∧ afterFirst sep s = "" := by
  have hall : ∀ c ∈ s.data, (c != sep) = true := by
    intro c hc
    have : c ≠ sep := fun e => h (e ▸ hc)
    simpa using this
  constructor
  · apply String.ext
    rw [beforeFirst_data]
    exact List.takeWhile_eq_self_iff.mpr hall
  · apply String.ext
    unfold afterFirst
    simp only
    rw [List.dropWhile_eq_nil_iff.mpr hall]
    rfl

theorem foldl_append_concat {α : Type} (g : α → String) (l : List α) (init : String) :
    l.foldl (fun (b : String) x => b ++ g x) init = init ++ concatAll (l.map g) := by
  induction l generalizing init with
  | nil => simp [concatAll]
  | cons a t ih =>
    rw [List.foldl_cons, ih, String.append_assoc]
    rfl

/-- The text `ToCompose` returns: the header, then the block of each service in
list order. -/
theorem ToCompose_eq (p : Project) :
    p.ToCompose = composeHeader ++ concatAll (p.Containers.map serviceBlock) := by
  have hstep : ∀ (b : String) (c : ContainerInfo),
      (let b1 := b ++ ("  " ++ c.ServiceName ++ ":\n")
       let b2 := b1 ++ ("    image: " ++ c.Image ++ "\n")
       let b3 := if c.RestartPolicy ≠ "" then b2 ++ ("    restart: " ++ c.RestartPolicy ++ "\n")
         else b2
       let b4 := if c.Ports.length > 0 then
           c.Ports.foldl (fun (b : String) port => b ++ listItem port) (b3 ++ "    ports:\n")
         else b3
       let b5 := if c.Volumes.length > 0 then
           c.Volumes.foldl (fun (b : String) vol => b ++ listItem vol) (b4 ++ "    volumes:\n")
         else b4
       if c.Environment.length > 0 then
         c.Environment.foldl (fun (b : String) env =>
           b ++ ("      " ++ beforeFirst '=' env ++ ": " ++ String.singleton dquote ++
             escapeYAML (afterFirst '=' env) ++ String.singleton dquote ++ "\n"))
           (b5 ++ "    environment:\n")
       else b5) = b ++ serviceBlock c := by
    intro b c
    have henv : ∀ (init : String) (l : List String),
        l.foldl (fun (b : String) env =>
          b ++ ("      " ++ beforeFirst '=' env ++ ": " ++ String.singleton dquote ++
            escapeYAML (afterFirst '=' env) ++ String.singleton dquote ++ "\n")) init =
        init ++ concatAll (l.map envLine) :=
      fun init l => foldl_append_concat envLine l init
    simp only [serviceBlock, restartLines, portsLines, volumesLines, envLines, henv,
      foldl_append_concat]
    split <;> split <;> split <;> split <;>
      simp only [String.append_assoc, String.append_empty]
  unfold Project.ToCompose
  simp only [hstep]
  rw [foldl_append_concat]
  rfl

theorem skip_iff (k : String) :
    skip k = true ↔ k ∈ ["PATH", "HOME", "HOSTNAME", "TERM", "LANG", "LC_ALL"] := by
  simp [skip, or_assoc]

theorem beforeFirst_eq_envName (e : String) : beforeFirst '=' e = envName e :=
  String.ext (beforeFirst_data '=' e)

theorem filterEnv_foldl (env : List String) (init : List String) :
    env.foldl (fun (result : List String) e =>
      let k := beforeFirst '=' e
      if skip k then result else result ++ [e]) init = init ++ filterEnvSpec env := by
  induction env generalizing init with
  | nil => simp [filterEnvSpec]
  | cons e t ih =>
    rw [List.foldl_cons, ih]
    unfold filterEnvSpec
    rw [List.filter_cons]
    by_cases h : skip (beforeFirst '=' e) = true
    · have h' : envName e ∈ ["PATH", "HOME", "HOSTNAME", "TERM", "LANG", "LC_ALL"] := by
        rw [← beforeFirst_eq_envName]
        exact (skip_iff _).1 h
      simp only [h, if_true, h', not_true_eq_false, decide_False]
      rfl
    · have h' : envName e ∉ ["PATH", "HOME", "HOSTNAME", "TERM", "LANG", "LC_ALL"] := by
        rw [← beforeFirst_eq_envName]
        exact fun hm => h ((skip_iff _).2 hm)
      simp only [h, h', not_false_eq_true, decide_True, if_true]
      simp

/-- The list `filterEnv` returns is the one the specification describes. -/
theorem filterEnv_eq (env : List String) : filterEnv env = filterEnvSpec env := by
  unfold filterEnv
  rw [filterEnv_foldl, List.nil_append]

theorem portEntry_eq (k : String) (b : PortBinding) :
    portEntry k b = if b.HostPort = "" then none else some (portEntrySpec k b) := by
  have hcp : beforeFirst '/' k = (⟨k.data.takeWhile (fun c => c != '/')⟩ : String) :=
    String.ext (beforeFirst_data '/' k)
  unfold portEntry portEntrySpec
  rw [hcp]
  by_cases h : b.HostPort = ""
  · simp [h]
  · rw [if_neg h, if_neg h]
    by_cases h2 : b.HostIP ≠ "" ∧ b.HostIP ≠ "0.0.0.0"
    · rw [if_pos h2, if_pos h2]
    · rw [if_neg h2, if_neg h2]
      rfl

theorem filterMap_portEntry (k : String) (bs : List PortBinding) :
    bs.filterMap (portEntry k) =
      (bs.filter (fun b => decide (b.HostPort ≠ ""))).map (portEntrySpec k) := by
  induction bs with
  | nil => rfl
  | cons b t ih =>
    rw [List.filterMap_cons, List.filter_cons, portEntry_eq, ih]
    by_cases h : b.HostPort = ""
    · simp [h]
    · simp [h]

/-- The list `extractPorts` returns: the entries the specification describes,
sorted. -/
theorem extractPorts_spec (ports : List (String × List PortBinding)) :
    extractPorts ports = sortStrings (portEntriesSpec ports) := by
  rw [extractPorts_eq]
  unfold portEntriesSpec
  simp only [filterMap_portEntry]

theorem head_escape_ne_dquote (l : List Char) :
    (l.flatMap (fun c => if c = dquote then [Char.ofNat 92, dquote] else [c])).head? ≠
      some dquote := by
  cases l with
  | nil => simp
  | cons c t =>
    rw [List.flatMap_cons]
    by_cases h : c = dquote
    · rw [if_pos h]
      simp only [List.cons_append, List.head?_cons, ne_eq, Option.some.injEq]
      decide
    · rw [if_neg h]
      simp only [List.singleton_append, List.head?_cons, ne_eq, Option.some.injEq]
      exact h

theorem unescapeChars_cons (a : Char) (rest : List Char) :
    unescapeChars (a :: rest) =
      if a = Char.ofNat 92 ∧ rest.head? = some dquote then unescapeChars rest
      else a :: unescapeChars rest := by
  rw [unescapeChars]

theorem unescapeChars_escape (l : List Char) :
    unescapeChars (l.flatMap (fun c => if c = dquote then [Char.ofNat 92, dquote] else [c])) =
      l := by
  induction l with
  | nil => rfl
  | cons c t ih =>
    rw [List.flatMap_cons]
    by_cases h : c = dquote
    · rw [if_pos h, h]
      have h1 : (Char.ofNat 92 = Char.ofNat 92 ∧
          ((dquote :: t.flatMap (fun c => if c = dquote then [Char.ofNat 92, dquote] else [c])).head? =
            some dquote)) := ⟨rfl, rfl⟩
      have h2 : ¬ (dquote = Char.ofNat 92 ∧
          ((t.flatMap (fun c => if c = dquote then [Char.ofNat 92, dquote] else [c])).head? =
            some dquote)) := fun hh => absurd hh.1 (by decide)
      simp only [List.cons_append, List.nil_append]
      rw [unescapeChars_cons, if_pos h1, unescapeChars_cons, if_neg h2, ih]
    · rw [if_neg h]
      simp only [List.singleton_append]
      have h2 : ¬ (c = Char.ofNat 92 ∧
          ((t.flatMap (fun c => if c = dquote then [Char.ofNat 92, dquote] else [c])).head? =
            some dquote)) := fun hh => head_escape_ne_dquote t hh.2
      rw [unescapeChars_cons, if_neg h2, ih]

/-- Undoing the replacement of `escapeYAML` gives the text back. -/
theorem unescapeYAML_escapeYAML (v : String) : unescapeYAML (escapeYAML v) = v :=
  String.ext (unescapeChars_escape v.data)

theorem escape_quote_preceded (l pre post : List Char)
    (h : l.flatMap (fun c => if c = dquote then [Char.ofNat 92, dquote] else [c]) =
      pre ++ dquote :: post) :
    ∃ pre', pre = pre' ++ [Char.ofNat 92] := by
  induction l generalizing pre with
  | nil =>
    simp at h
  | cons c t ih =>
    rw [List.flatMap_cons] at h
    by_cases hc : c = dquote
    · rw [if_pos hc] at h
      match pre, h with
      | [], h =>
        simp only [List.cons_append, List.nil_append, List.cons.injEq] at h
        exact absurd h.1 (by decide)
      | [x], h =>
        simp only [List.cons_append, List.nil_append, List.cons.injEq] at h
        exact ⟨[], by rw [← h.1]; rfl⟩
      | x :: y :: pre2, h =>
        simp only [List.cons_append, List.nil_append, List.cons.injEq] at h
        obtain ⟨p, hp⟩ := ih pre2 h.2.2
        exact ⟨x :: y :: p, by rw [hp]; rfl⟩
    · rw [if_neg hc] at h
      match pre, h with
      | [], h =>
        simp only [List.cons_append, List.nil_append, List.cons.injEq] at h
        exact absurd h.1 hc
      | x :: pre2, h =>
        simp only [List.cons_append, List.nil_append, List.cons.injEq] at h
        obtain ⟨p, hp⟩ := ih pre2 h.2
        exact ⟨x :: p, by rw [hp]; rfl⟩

/-! ## Lemmas: the projects `DiscoverProjects` returns -/

theorem sortContainers_perm (l : List ContainerInfo) : (sortContainers l).Perm l :=
  List.perm_insertionSort _ l

theorem sortContainers_sorted (l : List ContainerInfo) :
    (sortContainers l).Pairwise (fun a b => a.ServiceName.data ≤ b.ServiceName.data) := by
  haveI : IsTotal ContainerInfo (fun a b => a.ServiceName.data ≤ b.ServiceName.data) :=
    ⟨fun a b => le_total a.ServiceName.data b.ServiceName.data⟩
  haveI : IsTrans ContainerInfo (fun a b => a.ServiceName.data ≤ b.ServiceName.data) :=
    ⟨fun _ _ _ h1 h2 => le_trans h1 h2⟩
  exact List.sorted_insertionSort _ l

theorem sortProjects_perm (l : List Project) : (sortProjects l).Perm l :=
  List.perm_insertionSort _ l

theorem sortProjects_sorted (l : List Project) :
    (sortProjects l).Pairwise (fun a b => a.Name.data ≤ b.Name.data) := by
  haveI : IsTotal Project (fun a b => a.Name.data ≤ b.Name.data) :=
    ⟨fun a b => le_total a.Name.data b.Name.data⟩
  haveI : IsTrans Project (fun a b => a.Name.data ≤ b.Name.data) :=
    ⟨fun _ _ _ h1 h2 => le_trans h1 h2⟩
  exact List.sorted_insertionSort _ l

/-- The projects returned are, up to order, one per entry of the project map. -/
theorem DiscoverProjects_perm
    (visit : List (String × List ContainerInfo) → List (String × List ContainerInfo))
    (hv : ∀ m, (visit m).Perm m) (cs : List containerInspect) :
    (DiscoverProjects visit cs).Perm
      (((cs.filterMap projectInfo).foldl (fun m pi => appendInfo pi.1 pi.2 m) []).map
        (fun kv => ({ Name := kv.1, Containers := sortContainers kv.2 } : Project))) := by
  rw [DiscoverProjects_eq, collectProjects_eq]
  exact (sortProjects_perm _).trans ((hv _).map _)

theorem DiscoverProjects_names
    (visit : List (String × List ContainerInfo) → List (String × List ContainerInfo))
    (hv : ∀ m, (visit m).Perm m) (cs : List containerInspect) :
    ((DiscoverProjects visit cs).map Project.Name).Perm
      (((cs.filterMap projectInfo).foldl (fun m pi => appendInfo pi.1 pi.2 m) []).map Prod.fst) := by
  have h := (DiscoverProjects_perm visit hv cs).map Project.Name
  rw [List.map_map] at h
  exact h

theorem mem_DiscoverProjects
    (visit : List (String × List ContainerInfo) → List (String × List ContainerInfo))
    (hv : ∀ m, (visit m).Perm m) (cs : List containerInspect) (p : Project) :
    p ∈ DiscoverProjects visit cs ↔
      p.Name ∈ (cs.filterMap projectInfo).map Prod.fst ∧
        p.Containers = sortContainers
          (((cs.filterMap projectInfo).filter (fun pi => pi.1 = p.Name)).map Prod.snd) := by
  rw [(DiscoverProjects_perm visit hv cs).mem_iff, List.mem_map]
  obtain ⟨-, -, hm⟩ := group_spec (cs.filterMap projectInfo)
  constructor
  · rintro ⟨⟨name, is⟩, hin, rfl⟩
    obtain ⟨h1, h2⟩ := (hm name is).1 hin
    exact ⟨h1, by rw [h2]⟩
  · rintro ⟨h1, h2⟩
    refine ⟨(p.Name, ((cs.filterMap projectInfo).filter (fun pi => pi.1 = p.Name)).map Prod.snd),
      (hm _ _).2 ⟨h1, rfl⟩, ?_⟩
    cases p
    simp only at h2 ⊢
    rw [h2]

/-- The projects returned are in strictly ascending order of name. -/
theorem DiscoverProjects_strict
    (visit : List (String × List ContainerInfo) → List (String × List ContainerInfo))
    (hv : ∀ m, (visit m).Perm m) (cs : List containerInspect) :
    (DiscoverProjects visit cs).Pairwise (fun a b => a.Name.data < b.Name.data) := by
  obtain ⟨hnd, -, -⟩ := group_spec (cs.filterMap projectInfo)
  have hnd' : ((DiscoverProjects visit cs).map Project.Name).Nodup :=
    (DiscoverProjects_names visit hv cs).nodup_iff.mpr hnd
  have hs : (DiscoverProjects visit cs).Pairwise (fun a b => a.Name.data ≤ b.Name.data) := by
    rw [DiscoverProjects_eq]
    exact sortProjects_sorted _
  have hne : (DiscoverProjects visit cs).Pairwise (fun a b => a.Name ≠ b.Name) :=
    (List.pairwise_map.mp hnd')
  refine (List.Pairwise.and hs hne).imp ?_
  rintro a b ⟨h1, h2⟩
  exact lt_of_le_of_ne h1 (fun e => h2 (String.ext e))

/-- The results of `strings.Cut` on a name without `=`, followed by `=` and a value. -/
theorem cut_append (k v : String) (hk : '=' ∉ k.data) :
    beforeFirst '=' (k ++ "=" ++ v) = k ∧ afterFirst '=' (k ++ "=" ++ v) = v := by
  have hall : ∀ c ∈ k.data, (c != '=') = true := by
    intro c hc
    have : c ≠ '=' := fun e => hk (e ▸ hc)
    simpa using this
  have hd : (k ++ "=" ++ v).data = k.data ++ ('=' :: v.data) := by
    simp [String.data_append]
  constructor
  · apply String.ext
    rw [beforeFirst_data, hd, List.takeWhile_append_of_pos hall]
    simp
  · apply String.ext
    unfold afterFirst
    simp only
    rw [hd, List.dropWhile_append_of_pos hall]
    simp


/-! ## Compose reconstruction: grouping, ordering and rendering claims -/

/-- C11. The grouping step keeps duplicates on the failing input: two containers
of project `shop` both carry the service label `web` (images `nginx:1`, then
`nginx:2` in discovery order); the project returned holds both, the earlier one
included, so its service names are not pairwise distinct, and the rendered
document has two `web:` keys under `services:`. -/
theorem DiscoverProjects_duplicate_counterexample :
    DiscoverProjects id [webOne, webTwo] =
        [⟨"shop", [⟨"web", "nginx:1", "always", ["80:8080"], [], []⟩,
          ⟨"web", "nginx:2", "always", [], [], []⟩]⟩] ∧
      (¬ ∀ p ∈ DiscoverProjects id [webOne, webTwo],
        (p.Containers.map ContainerInfo.ServiceName).Nodup) ∧
      (DiscoverProjects id [webOne, webTwo]).map Project.ToCompose =
        [composeHeader ++
          "  web:\n    image: nginx:1\n    restart: always\n    ports:\n      - \"80:8080\"\n" ++
          "  web:\n    image: nginx:2\n    restart: always\n"] :=
  ⟨by decide, by decide, by decide!⟩

/-- What the grouping step does with every list of raw container facts: every
project produced by `DiscoverProjects` holds exactly one service per fact that
carries the project's grouping label and a service label (no fact is dropped,
also when two of them carry the same service label), so its service names are
pairwise distinct exactly when the service labels of these facts are; and the
rendered document has one block per service of the project. -/
theorem DiscoverProjects_keeps_every_fact
    (visit : List (String × List ContainerInfo) → List (String × List ContainerInfo))
    (cs : List containerInspect) (hv : ∀ m, (visit m).Perm m) :
    ∀ p ∈ DiscoverProjects visit cs,
      p.Containers.Perm
          (((cs.filterMap projectInfo).filter (fun pi => pi.1 = p.Name)).map Prod.snd) ∧
        ((p.Containers.map ContainerInfo.ServiceName).Nodup ↔
          (((cs.filterMap projectInfo).filter (fun pi => pi.1 = p.Name)).map
            (fun pi => pi.2.ServiceName)).Nodup) ∧
        p.ToCompose = composeHeader ++ concatAll (p.Containers.map serviceBlock) := by
  intro p hp
  obtain ⟨-, h2⟩ := (mem_DiscoverProjects visit hv cs p).1 hp
  have hperm : p.Containers.Perm
      (((cs.filterMap projectInfo).filter (fun pi => pi.1 = p.Name)).map Prod.snd) := by
    rw [h2]
    exact sortContainers_perm _
  refine ⟨hperm, ?_, ToCompose_eq p⟩
  have h3 := (hperm.map ContainerInfo.ServiceName).nodup_iff
  rw [List.map_map] at h3
  exact h3

/-- The grouping step at a sample input: three containers of project `shop`, two
of them with the service label `web`, the project map visited in reverse; the
project returned holds all three. -/
theorem DiscoverProjects_keeps_every_fact_witness :
    (⟨"shop", [⟨"db", "postgres:16", "", [], [], []⟩,
        ⟨"web", "nginx:1", "always", ["80:8080"], [], []⟩,
        ⟨"web", "nginx:2", "always", [], [], []⟩]⟩ : Project) ∈
        DiscoverProjects List.reverse [webOne, webTwo, dbOne] ∧
      [(⟨"db", "postgres:16", "", [], [], []⟩ : ContainerInfo),
        ⟨"web", "nginx:1", "always", ["80:8080"], [], []⟩,
        ⟨"web", "nginx:2", "always", [], [], []⟩].Perm
          ((([webOne, webTwo, dbOne].filterMap projectInfo).filter
            (fun pi => pi.1 = "shop")).map Prod.snd) :=
  ⟨by decide,
    (DiscoverProjects_keeps_every_fact List.reverse [webOne, webTwo, dbOne]
      (fun m => List.reverse_perm m)
      ⟨"shop", [⟨"db", "postgres:16", "", [], [], []⟩,
        ⟨"web", "nginx:1", "always", ["80:8080"], [], []⟩,
        ⟨"web", "nginx:2", "always", [], [], []⟩]⟩ (by decide)).1⟩

/-- C12. For every list of raw container facts and every order in which the
project map is visited, the projects returned by the grouping step of
`DiscoverProjects` are in strictly ascending order of name, their names are
exactly the grouping labels of the facts that carry both labels (one project
each), and the services of each project are in ascending order of service name;
the facts `web` and `db` of project `shop` give one project whose rendered
document lists `db` before `web`. -/
theorem DiscoverProjects_sorted
    (visit : List (String × List ContainerInfo) → List (String × List ContainerInfo))
    (cs : List containerInspect) (hv : ∀ m, (visit m).Perm m) :
    (DiscoverProjects visit cs).Pairwise (fun a b => a.Name.data < b.Name.data) ∧
      (∀ name, name ∈ (DiscoverProjects visit cs).map Project.Name ↔
        name ∈ (cs.filterMap projectInfo).map Prod.fst) ∧
      (∀ p ∈ DiscoverProjects visit cs,
        p.Containers.Pairwise (fun a b => a.ServiceName.data ≤ b.ServiceName.data)) ∧
      (DiscoverProjects visit [webOne, dbOne]).map Project.ToCompose =
        [composeHeader ++ "  db:\n    image: postgres:16\n" ++
          "  web:\n    image: nginx:1\n    restart: always\n    ports:\n      - \"80:8080\"\n"] := by
  refine ⟨DiscoverProjects_strict visit hv cs, ?_, ?_, ?_⟩
  · intro name
    rw [(DiscoverProjects_names visit hv cs).mem_iff]
    exact (group_spec (cs.filterMap projectInfo)).2.1 name
  · intro p hp
    rw [((mem_DiscoverProjects visit hv cs p).1 hp).2]
    exact sortContainers_sorted _
  · have hm : collectProjects [webOne, dbOne] =
        [("shop", [⟨"web", "nginx:1", "always", ["80:8080"], [], []⟩,
          ⟨"db", "postgres:16", "", [], [], []⟩])] := by decide
    rw [DiscoverProjects_eq, hm, List.perm_singleton.mp (hv _)]
    decide!

/-- C12 at a sample input: the containers `web` and `db` of project `shop`,
the project map visited in reverse. -/
theorem DiscoverProjects_sorted_witness :
    (DiscoverProjects List.reverse [webOne, dbOne]).Pairwise
        (fun a b => a.Name.data < b.Name.data) ∧
      (∀ name, name ∈ (DiscoverProjects List.reverse [webOne, dbOne]).map Project.Name ↔
        name ∈ ([webOne, dbOne].filterMap projectInfo).map Prod.fst) ∧
      (∀ p ∈ DiscoverProjects List.reverse [webOne, dbOne],
        p.Containers.Pairwise (fun a b => a.ServiceName.data ≤ b.ServiceName.data)) ∧
      (DiscoverProjects List.reverse [webOne, dbOne]).map Project.ToCompose =
        [composeHeader ++ "  db:\n    image: postgres:16\n" ++
          "  web:\n    image: nginx:1\n    restart: always\n    ports:\n      - \"80:8080\"\n"] :=
  DiscoverProjects_sorted List.reverse [webOne, dbOne] (fun m => List.reverse_perm m)

/-- C13. What `ToCompose` writes for every project: the header (two comment lines
and `services:`), then for each service in list order its name line, the image
line, and the restart, ports, volumes and environment fields in that order, the
last four only when set. The image line is written unconditionally: for the
project `shop` whose service `web` has an empty image the document holds the
key `image:` with an empty value. -/
theorem ToCompose_writes_empty_image (p : Project) :
    p.ToCompose = composeHeader ++ concatAll (p.Containers.map (fun c =>
        ("  " ++ c.ServiceName ++ ":\n") ++ ("    image: " ++ c.Image ++ "\n") ++ restartLines c ++
          portsLines c ++ volumesLines c ++ envLines c)) ∧
      composeHeader =
        "# Reconstructed by StackSnap from running containers.\n" ++
          "# This is a best-effort snapshot — review before use.\n" ++ "services:\n" ∧
      emptyImageProject.ToCompose = composeHeader ++ "  web:\n    image: \n" :=
  ⟨ToCompose_eq p, rfl, by decide⟩


/-! ## Compose reconstruction: field normalisation claims -/

/-- C14. For every raw restart-policy name `n`, `normaliseRestartPolicy n` is the
empty text when `n` is empty or `no` and `n` itself otherwise, so it is empty
exactly for these two names, and `always`, `unless-stopped` and `on-failure`
pass through; in the document of every project each service is rendered by its
block, and the block of a service whose raw policy is `no` has no restart line
(the image line is followed by the ports, volumes and environment fields),
while one whose raw policy is `always` has the line `restart: always`. -/
theorem normaliseRestartPolicy_spec (n : String) (p : Project) (c : ContainerInfo) :
    normaliseRestartPolicy n = (if n = "" ∨ n = "no" then "" else n) ∧
      (normaliseRestartPolicy n = "" ↔ n = "" ∨ n = "no") ∧
      normaliseRestartPolicy "always" = "always" ∧
      normaliseRestartPolicy "unless-stopped" = "unless-stopped" ∧
      normaliseRestartPolicy "on-failure" = "on-failure" ∧
      p.ToCompose = composeHeader ++ concatAll (p.Containers.map serviceBlock) ∧
      serviceBlock { c with RestartPolicy := normaliseRestartPolicy "no" } =
        ("  " ++ c.ServiceName ++ ":\n") ++ ("    image: " ++ c.Image ++ "\n") ++
          portsLines c ++ volumesLines c ++ envLines c ∧
      serviceBlock { c with RestartPolicy := normaliseRestartPolicy "always" } =
        ("  " ++ c.ServiceName ++ ":\n") ++ ("    image: " ++ c.Image ++ "\n") ++
          "    restart: always\n" ++ portsLines c ++ volumesLines c ++ envLines c ∧
      (DiscoverProjects id [dbOne, webOne]).map Project.ToCompose =
        [composeHeader ++ "  db:\n    image: postgres:16\n" ++
          "  web:\n    image: nginx:1\n    restart: always\n    ports:\n      - \"80:8080\"\n"] := by
  have h1 : normaliseRestartPolicy n = (if n = "" ∨ n = "no" then "" else n) := by
    unfold normaliseRestartPolicy
    by_cases ha : n = "always" ∨ n = "unless-stopped" ∨ n = "on-failure"
    · rw [if_pos ha]
      have hn : ¬ (n = "" ∨ n = "no") := by
        rcases ha with rfl | rfl | rfl <;> decide
      rw [if_neg hn]
    · rw [if_neg ha]
      by_cases hb : n = "no" ∨ n = ""
      · rw [if_pos hb, if_pos hb.symm]
      · rw [if_neg hb, if_neg (fun h => hb h.symm)]
  refine ⟨h1, ?_, by decide, by decide, by decide, ToCompose_eq p, ?_, ?_, by decide!⟩
  · rw [h1]
    constructor
    · intro h
      by_contra hn
      rw [if_neg hn] at h
      exact hn (Or.inl h)
    · intro h
      rw [if_pos h]
  · have e : normaliseRestartPolicy "no" = "" := by decide
    rw [e]
    simp only [serviceBlock, restartLines, portsLines, volumesLines, envLines, ne_eq,
      not_true_eq_false, if_false, String.append_empty]
  · have e : normaliseRestartPolicy "always" = "always" := by decide
    rw [e]
    have hne : ("always" : String) ≠ "" := by decide
    simp only [serviceBlock, restartLines, portsLines, volumesLines, envLines, ne_eq, hne,
      not_false_eq_true, if_true]
    rfl

/-- C15. For the entries of a port map in any visiting order, `extractPorts`
returns the sorted list of the entries the specification describes: it is in
ascending order, it holds exactly one entry `hostPort:containerPort` (with
`hostIP:` in front if and only if the host IP is neither empty nor `0.0.0.0`)
per binding with a non-empty host port, and another visiting order of the same
entries gives the same list; the map with key `8080/tcp` and one binding to
host port `80` gives the single entry `80:8080`. -/
theorem extractPorts_sorted_entries (ports ports' : List (String × List PortBinding))
    (horder : ports.Perm ports') :
    extractPorts ports = sortStrings (portEntriesSpec ports) ∧
      (extractPorts ports).Pairwise (fun a b => a.data ≤ b.data) ∧
      (extractPorts ports).Perm (portEntriesSpec ports) ∧
      extractPorts ports' = extractPorts ports ∧
      extractPorts [("8080/tcp", [⟨"", "80"⟩])] = ["80:8080"] := by
  refine ⟨extractPorts_spec ports, ?_, ?_, (extractPorts_perm ports ports' horder).symm,
    by decide⟩
  · rw [extractPorts_spec]
    exact sortStrings_sorted _
  · rw [extractPorts_spec]
    exact sortStrings_perm _

/-- C15 at a sample input: two keys with three bindings, one of them without a
host port, one on a specific host address, visited in either order. -/
theorem extractPorts_sorted_entries_witness :
    extractPorts [("8080/tcp", [⟨"", "80"⟩, ⟨"0.0.0.0", ""⟩]), ("53/udp", [⟨"10.0.0.1", "5353"⟩])] =
        sortStrings (portEntriesSpec
          [("8080/tcp", [⟨"", "80"⟩, ⟨"0.0.0.0", ""⟩]), ("53/udp", [⟨"10.0.0.1", "5353"⟩])]) ∧
      (extractPorts
        [("8080/tcp", [⟨"", "80"⟩, ⟨"0.0.0.0", ""⟩]), ("53/udp", [⟨"10.0.0.1", "5353"⟩])]).Pairwise
        (fun a b => a.data ≤ b.data) ∧
      (extractPorts
        [("8080/tcp", [⟨"", "80"⟩, ⟨"0.0.0.0", ""⟩]), ("53/udp", [⟨"10.0.0.1", "5353"⟩])]).Perm
        (portEntriesSpec
          [("8080/tcp", [⟨"", "80"⟩, ⟨"0.0.0.0", ""⟩]), ("53/udp", [⟨"10.0.0.1", "5353"⟩])]) ∧
      extractPorts [("53/udp", [⟨"10.0.0.1", "5353"⟩]), ("8080/tcp", [⟨"", "80"⟩, ⟨"0.0.0.0", ""⟩])] =
        extractPorts
          [("8080/tcp", [⟨"", "80"⟩, ⟨"0.0.0.0", ""⟩]), ("53/udp", [⟨"10.0.0.1", "5353"⟩])] ∧
      extractPorts [("8080/tcp", [⟨"", "80"⟩])] = ["80:8080"] :=
  extractPorts_sorted_entries _ _ (List.Perm.swap _ _ _)

/-- C16. For every list `env` of raw environment entries, `filterEnv env` is the
list the specification describes: the entries of `env`, in their order and
unmodified, whose name (the text before the first `=`, the whole entry when it
has none) is not one of PATH, HOME, HOSTNAME, TERM, LANG, LC_ALL; it is a
subsequence of `env`, and an entry is in it exactly when it is in `env` and its
name is not one of the six. -/
theorem filterEnv_meets_spec (env : List String) :
    filterEnv env = filterEnvSpec env ∧
      (filterEnv env).Sublist env ∧
      (∀ e, e ∈ filterEnv env ↔
        e ∈ env ∧ envName e ∉ ["PATH", "HOME", "HOSTNAME", "TERM", "LANG", "LC_ALL"]) ∧
      filterEnv ["PATH=/bin", "A=1", "HOME", "PATHS=x", "B", "LANG=C", "A=1"] =
        ["A=1", "PATHS=x", "B", "A=1"] := by
  refine ⟨filterEnv_eq env, ?_, ?_, by decide⟩
  · rw [filterEnv_eq]
    exact List.filter_sublist _
  · intro e
    rw [filterEnv_eq]
    unfold filterEnvSpec
    rw [List.mem_filter, decide_eq_true_eq]

/-- C17. In the document of every project each service is rendered by its block,
which ends with the environment lines; for an entry `K=V` (where `K` holds no
`=`) the line written is six spaces, `K`, colon, space, and between two double
quotes `escapeYAML V`. In `escapeYAML V` every double quote of `V` is replaced
by backslash, double quote and every other character is kept, so each double
quote in it is immediately preceded by a backslash, and undoing the
replacement gives `V` back. -/
theorem environment_line_escaped (p : Project) (k v : String) (hk : '=' ∉ k.data) :
    p.ToCompose = composeHeader ++ concatAll (p.Containers.map serviceBlock) ∧
      (∀ c : ContainerInfo, ∃ front : String, serviceBlock c = front ++ envLines c) ∧
      envLines ⟨"web", "nginx:1", "", [], [], [k ++ "=" ++ v]⟩ =
        "    environment:\n" ++
          ("      " ++ k ++ ": \"" ++ escapeYAML v ++ "\"\n") ∧
      (escapeYAML v).data =
        v.data.flatMap (fun c => if c = dquote then [Char.ofNat 92, dquote] else [c]) ∧
      (∀ pre post : List Char, (escapeYAML v).data = pre ++ dquote :: post →
        ∃ pre', pre = pre' ++ [Char.ofNat 92]) ∧
      unescapeYAML (escapeYAML v) = v := by
  refine ⟨ToCompose_eq p, fun c => ⟨_, rfl⟩, ?_, rfl, ?_, unescapeYAML_escapeYAML v⟩
  · obtain ⟨h1, h2⟩ := cut_append k v hk
    have hl : envLines ⟨"web", "nginx:1", "", [], [], [k ++ "=" ++ v]⟩ =
        "    environment:\n" ++ (envLine (k ++ "=" ++ v) ++ "") := rfl
    rw [hl, String.append_empty]
    unfold envLine
    rw [h1, h2]
    have e1 : ∀ X : String, ": " ++ (String.singleton dquote ++ X) = ": \"" ++ X := by
      intro X
      rw [← String.append_assoc]
      rfl
    have e2 : String.singleton dquote ++ "\n" = "\"\n" := by decide
    simp only [String.append_assoc, e1, e2]
  · intro pre post h
    exact escape_quote_preceded v.data pre post h

/-- C17 at a sample input: the entry `MOTD=say "hi"`. -/
theorem environment_line_escaped_witness :
    envLines ⟨"web", "nginx:1", "", [], [], ["MOTD" ++ "=" ++ "say \"hi\""]⟩ =
        "    environment:\n" ++
          ("      " ++ "MOTD" ++ ": \"" ++ escapeYAML "say \"hi\"" ++ "\"\n") ∧
      escapeYAML "say \"hi\"" = "say \\\"hi\\\"" ∧
      unescapeYAML (escapeYAML "say \"hi\"") = "say \"hi\"" :=
  ⟨(environment_line_escaped emptyImageProject "MOTD" "say \"hi\"" (by decide)).2.2.1,
    by decide,
    (environment_line_escaped emptyImageProject "MOTD" "say \"hi\"" (by decide)).2.2.2.2.2⟩

/-- C19, as stated, fails: `normaliseRestartPolicy` returns the literal value
`disabled` unchanged, not the empty text. -/
theorem normaliseRestartPolicy_disabled_counterexample :
    normaliseRestartPolicy "disabled" = "disabled" ∧ normaliseRestartPolicy "disabled" ≠ "" :=
  ⟨by decide, by decide⟩

/-- C19, amended. The restart-policy normalisation maps the literal value `no`
to the empty text (so that the restart field is omitted), just as it maps the
empty value to the empty text; the literal value `disabled` passes through
unchanged and is rendered as a restart line. -/
theorem normaliseRestartPolicy_no_is_default (c : ContainerInfo) :
    normaliseRestartPolicy "no" = "" ∧ normaliseRestartPolicy "" = "" ∧
      normaliseRestartPolicy "disabled" = "disabled" ∧
      restartLines { c with RestartPolicy := normaliseRestartPolicy "no" } = "" ∧
      restartLines { c with RestartPolicy := normaliseRestartPolicy "" } = "" ∧
      restartLines { c with RestartPolicy := normaliseRestartPolicy "disabled" } =
        "    restart: disabled\n" := by
  have e1 : normaliseRestartPolicy "no" = "" := by decide
  have e2 : normaliseRestartPolicy "" = "" := by decide
  have e3 : normaliseRestartPolicy "disabled" = "disabled" := by decide
  refine ⟨e1, e2, e3, ?_, ?_, ?_⟩
  · rw [e1]
    rfl
  · rw [e2]
    rfl
  · rw [e3]
    rfl


/-! ## The hash file is written last; stacks are keyed by the sanitised name -/

theorem hash_ne_tmp (p : String) : (".hash" : String) ≠ p ++ ".tmp" := by
  intro e
  have h := congrArg (fun s : String => s.data.getLast?) e
  simp only [last_tmp] at h
  exact absurd h (by decide)

/-- When the body of `Save` changes `.hash`: all writes succeeded, so that right
after the hash was written the version file and `latest.yml` hold the new
document; the directory returned is that state, pruned by `rotate` unless
`rotate` failed. -/
theorem saveFiles_hash_last (s : Store) (ud : String → String → Option String) (now : Time)
    (f : Faults) (dir : Dir) (d : String)
    (hset : (s.saveFiles ud now f dir d).1.lookup ".hash" ≠ dir.lookup ".hash") :
    ((s.saveFiles ud now f dir d).2.1 = none ∨ (s.saveFiles ud now f dir d).2.1 = some .rotate) ∧
      ∃ pre : Dir,
        pre.lookup (now.Format ++ ".yml") = some d ∧ pre.lookup "latest.yml" = some d ∧
        pre.lookup ".hash" = some (hashOf d) ∧
        ((s.saveFiles ud now f dir d).1 = pre ∨
          (s.saveFiles ud now f dir d).1 = (s.rotate false f.remove pre).1) ∧
        (s.saveFiles ud now f dir d).1.lookup "latest.yml" = some d ∧
        (s.saveFiles ud now f dir d).1.lookup ".hash" = some (hashOf d) := by
  have hch : TrimSpace (ReadFile dir ".hash") ≠ hashOf d := by
    intro h
    rw [saveFiles_unchanged s ud now f dir d h] at hset
    exact hset rfl
  have hres : (s.saveFiles ud now f dir d).2.1 = none ∨
      (s.saveFiles ud now f dir d).2.1 = some .rotate := by
    cases h : (s.saveFiles ud now f dir d).2.1 with
    | none => exact Or.inl rfl
    | some e =>
      by_cases he : e = .rotate
      · rw [he]
        exact Or.inr rfl
      · exact absurd ((saveFiles_err s ud now f dir d e h he ".hash" hash_ne_tmp).2.1 rfl) hset
  refine ⟨hres, ?_⟩
  obtain ⟨pre, hpre, heq⟩ := saveFiles_written s ud now f dir d hch hres
  have h1 : pre.lookup (now.Format ++ ".yml") = some d := by
    rw [hpre, afterWrites_yml _ _ _ _ _ _ (Format_ne_latest now), if_pos rfl]
  have h2 : pre.lookup "latest.yml" = some d := by
    rw [hpre, afterWrites_latest]
  have h3 : pre.lookup ".hash" = some (hashOf d) := by
    rw [hpre, afterWrites_hash]
  refine ⟨pre, h1, h2, h3, ?_⟩
  rw [heq]
  cases hr : f.readDir with
  | true =>
    rw [if_pos rfl]
    exact ⟨Or.inl rfl, h2, h3⟩
  | false =>
    rw [if_neg (by decide)]
    exact ⟨Or.inr rfl, (rotate_keeps_latest_hash s f.remove pre).1.trans h2,
      (rotate_keeps_latest_hash s f.remove pre).2.trans h3⟩

/-- After a `Save` that returned nil, `.hash` of the stack directory holds the hash
of the document. -/
theorem Save_ok_hash (s : Store) (ud : String → String → Option String) (now : Time)
    (f : Faults) (disk : Disk) (name d : String)
    (hok : (s.Save ud now f disk name d).2 = none) :
    TrimSpace (ReadFile (((s.Save ud now f disk name d).1
      (Join s.baseDir (sanitiseName name))).getD ∅) ".hash") = hashOf d := by
  have hd : d ≠ "" := ne_empty_of_Save_ok s ud now f disk name d none hok (by simp)
  by_cases hch : TrimSpace (ReadFile ((disk (Join s.baseDir (sanitiseName name))).getD ∅)
      ".hash") = hashOf d
  · rw [Save_unchanged s ud now f disk name d hd hch]
    exact hch
  · obtain ⟨pre, hpre, heq⟩ := Save_changed_ok s ud now f disk name d hch hok
    rw [heq, Function.update_same, Option.getD_some]
    unfold ReadFile
    rw [(rotate_keeps_latest_hash s f.remove pre).2, hpre, afterWrites_hash, Option.getD_some,
      trimSpace_hashOf]

theorem bind_lookup_getD (o : Option Dir) (q : String) :
    o.bind (fun dir => dir.lookup q) = (o.getD ∅).lookup q := by
  cases o with
  | none => rfl
  | some dir => rfl

/-- What a call of `Save` does to its stack directory: either the disk is returned
as it was, with the error of the empty document or of the directory creation,
or the stack directory holds the files the body of `Save` leaves, and the
result is the result of the body. -/
theorem Save_cases (s : Store) (ud : String → String → Option String) (now : Time)
    (f : Faults) (disk : Disk) (name d : String) :
    ((s.Save ud now f disk name d).1 = disk ∧
        ((s.Save ud now f disk name d).2 = some .emptyData ∨
          (s.Save ud now f disk name d).2 = some .createDir)) ∨
      ((s.Save ud now f disk name d).1 (Join s.baseDir (sanitiseName name)) =
          some (s.saveFiles ud now f ((disk (Join s.baseDir (sanitiseName name))).getD ∅) d).1 ∧
        (s.Save ud now f disk name d).2 =
          (s.saveFiles ud now f ((disk (Join s.baseDir (sanitiseName name))).getD ∅) d).2.1) := by
  by_cases hd : d = ""
  · rw [hd, Save_empty_doc]
    exact Or.inl ⟨rfl, Or.inl rfl⟩
  cases hk : disk (Join s.baseDir (sanitiseName name)) with
  | none =>
    cases hm : f.mkdirAll with
    | true =>
      rw [Save_of_no_dir s ud now f disk name d hd hk, hm, if_pos rfl]
      exact Or.inl ⟨rfl, Or.inr rfl⟩
    | false =>
      exact Or.inr (Save_on_no_dir s ud now f disk name d hd hk hm)
  | some dir =>
    exact Or.inr (Save_on_dir s ud now f disk name d dir hd hk)


/-! ## Snapshot store: hash ordering and shared stack state -/

/-- C18. The recorded content hash is updated last. For every disk, name and
document: if `Save` returns an error from writing the version file, from
writing `latest.yml`, from generating the diff or from writing the diff file,
`.hash` of the stack directory is exactly what it was before the call; and
whenever the call has changed `.hash`, every write succeeded (the call
returned nil or the error of `rotate`), and in the directory as it stood right
after the hash was written the version file and `latest.yml` hold the
document and `.hash` its hash; the stack directory afterwards is that
directory, pruned by `rotate` unless `rotate` failed, with `latest.yml`
holding the document and `.hash` its hash (also when a removal in `rotate`
fails). -/
theorem Save_hash_written_last (s : Store) (ud : String → String → Option String)
    (now : Time) (f : Faults) (disk : Disk) (name d : String) :
    (∀ e, (s.Save ud now f disk name d).2 = some e →
        (e = .writeVersion ∨ e = .writeLatest ∨ e = .generateDiff ∨ e = .writeDiff) →
        ((s.Save ud now f disk name d).1 (Join s.baseDir (sanitiseName name))).bind
            (fun dir => dir.lookup ".hash") =
          (disk (Join s.baseDir (sanitiseName name))).bind (fun dir => dir.lookup ".hash")) ∧
      (((s.Save ud now f disk name d).1 (Join s.baseDir (sanitiseName name))).bind
            (fun dir => dir.lookup ".hash") ≠
          (disk (Join s.baseDir (sanitiseName name))).bind (fun dir => dir.lookup ".hash") →
        ((s.Save ud now f disk name d).2 = none ∨
          (s.Save ud now f disk name d).2 = some .rotate) ∧
        ∃ pre : Dir,
          pre.lookup (now.Format ++ ".yml") = some d ∧ pre.lookup "latest.yml" = some d ∧
          pre.lookup ".hash" = some (hashOf d) ∧
          ((s.Save ud now f disk name d).1 (Join s.baseDir (sanitiseName name)) = some pre ∨
            (s.Save ud now f disk name d).1 (Join s.baseDir (sanitiseName name)) =
              some (s.rotate false f.remove pre).1) ∧
          ((s.Save ud now f disk name d).1 (Join s.baseDir (sanitiseName name))).bind
            (fun dir => dir.lookup "latest.yml") = some d ∧
          ((s.Save ud now f disk name d).1 (Join s.baseDir (sanitiseName name))).bind
            (fun dir => dir.lookup ".hash") = some (hashOf d)) := by
  rw [bind_lookup_getD (disk (Join s.baseDir (sanitiseName name)))]
  rcases Save_cases s ud now f disk name d with ⟨h1, -⟩ | ⟨h1, h2⟩
  · rw [h1, bind_lookup_getD]
    exact ⟨fun _ _ _ => rfl, fun h => absurd rfl h⟩
  · rw [h1, h2]
    simp only [Option.some_bind, Option.some.injEq]
    constructor
    · intro e he hcase
      have hrot : e ≠ .rotate := by
        rcases hcase with h | h | h | h <;> rw [h] <;> decide
      exact (saveFiles_err s ud now f _ d e he hrot ".hash" hash_ne_tmp).2.1 rfl
    · intro hset
      obtain ⟨hres, pre, a, b, c, hfin, hl, hh⟩ := saveFiles_hash_last s ud now f _ d hset
      exact ⟨hres, pre, a, b, c, hfin, hl, hh⟩

/-- C18 at sample inputs: a second call whose rename to `latest.yml` fails leaves
`.hash` as the first call wrote it; and the first call, on the empty disk,
changes `.hash`, so the version file and `latest.yml` hold its document. -/
theorem Save_hash_written_last_witness :
    (((sampleStore.Save sampleDiff (minute 1) latestRenameFails
        (sampleStore.Save sampleDiff (minute 0) Faults.never noDisk "shop" "A").1 "shop" "B").1
          (Join sampleStore.baseDir (sanitiseName "shop"))).bind
            (fun dir => dir.lookup ".hash") =
      ((sampleStore.Save sampleDiff (minute 0) Faults.never noDisk "shop" "A").1
          (Join sampleStore.baseDir (sanitiseName "shop"))).bind
            (fun dir => dir.lookup ".hash")) ∧
      ((sampleStore.Save sampleDiff (minute 0) Faults.never noDisk "shop" "A").1
          (Join sampleStore.baseDir (sanitiseName "shop"))).bind
            (fun dir => dir.lookup "latest.yml") = some "A" ∧
      ((sampleStore.Save sampleDiff (minute 0) Faults.never noDisk "shop" "A").1
          (Join sampleStore.baseDir (sanitiseName "shop"))).bind
            (fun dir => dir.lookup ".hash") = some (hashOf "A") := by
  obtain ⟨-, pre, -, -, -, -, hl, hh⟩ :=
    (Save_hash_written_last sampleStore sampleDiff (minute 0) Faults.never
      noDisk "shop" "A").2 (by decide!)
  exact ⟨(Save_hash_written_last sampleStore sampleDiff (minute 1) latestRenameFails
      (sampleStore.Save sampleDiff (minute 0) Faults.never noDisk "shop" "A").1 "shop" "B").1
      .writeLatest (by decide!) (Or.inr (Or.inl rfl)), hl, hh⟩

/-- C20. The function `sanitiseName` is not injective: the distinct names `a/b`
and `a_b` have the same sanitised identifier, hence the same stack directory.
`Save` uses a name only through its sanitised identifier: for two names with
the same identifier every call gives the same result for either name, and
after a `Save` of document `d` under the first name that returned nil (on the
empty disk or any other), a `Save` of `d` under the second name returns nil
and the disk exactly as it was, creating no directory and writing no file. -/
theorem Save_shares_sanitised_name (s : Store) (ud : String → String → Option String)
    (now now' : Time) (f f' : Faults) (disk : Disk) (n1 n2 d : String)
    (hsame : sanitiseName n1 = sanitiseName n2)
    (hok : (s.Save ud now f disk n1 d).2 = none) :
    "a/b" ≠ "a_b" ∧ sanitiseName "a/b" = sanitiseName "a_b" ∧
      Join s.baseDir (sanitiseName n1) = Join s.baseDir (sanitiseName n2) ∧
      (∀ (t : Time) (g : Faults) (disk' : Disk) (d' : String),
        s.Save ud t g disk' n1 d' = s.Save ud t g disk' n2 d') ∧
      s.Save ud now' f' (s.Save ud now f disk n1 d).1 n2 d =
        ((s.Save ud now f disk n1 d).1, none) := by
  have hd : d ≠ "" := ne_empty_of_Save_ok s ud now f disk n1 d none hok (by simp)
  refine ⟨by decide, by decide, by rw [hsame], ?_, ?_⟩
  · intro t g disk' d'
    unfold Store.Save
    rw [hsame]
  · apply Save_unchanged s ud now' f' _ n2 d hd
    rw [← hsame]
    exact Save_ok_hash s ud now f disk n1 d hok

/-- C20 at a sample input: after saving "A" under `a/b` on the empty disk, saving
"A" under `a_b` a minute later changes nothing. -/
theorem Save_shares_sanitised_name_witness :
    sampleStore.Save sampleDiff (minute 1) Faults.never
        (sampleStore.Save sampleDiff (minute 0) Faults.never noDisk "a/b" "A").1 "a_b" "A" =
      ((sampleStore.Save sampleDiff (minute 0) Faults.never noDisk "a/b" "A").1, none) :=
  (Save_shares_sanitised_name sampleStore sampleDiff (minute 0) (minute 1) Faults.never
    Faults.never noDisk "a/b" "a_b" "A" (by decide) (by decide!)).2.2.2.2


end StackSnap
